import Mathlib

/-!
# FlakeGuard detection engine (`detect.go`)

A shallow embedding of `Aggregate`, `BetaFlaky`, `Classify` and `Detect`.

Conventions of the embedding:

* a Go `string` is the list of its characters (`Str`);
* the counters `Pass` and `Fail` are Go `int`s that start at zero and are only ever
  incremented, they are natural numbers here; `int` is the 64-bit type, and the sums
  `pass + fail` of `BetaFlaky` and `n := r.Pass + r.Fail` of `Detect` wrap as in Go
  (`wrapInt`), so that `Runs` is an integer; once the guard of `BetaFlaky` is passed by
  counters in the `int` range, `pass + 1` and `fail + 1` are in range as well;
* `BetaFlaky` and the cumulated durations of `Aggregate` are computed over the real numbers
  (`math.Erf` is the error function): the values that the `float64` computation approximates;
* the fields that `Detect` computes are `float64` values, of type `F64`: NaN, an infinity, or
  a finite value; every operation on them rounds to nearest, ties to even (`rnd64`), and
  overflows to an infinity as IEEE 754 does. `TotalTime`, `costPerMin` and `prob` enter this
  arithmetic as the `float64` nearest to the real number that stands for them, `+Inf` or
  `-Inf` past the range: a real total `≥ 2 ^ 1024` stands for a sum of durations that has
  overflowed (for durations whose partial sums are `float64` values, as in the examples
  below, the real sum rounded once is the `float64` sum). The two zeros are one value: the divisors of `Detect` are
  `float64(n)`, `60`, `100` and `1000`, none of which is `-0`, and no comparison sees the
  sign of a zero;
* a Go `map[string]*TestRecord` is an association list with distinct keys, `Detect`
  visits it in list order (Go leaves the order unspecified);
* `strings.ToLower` belongs to the Go standard library, `Classify` and `Detect` take it as
  the argument `lower`; `ToLowerASCII` is its action on ASCII text.
-/

namespace FlakeGuard

/-- Go `string`: the sequence of its characters. -/
abbrev Str := List Char

/-- A `float64` value: NaN, an infinity with its sign (`neg = true` for `-Inf`), or a finite
value, given by the real number it denotes. -/
inductive F64 where
  | nan : F64
  | inf (neg : Bool) : F64
  | fin (x : ℝ) : F64

/-- The `failure` child of a test case. -/
structure xmlFailure where
  Message : Str
  Body : Str

/-- One outcome of one run; `Failure = none` is Go's nil pointer (the test passed). -/
structure TestCase where
  Name : Str
  Class : Str
  Time : ℝ
  Failure : Option xmlFailure

/-- Per-test aggregate over all runs. -/
structure TestRecord where
  Name : Str
  Class : Str
  Pass : Nat
  Fail : Nat
  TotalTime : ℝ
  Errors : List Str

/-- One entry of the report. -/
structure FlakyTest where
  Name : Str
  Class : Str
  PassRate : F64
  FlakyProb : F64
  RootCause : Str
  Runs : Int
  AvgTime : F64
  CICostUSD : F64
  Suggestion : Str

/-- Go `map[string]*TestRecord`. -/
abbrev RecMap := List (Str × TestRecord)

/-- Map read `m[k]`; `none` is the nil pointer of an absent key. -/
def mapGet : RecMap → Str → Option TestRecord
  | [], _ => none
  | (k', r) :: rest, k => if k' = k then some r else mapGet rest k

/-- Map write `m[k] = r` (also stands for a mutation through the pointer stored at `k`). -/
def mapSet : RecMap → Str → TestRecord → RecMap
  | [], k, r => [(k, r)]
  | (k', r') :: rest, k, r => if k' = k then (k, r) :: rest else (k', r') :: mapSet rest k r

/-- The map key of an outcome: `tc.Class + "::" + tc.Name`. -/
def caseKey (tc : TestCase) : Str := tc.Class ++ "::".toList ++ tc.Name

/-- Body of the inner loop of `Aggregate` for one outcome. -/
noncomputable def addCase (m : RecMap) (tc : TestCase) : RecMap :=
  let key := caseKey tc
  let r : TestRecord := match mapGet m key with
    | some r => r
    | none => { Name := tc.Name, Class := tc.Class, Pass := 0, Fail := 0, TotalTime := 0, Errors := [] }
  let r : TestRecord := match tc.Failure with
    | some f => { r with Fail := r.Fail + 1, Errors := r.Errors ++ [f.Message ++ " ".toList ++ f.Body] }
    | none => { r with Pass := r.Pass + 1 }
  mapSet m key { r with TotalTime := r.TotalTime + tc.Time }

/-- `Aggregate`: folds the runs, in order, into one record per key. -/
noncomputable def Aggregate (runs : List (List TestCase)) : RecMap :=
  runs.foldl (fun m cases => cases.foldl addCase m) []

/-- A mathematical integer as the 64-bit `int` holding it: two's complement wrap-around. -/
def wrapInt (x : Int) : Int :=
  (x + 9223372036854775808) % 18446744073709551616 - 9223372036854775808

/-- `math.Erf`: the error function `2/√π ∫₀ˣ exp(-t²) dt`. -/
noncomputable def erf (x : ℝ) : ℝ :=
  2 / Real.sqrt Real.pi * ∫ t in (0 : ℝ)..x, Real.exp (-(t ^ 2))

/-- The closure `phi` of `BetaFlaky`: the standard normal CDF. -/
noncomputable def phi (x : ℝ) : ℝ := 0.5 * (1 + erf (x / Real.sqrt 2))

/-- `BetaFlaky`: normal approximation of the Beta(pass+1, fail+1) mass on (0.05, 0.95). -/
noncomputable def BetaFlaky (pass fail : Nat) : ℝ :=
  if wrapInt ((pass : Int) + (fail : Int)) < 2 ∨ fail = 0 ∨ pass = 0 then 0
  else
    let a : ℝ := ((pass + 1 : Nat) : ℝ)
    let b : ℝ := ((fail + 1 : Nat) : ℝ)
    let mu := a / (a + b)
    let sd := Real.sqrt (a * b / ((a + b) * (a + b) * (a + b + 1)))
    if sd < 1e-10 then 0
    else phi ((0.95 - mu) / sd) - phi ((0.05 - mu) / sd)

/-- One row of the rule table: tag, comma-separated keywords, suggestion. -/
structure rootCause where
  tag : Str
  kws : Str
  fix : Str

/-- The rule table `rootCauses`, in source order. -/
def rootCauses : List rootCause :=
  [ ⟨"race-condition".toList, "race,concurrent,mutex,lock,deadlock,thread".toList,
      "Add synchronization; isolate shared state per test".toList⟩,
    ⟨"timing-dependency".toList, "timeout,deadline,sleep,elapsed,timed out".toList,
      "Replace sleeps with polling/retry; shorten timeouts".toList⟩,
    ⟨"timezone".toList, "timezone,utc,datetime,date_format,localtime".toList,
      "Pin TZ=UTC; use time-freezing libraries".toList⟩,
    ⟨"network".toList, "connection,network,econnrefused,dns,socket,refused".toList,
      "Mock external calls; use httptest/wiremock".toList⟩,
    ⟨"floating-point".toList, "precision,float,decimal,epsilon,almost".toList,
      "Use approximate assertions with epsilon tolerance".toList⟩,
    ⟨"test-ordering".toList, "order,sequence,setup,teardown,depends".toList,
      "Ensure independent setup/teardown per test".toList⟩,
    ⟨"shared-state".toList, "state,cache,global,singleton,pollution".toList,
      "Reset shared state in setUp; use fresh fixtures".toList⟩ ]

/-- `strings.Join(elems, sep)`. -/
def Join : List Str → Str → Str
  | [], _ => []
  | [x], _ => x
  | x :: y :: rest, sep => x ++ sep ++ Join (y :: rest) sep

/-- `strings.Split(s, sep)` for a one-character separator. -/
def Split : Str → Char → List Str
  | [], _ => [[]]
  | c :: cs, sep =>
    if c = sep then [] :: Split cs sep
    else match Split cs sep with
      | [] => [[c]]
      | w :: ws => (c :: w) :: ws

/-- `strings.Contains(s, substr)`: `substr` starts at some position of `s`. -/
def Contains (s substr : Str) : Bool :=
  s.tails.any (fun t => substr.isPrefixOf t)

/-- The action of `strings.ToLower` on ASCII text: `A`..`Z` become `a`..`z`. -/
def ToLowerASCII (s : Str) : Str := s.map Char.toLower

/-- The inner loop of `Classify`: some keyword of the rule occurs in `text`. -/
def ruleMatches (text : Str) (c : rootCause) : Bool :=
  (Split c.kws ',').any (fun kw => Contains text kw)

/-- The outer loop of `Classify`: the first rule with a keyword in `text`, if any. -/
def scanRules (text : Str) : List rootCause → Option (Str × Str)
  | [] => none
  | c :: rest => if ruleMatches text c then some (c.tag, c.fix) else scanRules text rest

/-- `Classify`: tag and suggestion of the first matching rule, `unknown` otherwise. -/
def Classify (lower : Str → Str) (errors : List Str) : Str × Str :=
  let text := lower (Join errors " ".toList)
  match scanRules text rootCauses with
  | some res => res
  | none => ("unknown".toList, "Run tests in random order; check for hidden shared state".toList)

/-- `math.Round`: nearest integer, halves away from zero. -/
noncomputable def goRound (x : ℝ) : ℝ :=
  if 0 ≤ x then (⌊x + 1 / 2⌋ : ℝ) else (⌈x - 1 / 2⌉ : ℝ)

/-- Nearest integer, a tie going to the even neighbour. -/
noncomputable def roundEven (t : ℝ) : ℤ :=
  if t - ⌊t⌋ < 1 / 2 then ⌊t⌋
  else if 1 / 2 < t - ⌊t⌋ then ⌊t⌋ + 1
  else if Even ⌊t⌋ then ⌊t⌋ else ⌊t⌋ + 1

/-- Exponent of the spacing of the `float64` grid at the magnitude of `x`: 53 significant bits
for a normal number, `2 ^ (-1074)` below `2 ^ (-1022)`. -/
noncomputable def ulpExp (x : ℝ) : ℤ := max (Int.log 2 |x| - 52) (-1074)

/-- Rounding of a real number to `float64`, IEEE 754 round-to-nearest-even: the nearest point of
the grid at the magnitude of `x`, an infinity once that point reaches `2 ^ 1024`. -/
noncomputable def rnd64 (x : ℝ) : F64 :=
  let r : ℝ := (roundEven (x / (2 : ℝ) ^ ulpExp x) : ℝ) * (2 : ℝ) ^ ulpExp x
  if (2 : ℝ) ^ (1024 : ℕ) ≤ |r| then F64.inf (decide (x < 0)) else F64.fin r

/-- The conversion `float64(n)` of an `int`. -/
noncomputable def ofInt (n : Int) : F64 := rnd64 (n : ℝ)

/-- The product `x * y` of two `float64`s. -/
noncomputable def fmul : F64 → F64 → F64
  | F64.nan, _ => F64.nan
  | _, F64.nan => F64.nan
  | F64.inf s, F64.inf t => F64.inf (xor s t)
  | F64.inf s, F64.fin y => if y = 0 then F64.nan else F64.inf (xor s (decide (y < 0)))
  | F64.fin x, F64.inf t => if x = 0 then F64.nan else F64.inf (xor (decide (x < 0)) t)
  | F64.fin x, F64.fin y => rnd64 (x * y)

/-- The quotient `x / y` of two `float64`s; a zero divisor is `+0`. -/
noncomputable def fdiv : F64 → F64 → F64
  | F64.nan, _ => F64.nan
  | _, F64.nan => F64.nan
  | F64.inf _, F64.inf _ => F64.nan
  | F64.inf s, F64.fin y => F64.inf (xor s (decide (y < 0)))
  | F64.fin _, F64.inf _ => F64.fin 0
  | F64.fin x, F64.fin y =>
    if y = 0 then (if x = 0 then F64.nan else F64.inf (decide (x < 0))) else rnd64 (x / y)

/-- `math.Round` on a `float64`: NaN and the infinities are returned as they are. -/
noncomputable def fround : F64 → F64
  | F64.fin x => F64.fin (goRound x)
  | v => v

/-- The expression `math.Round(y * q) / q`, on `float64`s. -/
noncomputable def decRound (q : ℝ) (y : F64) : F64 :=
  fdiv (fround (fmul y (F64.fin q))) (F64.fin q)

/-- The report entry `Detect` appends for a record that passed the threshold. The `int` sum
`n` wraps; the `float64` fields `TotalTime`, `costPerMin` and `prob` enter as the `float64`
nearest to the real number that stands for them. -/
noncomputable def mkEntry (lower : Str → Str) (r : TestRecord) (costPerMin prob : ℝ) : FlakyTest :=
  let n : Int := wrapInt ((r.Pass : Int) + (r.Fail : Int))
  let cf := Classify lower r.Errors
  let avg : F64 := fdiv (rnd64 r.TotalTime) (ofInt n)
  let cost : F64 := fmul (fdiv (fmul (ofInt (r.Fail : Int)) avg) (F64.fin 60)) (rnd64 costPerMin)
  { Name := r.Name, Class := r.Class,
    PassRate := decRound 1000 (fdiv (ofInt (r.Pass : Int)) (ofInt n)),
    FlakyProb := decRound 1000 (rnd64 prob), RootCause := cf.1,
    Runs := n, AvgTime := decRound 100 avg,
    CICostUSD := decRound 100 cost, Suggestion := cf.2 }

/-- `Detect`: one pass over the records, appending an entry unless `prob < threshold`. -/
noncomputable def Detect (lower : Str → Str) (records : RecMap) (costPerMin threshold : ℝ) :
    List FlakyTest :=
  records.foldl (fun out kr =>
    let r := kr.2
    let prob := BetaFlaky r.Pass r.Fail
    if prob < threshold then out
    else out ++ [mkEntry lower r costPerMin prob]) []

/-- The rule table as the specification words it (§4.3): tag and suggestion, in order. -/
def specRuleTable : List (Str × Str) :=
  [ ("race-condition".toList, "Add synchronization; isolate shared state per test".toList),
    ("timing-dependency".toList, "Replace sleeps with polling/retry; shorten timeouts".toList),
    ("timezone".toList, "Pin TZ=UTC; use time-freezing libraries".toList),
    ("network".toList, "Mock external calls; use a test HTTP double".toList),
    ("floating-point".toList, "Use approximate assertions with epsilon tolerance".toList),
    ("test-ordering".toList, "Ensure independent setup/teardown per test".toList),
    ("shared-state".toList, "Reset shared state in setUp; use fresh fixtures".toList) ]

/-- An outcome has the identity `(cls, name)`. -/
def sameId (cls name : Str) (tc : TestCase) : Bool :=
  decide (tc.Class = cls) && decide (tc.Name = name)

/-- Number of outcomes, over all runs, with the identity `(cls, name)`. -/
def occurrences (runs : List (List TestCase)) (cls name : Str) : Nat :=
  (runs.flatten.filter (sameId cls name)).length

/-- Number of runs in which the identity `(cls, name)` appears. -/
def runsWith (runs : List (List TestCase)) (cls name : Str) : Nat :=
  (runs.filter (fun run => run.any (sameId cls name))).length

/-- Observations counted in the record stored under a key (`0` when there is none). -/
def observed : Option TestRecord → Nat
  | some r => r.Pass + r.Fail
  | none => 0

/-- The record of `auth::test_token` after the three runs of the test file: one pass, two
failures, durations 1.2, 0.8 and 1.0. -/
noncomputable def tokenRecord : TestRecord :=
  { Name := "test_token".toList, Class := "auth".toList, Pass := 1, Fail := 2, TotalTime := 3,
    Errors := ["timeout waiting connection timed out".toList, "deadline exceeded timeout".toList] }

/-- The failure snippet an outcome contributes: message, a space, body; none for a pass. -/
def snippet (tc : TestCase) : Option Str :=
  tc.Failure.map (fun f => f.Message ++ " ".toList ++ f.Body)

/-- The outcomes counted in the record stored under key `k`, in order of occurrence (run order,
then position within the run). -/
def countedIn (runs : List (List TestCase)) (k : Str) : List TestCase :=
  runs.flatten.filter (fun tc => decide (caseKey tc = k))

/-- The record after one more outcome: body of the inner loop of `Aggregate`, given what the
map held under the outcome's key. -/
noncomputable def bump (o : Option TestRecord) (tc : TestCase) : TestRecord :=
  let r : TestRecord := match o with
    | some r => r
    | none => { Name := tc.Name, Class := tc.Class, Pass := 0, Fail := 0, TotalTime := 0, Errors := [] }
  let r : TestRecord := match tc.Failure with
    | some f => { r with Fail := r.Fail + 1, Errors := r.Errors ++ [f.Message ++ " ".toList ++ f.Body] }
    | none => { r with Pass := r.Pass + 1 }
  { r with TotalTime := r.TotalTime + tc.Time }

/-- Failure count of the record stored under a key (`0` when there is none). -/
def failsOf : Option TestRecord → Nat
  | some r => r.Fail
  | none => 0

/-- Failure texts of the record stored under a key (empty when there is none). -/
def errorsOf : Option TestRecord → List Str
  | some r => r.Errors
  | none => []

/-- Cumulative duration of the record stored under a key (`0` when there is none). -/
noncomputable def timeOf : Option TestRecord → ℝ
  | some r => r.TotalTime
  | none => 0

/-- The local `mu` of `BetaFlaky`: mean of the Beta(pass+1, fail+1) posterior. -/
noncomputable def betaMean (pass fail : Nat) : ℝ :=
  ((pass + 1 : Nat) : ℝ) / (((pass + 1 : Nat) : ℝ) + ((fail + 1 : Nat) : ℝ))

/-- The local `sd` of `BetaFlaky`: standard deviation of the Beta(pass+1, fail+1) posterior. -/
noncomputable def betaStdDev (pass fail : Nat) : ℝ :=
  Real.sqrt (((pass + 1 : Nat) : ℝ) * ((fail + 1 : Nat) : ℝ) /
    ((((pass + 1 : Nat) : ℝ) + ((fail + 1 : Nat) : ℝ)) *
      (((pass + 1 : Nat) : ℝ) + ((fail + 1 : Nat) : ℝ)) *
      (((pass + 1 : Nat) : ℝ) + ((fail + 1 : Nat) : ℝ) + 1)))

/-- The outcomes of `xmlRun1` of the test file. -/
noncomputable def xmlRun1 : List TestCase :=
  [ ⟨"test_login".toList, "auth".toList, 0.5, none⟩,
    ⟨"test_token".toList, "auth".toList, 1.2,
      some ⟨"timeout waiting".toList, "connection timed out".toList⟩⟩,
    ⟨"test_calc".toList, "core".toList, 0.1, none⟩ ]

/-- The outcomes of `xmlRun2` of the test file. -/
noncomputable def xmlRun2 : List TestCase :=
  [ ⟨"test_login".toList, "auth".toList, 0.4, none⟩,
    ⟨"test_token".toList, "auth".toList, 0.8, none⟩,
    ⟨"test_calc".toList, "core".toList, 0.12,
      some ⟨"race detected".toList, "concurrent map writes".toList⟩⟩ ]

/-- The outcomes of `xmlRun3` of the test file. -/
noncomputable def xmlRun3 : List TestCase :=
  [ ⟨"test_login".toList, "auth".toList, 0.5, none⟩,
    ⟨"test_token".toList, "auth".toList, 1.0,
      some ⟨"deadline exceeded".toList, "timeout".toList⟩⟩,
    ⟨"test_calc".toList, "core".toList, 0.11, none⟩ ]

/-- Twice the estimate as a function of the ratio `y = √(a/b)` of the posterior parameters
`a = pass+1`, `b = fail+1`, at the scale `c = √((a+b+1)/2)` fixed by the total. -/
noncomputable def splitCurve (c y : ℝ) : ℝ :=
  erf (c * (0.95 / y - 0.05 * y)) + erf (c * (0.95 * y - 0.05 / y))

/-- The Go comparison `v >= 0` on a `float64`: false for NaN, true for `+Inf`. -/
def F64.nonneg : F64 → Prop
  | F64.nan => False
  | F64.inf neg => neg = false
  | F64.fin x => 0 ≤ x

/-- Three runs of one test `c::t`: it fails twice, each time after `2 ^ 1023` seconds, and
passes once. -/
noncomputable def overflowRuns : List (List TestCase) :=
  [ [⟨"t".toList, "c".toList, 2 ^ (1023 : ℕ), some ⟨[], []⟩⟩],
    [⟨"t".toList, "c".toList, 2 ^ (1023 : ℕ), some ⟨[], []⟩⟩],
    [⟨"t".toList, "c".toList, 0, none⟩] ]

/-- Eight runs of one test `c::t`, each lasting an eighth of a second: four failures, then four
passes. -/
noncomputable def eighthRuns : List (List TestCase) :=
  [ [⟨"t".toList, "c".toList, 1 / 8, some ⟨[], []⟩⟩], [⟨"t".toList, "c".toList, 1 / 8, some ⟨[], []⟩⟩],
    [⟨"t".toList, "c".toList, 1 / 8, some ⟨[], []⟩⟩], [⟨"t".toList, "c".toList, 1 / 8, some ⟨[], []⟩⟩],
    [⟨"t".toList, "c".toList, 1 / 8, none⟩], [⟨"t".toList, "c".toList, 1 / 8, none⟩],
    [⟨"t".toList, "c".toList, 1 / 8, none⟩], [⟨"t".toList, "c".toList, 1 / 8, none⟩] ]

/-- Three runs of one test `c::t`: a failure after `2 ^ 60` seconds, then two immediate
passes. -/
noncomputable def longRuns : List (List TestCase) :=
  [ [⟨"t".toList, "c".toList, 2 ^ (60 : ℕ), some ⟨[], []⟩⟩],
    [⟨"t".toList, "c".toList, 0, none⟩], [⟨"t".toList, "c".toList, 0, none⟩] ]

/-! ## Strings and the classifier -/

theorem contains_iff (s sub : Str) :
    Contains s sub = true ↔ ∃ l r, s = l ++ sub ++ r := by
  unfold Contains
  rw [List.any_eq_true]
  constructor
  · rintro ⟨t, ht, hp⟩
    rw [List.mem_tails] at ht
    rw [List.isPrefixOf_iff_prefix] at hp
    obtain ⟨l, hl⟩ := ht
    obtain ⟨r, hr⟩ := hp
    exact ⟨l, r, by rw [← hl, ← hr, List.append_assoc]⟩
  · rintro ⟨l, r, h⟩
    refine ⟨sub ++ r, ?_, ?_⟩
    · rw [List.mem_tails]
      exact ⟨l, by rw [h, List.append_assoc]⟩
    · rw [List.isPrefixOf_iff_prefix]
      exact ⟨r, rfl⟩

theorem ruleMatches_iff (text : Str) (c : rootCause) :
    ruleMatches text c = true ↔ ∃ kw ∈ Split c.kws ',', ∃ l r, text = l ++ kw ++ r := by
  unfold ruleMatches
  rw [List.any_eq_true]
  constructor
  · rintro ⟨kw, hkw, h⟩
    exact ⟨kw, hkw, (contains_iff text kw).1 h⟩
  · rintro ⟨kw, hkw, h⟩
    exact ⟨kw, hkw, (contains_iff text kw).2 h⟩

theorem ruleMatches_false_iff (text : Str) (c : rootCause) :
    ruleMatches text c = false ↔ ∀ kw ∈ Split c.kws ',', ¬ ∃ l r, text = l ++ kw ++ r := by
  rw [← Bool.not_eq_true, ruleMatches_iff]
  push_neg
  rfl

/-- What the outer loop returns: nothing when no rule matches, else the first matching rule. -/
theorem scanRules_spec (text : Str) (rules : List rootCause) :
    (scanRules text rules = none ∧ ∀ c ∈ rules, ruleMatches text c = false) ∨
    ∃ i, ∃ hi : i < rules.length,
      scanRules text rules = some ((rules.get ⟨i, hi⟩).tag, (rules.get ⟨i, hi⟩).fix) ∧
      ruleMatches text (rules.get ⟨i, hi⟩) = true ∧
      ∀ j, ∀ hj : j < i, ruleMatches text (rules.get ⟨j, hj.trans hi⟩) = false := by
  induction rules with
  | nil => left; simp [scanRules]
  | cons c rest ih =>
    by_cases hc : ruleMatches text c = true
    · right
      refine ⟨0, by simp, ?_, ?_, ?_⟩
      · simp [scanRules, hc]
      · simpa using hc
      · intro j hj; omega
    · have hc' : ruleMatches text c = false := by simpa using hc
      rcases ih with ⟨hn, hall⟩ | ⟨i, hi, hs, hm, hlt⟩
      · left
        refine ⟨by simp [scanRules, hc', hn], ?_⟩
        intro c' hmem
        rcases List.mem_cons.1 hmem with h | h
        · rw [h]; exact hc'
        · exact hall c' h
      · right
        refine ⟨i + 1, by simpa using hi, ?_, ?_, ?_⟩
        · simpa [scanRules, hc'] using hs
        · simpa using hm
        · intro j hj
          cases j with
          | zero => simpa using hc'
          | succ j => simpa using hlt j (by omega)

theorem rootCauses_tag_injective :
    ∀ i j : Fin rootCauses.length, (rootCauses.get i).tag = (rootCauses.get j).tag → i = j := by
  decide

theorem rootCauses_tag_ne_unknown :
    ∀ i : Fin rootCauses.length, (rootCauses.get i).tag ≠ "unknown".toList := by
  decide

/-- The keywords of the seven rules, as `strings.Split` cuts them out of the table. -/
theorem rootCauses_keywords :
    rootCauses.map (fun c => Split c.kws ',') =
      [ ["race".toList, "concurrent".toList, "mutex".toList, "lock".toList, "deadlock".toList,
          "thread".toList],
        ["timeout".toList, "deadline".toList, "sleep".toList, "elapsed".toList,
          "timed out".toList],
        ["timezone".toList, "utc".toList, "datetime".toList, "date_format".toList,
          "localtime".toList],
        ["connection".toList, "network".toList, "econnrefused".toList, "dns".toList,
          "socket".toList, "refused".toList],
        ["precision".toList, "float".toList, "decimal".toList, "epsilon".toList,
          "almost".toList],
        ["order".toList, "sequence".toList, "setup".toList, "teardown".toList,
          "depends".toList],
        ["state".toList, "cache".toList, "global".toList, "singleton".toList,
          "pollution".toList] ] := by
  decide

/-- The two ways `Classify` returns: the fallback, or the first matching rule. -/
theorem classify_cases (lower : Str → Str) (errors : List Str) :
    (Classify lower errors = ("unknown".toList,
        "Run tests in random order; check for hidden shared state".toList) ∧
      ∀ c ∈ rootCauses, ruleMatches (lower (Join errors " ".toList)) c = false) ∨
    ∃ i, ∃ hi : i < rootCauses.length,
      Classify lower errors = ((rootCauses.get ⟨i, hi⟩).tag, (rootCauses.get ⟨i, hi⟩).fix) ∧
      ruleMatches (lower (Join errors " ".toList)) (rootCauses.get ⟨i, hi⟩) = true ∧
      ∀ j, ∀ hj : j < i,
        ruleMatches (lower (Join errors " ".toList)) (rootCauses.get ⟨j, hj.trans hi⟩) = false := by
  rcases scanRules_spec (lower (Join errors " ".toList)) rootCauses with
    ⟨hn, hall⟩ | ⟨i, hi, hs, hm, hlt⟩
  · left
    exact ⟨by simp only [Classify, hn], hall⟩
  · right
    exact ⟨i, hi, by simp only [Classify, hs], hm, hlt⟩

/-- C4: the rules are tried in the fixed order race-condition, timing-dependency, timezone,
network, floating-point, test-ordering, shared-state, and the first matching rule wins:
`Classify` returns the tag of rule `i` exactly when some keyword of rule `i` is a substring of
the lower-cased, space-joined text and no keyword of an earlier rule is; a text containing
`race` is tagged race-condition whatever else it contains, and `connection refused` is tagged
network. -/
theorem classify_first_match (lower : Str → Str) (errors : List Str) (i : Nat)
    (hi : i < rootCauses.length) :
    ((Classify lower errors).1 = (rootCauses.get ⟨i, hi⟩).tag ↔
      (∃ kw ∈ Split (rootCauses.get ⟨i, hi⟩).kws ',',
          ∃ l r, lower (Join errors " ".toList) = l ++ kw ++ r) ∧
        ∀ j, ∀ hj : j < i, ∀ kw ∈ Split (rootCauses.get ⟨j, hj.trans hi⟩).kws ',',
          ¬ ∃ l r, lower (Join errors " ".toList) = l ++ kw ++ r) ∧
    rootCauses.map (fun c => c.tag) =
      ["race-condition".toList, "timing-dependency".toList, "timezone".toList,
        "network".toList, "floating-point".toList, "test-ordering".toList,
        "shared-state".toList] ∧
    ((∃ l r, lower (Join errors " ".toList) = l ++ "race".toList ++ r) →
      (Classify lower errors).1 = "race-condition".toList) ∧
    (Classify ToLowerASCII ["connection refused".toList]).1 = "network".toList := by
  refine ⟨?_, by decide, ?_, by decide⟩
  · rw [← ruleMatches_iff]
    simp only [← ruleMatches_false_iff]
    constructor
    · intro h
      rcases classify_cases lower errors with ⟨hu, _⟩ | ⟨k, hk, hc, hm, hlt⟩
      · rw [hu] at h
        exact absurd h.symm (rootCauses_tag_ne_unknown ⟨i, hi⟩)
      · rw [hc] at h
        have hki : (⟨k, hk⟩ : Fin rootCauses.length) = ⟨i, hi⟩ :=
          rootCauses_tag_injective ⟨k, hk⟩ ⟨i, hi⟩ h
        have hki' : k = i := congrArg Fin.val hki
        subst hki'
        exact ⟨hm, hlt⟩
    · rintro ⟨hm, hlt⟩
      rcases classify_cases lower errors with ⟨_, hall⟩ | ⟨k, hk, hc, hkm, hklt⟩
      · have := hall _ (List.get_mem rootCauses i hi)
        rw [hm] at this
        exact absurd this (by decide)
      · rcases Nat.lt_trichotomy k i with h | h | h
        · have := hlt k h
          rw [hkm] at this
          exact absurd this (by decide)
        · subst h
          rw [hc]
        · have := hklt i h
          rw [hm] at this
          exact absurd this (by decide)
  · intro hrace
    have h0 : ruleMatches (lower (Join errors " ".toList))
        (rootCauses.get ⟨0, by decide⟩) = true := by
      rw [ruleMatches_iff]
      exact ⟨"race".toList, by decide, hrace⟩
    rcases classify_cases lower errors with ⟨_, hall⟩ | ⟨k, hk, hc, _, hklt⟩
    · have := hall _ (List.get_mem rootCauses 0 (by decide))
      rw [h0] at this
      exact absurd this (by decide)
    · cases k with
      | zero => rw [hc]; rfl
      | succ k =>
        have := hklt 0 (Nat.succ_pos k)
        rw [h0] at this
        exact absurd this (by decide)

/-- Witness of C4 at rule 3 (network) on the text `connection refused`. -/
theorem classify_first_match_witness :
    (3 < rootCauses.length) ∧
    ((Classify ToLowerASCII ["connection refused".toList]).1 =
        (rootCauses.get ⟨3, by decide⟩).tag ↔
      (∃ kw ∈ Split (rootCauses.get ⟨3, by decide⟩).kws ',',
          ∃ l r, ToLowerASCII (Join ["connection refused".toList] " ".toList) = l ++ kw ++ r) ∧
        ∀ j, ∀ hj : j < 3, ∀ kw ∈ Split (rootCauses.get ⟨j, hj.trans (by decide)⟩).kws ',',
          ¬ ∃ l r, ToLowerASCII (Join ["connection refused".toList] " ".toList) = l ++ kw ++ r) :=
  ⟨by decide, (classify_first_match ToLowerASCII ["connection refused".toList] 3 (by decide)).1⟩

/-- C7: `Classify` returns the tag `unknown` with the suggestion
`Run tests in random order; check for hidden shared state` exactly when no keyword of any of the
seven rules is a substring of the lower-cased, space-joined input; this is the result for the
empty list and for `random unknown error`. -/
theorem classify_unknown_iff (lower : Str → Str) (errors : List Str) :
    (Classify lower errors = ("unknown".toList,
        "Run tests in random order; check for hidden shared state".toList) ↔
      ∀ c ∈ rootCauses, ∀ kw ∈ Split c.kws ',',
        ¬ ∃ l r, lower (Join errors " ".toList) = l ++ kw ++ r) ∧
    rootCauses.length = 7 ∧
    Classify ToLowerASCII [] = ("unknown".toList,
        "Run tests in random order; check for hidden shared state".toList) ∧
    Classify ToLowerASCII ["random unknown error".toList] = ("unknown".toList,
        "Run tests in random order; check for hidden shared state".toList) := by
  refine ⟨?_, by decide, by decide, by decide⟩
  simp only [← ruleMatches_false_iff]
  constructor
  · intro h
    rcases classify_cases lower errors with ⟨_, hall⟩ | ⟨k, hk, hc, _, _⟩
    · exact hall
    · rw [hc] at h
      exact absurd (congrArg Prod.fst h) (rootCauses_tag_ne_unknown ⟨k, hk⟩)
  · intro hall
    rcases classify_cases lower errors with ⟨hu, _⟩ | ⟨k, hk, _, hm, _⟩
    · exact hu
    · have := hall _ (List.get_mem rootCauses k hk)
      rw [hm] at this
      exact absurd this (by decide)

/-- C8, counterexample: on `connection refused` the tag is `network` and the suggestion is
`Mock external calls; use httptest/wiremock`, which is not the suggestion the rule table of the
specification pairs with `network`. -/
theorem classify_network_suggestion_not_spec :
    Classify ToLowerASCII ["connection refused".toList] =
      ("network".toList, "Mock external calls; use httptest/wiremock".toList) ∧
    ("network".toList, "Mock external calls; use a test HTTP double".toList) ∈ specRuleTable ∧
    Classify ToLowerASCII ["connection refused".toList] ∉ specRuleTable := by
  decide

/-- C8, amended: for every input the suggestion `Classify` returns is non-empty and is the one
the rule table of the code pairs with the returned tag; the table is that of the specification
except for network, whose suggestion is `Mock external calls; use httptest/wiremock`. -/
theorem classify_suggestion_table (lower : Str → Str) (errors : List Str) :
    (Classify lower errors).2 ≠ [] ∧
    Classify lower errors ∈
      [ ("race-condition".toList, "Add synchronization; isolate shared state per test".toList),
        ("timing-dependency".toList, "Replace sleeps with polling/retry; shorten timeouts".toList),
        ("timezone".toList, "Pin TZ=UTC; use time-freezing libraries".toList),
        ("network".toList, "Mock external calls; use httptest/wiremock".toList),
        ("floating-point".toList, "Use approximate assertions with epsilon tolerance".toList),
        ("test-ordering".toList, "Ensure independent setup/teardown per test".toList),
        ("shared-state".toList, "Reset shared state in setUp; use fresh fixtures".toList),
        ("unknown".toList, "Run tests in random order; check for hidden shared state".toList) ] := by
  have hfix : ∀ i : Fin rootCauses.length, (rootCauses.get i).fix ≠ [] := by decide
  have hmem : ∀ i : Fin rootCauses.length, ((rootCauses.get i).tag, (rootCauses.get i).fix) ∈
      [ ("race-condition".toList, "Add synchronization; isolate shared state per test".toList),
        ("timing-dependency".toList, "Replace sleeps with polling/retry; shorten timeouts".toList),
        ("timezone".toList, "Pin TZ=UTC; use time-freezing libraries".toList),
        ("network".toList, "Mock external calls; use httptest/wiremock".toList),
        ("floating-point".toList, "Use approximate assertions with epsilon tolerance".toList),
        ("test-ordering".toList, "Ensure independent setup/teardown per test".toList),
        ("shared-state".toList, "Reset shared state in setUp; use fresh fixtures".toList),
        ("unknown".toList, "Run tests in random order; check for hidden shared state".toList) ] := by
    decide
  rcases classify_cases lower errors with ⟨hu, _⟩ | ⟨k, hk, hc, _, _⟩
  · rw [hu]
    exact ⟨by decide, by decide⟩
  · rw [hc]
    exact ⟨hfix ⟨k, hk⟩, hmem ⟨k, hk⟩⟩

/-! ## Aggregation -/

theorem mapGet_mapSet (m : RecMap) (k k' : Str) (r : TestRecord) :
    mapGet (mapSet m k r) k' = if k = k' then some r else mapGet m k' := by
  induction m with
  | nil =>
    by_cases h : k = k' <;> simp [mapSet, mapGet, h]
  | cons kr rest ih =>
    obtain ⟨k0, r0⟩ := kr
    by_cases h0 : k0 = k
    · subst h0
      by_cases h : k0 = k' <;> simp [mapSet, mapGet, h]
    · by_cases h1 : k0 = k'
      · subst h1
        have hne : ¬ k = k0 := fun e => h0 e.symm
        simp [mapSet, mapGet, h0, hne]
      · simp [mapSet, mapGet, h0, h1, ih]

theorem aggregate_eq_foldl (runs : List (List TestCase)) (m : RecMap) :
    runs.foldl (fun m cases => cases.foldl addCase m) m = runs.flatten.foldl addCase m := by
  induction runs generalizing m with
  | nil => rfl
  | cons run rest ih => simp [List.foldl_append, ih]

theorem observed_addCase (m : RecMap) (tc : TestCase) (k : Str) :
    observed (mapGet (addCase m tc) k) =
      observed (mapGet m k) + (if caseKey tc = k then 1 else 0) := by
  unfold addCase
  simp only [mapGet_mapSet]
  by_cases h : caseKey tc = k
  · subst h
    simp only [if_true]
    cases hg : mapGet m (caseKey tc) <;> cases hf : tc.Failure <;> simp [observed]
    all_goals omega
  · simp [h]

theorem observed_foldl (cs : List TestCase) (m : RecMap) (k : Str) :
    observed (mapGet (cs.foldl addCase m) k) =
      observed (mapGet m k) + (cs.filter (fun tc => decide (caseKey tc = k))).length := by
  induction cs generalizing m with
  | nil => simp
  | cons tc rest ih =>
    rw [List.foldl_cons, ih, observed_addCase]
    by_cases h : caseKey tc = k <;> simp [h]
    omega

/-- Each record counts the outcomes whose key is the key it is stored under. -/
theorem observed_aggregate (runs : List (List TestCase)) (k : Str) :
    observed (mapGet (Aggregate runs) k) =
      (runs.flatten.filter (fun tc => decide (caseKey tc = k))).length := by
  unfold Aggregate
  rw [aggregate_eq_foldl, observed_foldl]
  simp [mapGet, observed]

/-- The identity stored in a record is that of an outcome with the record's key. -/
theorem addCase_origin (all : List TestCase) (m : RecMap) (tc : TestCase) (htc : tc ∈ all)
    (hm : ∀ k r, mapGet m k = some r →
      ∃ tc ∈ all, caseKey tc = k ∧ tc.Class = r.Class ∧ tc.Name = r.Name) :
    ∀ k r, mapGet (addCase m tc) k = some r →
      ∃ tc ∈ all, caseKey tc = k ∧ tc.Class = r.Class ∧ tc.Name = r.Name := by
  intro k r hr
  unfold addCase at hr
  simp only [mapGet_mapSet] at hr
  by_cases h : caseKey tc = k
  · simp only [h, if_true, Option.some.injEq] at hr
    cases hg : mapGet m k with
    | none =>
      rw [hg] at hr
      refine ⟨tc, htc, h, ?_, ?_⟩ <;> cases hf : tc.Failure <;> simp [hf] at hr <;> simp [← hr]
    | some r0 =>
      rw [hg] at hr
      obtain ⟨tc0, h0, hk0, hc0, hn0⟩ := hm k r0 hg
      refine ⟨tc0, h0, hk0, ?_, ?_⟩ <;> cases hf : tc.Failure <;> simp [hf] at hr <;>
        simp [← hr, hc0, hn0]
  · simp only [h, if_false] at hr
    exact hm k r hr

theorem foldl_origin (all cs : List TestCase) (m : RecMap) (hcs : ∀ tc ∈ cs, tc ∈ all)
    (hm : ∀ k r, mapGet m k = some r →
      ∃ tc ∈ all, caseKey tc = k ∧ tc.Class = r.Class ∧ tc.Name = r.Name) :
    ∀ k r, mapGet (cs.foldl addCase m) k = some r →
      ∃ tc ∈ all, caseKey tc = k ∧ tc.Class = r.Class ∧ tc.Name = r.Name := by
  induction cs generalizing m with
  | nil => simpa using hm
  | cons tc rest ih =>
    rw [List.foldl_cons]
    exact ih (addCase m tc) (fun t ht => hcs t (List.mem_cons_of_mem _ ht))
      (addCase_origin all m tc (hcs tc (List.mem_cons_self _ _)) hm)

theorem aggregate_origin (runs : List (List TestCase)) (k : Str) (r : TestRecord)
    (h : mapGet (Aggregate runs) k = some r) :
    ∃ tc ∈ runs.flatten, caseKey tc = k ∧ tc.Class = r.Class ∧ tc.Name = r.Name := by
  unfold Aggregate at h
  rw [aggregate_eq_foldl] at h
  exact foldl_origin runs.flatten runs.flatten [] (fun _ ht => ht)
    (fun k r hk => by simp [mapGet] at hk) k r h

/-- When no run lists the identity twice, its outcomes are as many as the runs it appears in. -/
theorem occurrences_eq_runsWith (runs : List (List TestCase)) (cls name : Str)
    (h : ∀ run ∈ runs, (run.filter (sameId cls name)).length ≤ 1) :
    occurrences runs cls name = runsWith runs cls name := by
  unfold occurrences runsWith
  induction runs with
  | nil => rfl
  | cons run rest ih =>
    have h1 := h run (List.mem_cons_self _ _)
    have ih' := ih (fun r hr => h r (List.mem_cons_of_mem _ hr))
    rw [List.flatten_cons, List.filter_append, List.length_append, ih', List.filter_cons]
    by_cases ha : run.any (sameId cls name) = true
    · have hpos : 0 < (run.filter (sameId cls name)).length := by
        rw [List.length_pos_iff_exists_mem]
        obtain ⟨x, hx, hp⟩ := List.any_eq_true.1 ha
        exact ⟨x, List.mem_filter.2 ⟨hx, hp⟩⟩
      simp only [ha, if_true, List.length_cons]
      omega
    · have hz : (run.filter (sameId cls name)).length = 0 := by
        rw [List.length_eq_zero, List.filter_eq_nil_iff]
        intro x hx hp
        exact ha (List.any_eq_true.2 ⟨x, hx, hp⟩)
      simp only [ha, hz]
      simp

/-- C5, counterexample: one run that lists `c::t` twice gives a record with
`Pass + Fail = 2`, while the identity appears in one run only. -/
theorem aggregate_counts_duplicates :
    ∃ r, mapGet (Aggregate [[⟨"t".toList, "c".toList, 0, none⟩,
          ⟨"t".toList, "c".toList, 0, none⟩]]) "c::t".toList = some r ∧
      r.Pass + r.Fail = 2 ∧
      runsWith [[⟨"t".toList, "c".toList, 0, none⟩, ⟨"t".toList, "c".toList, 0, none⟩]]
        "c".toList "t".toList = 1 := by
  have h := observed_aggregate [[⟨"t".toList, "c".toList, 0, none⟩,
    ⟨"t".toList, "c".toList, 0, none⟩]] "c::t".toList
  have h2 : ([[(⟨"t".toList, "c".toList, 0, none⟩ : TestCase),
      ⟨"t".toList, "c".toList, 0, none⟩]].flatten.filter
        (fun tc => decide (caseKey tc = "c::t".toList))).length = 2 := by decide
  rw [h2] at h
  cases hg : mapGet (Aggregate [[⟨"t".toList, "c".toList, 0, none⟩,
      ⟨"t".toList, "c".toList, 0, none⟩]]) "c::t".toList with
  | none => rw [hg] at h; simp [observed] at h
  | some r =>
    rw [hg] at h
    exact ⟨r, rfl, h, by decide⟩

/-- C5, amended: for every sequence of runs and every identity `(cls, name)` that occurs in it
and shares its key `cls::name` with no other identity of the runs, the record stored for it
carries that identity and has `Pass + Fail` equal to the number of outcomes with that identity
over all runs; this is the number of runs in which the identity appears whenever no run lists
it more than once. -/
theorem aggregate_pass_fail_count (runs : List (List TestCase)) (cls name : Str)
    (hocc : ∃ tc ∈ runs.flatten, tc.Class = cls ∧ tc.Name = name)
    (hkey : ∀ tc ∈ runs.flatten, caseKey tc = cls ++ "::".toList ++ name →
      tc.Class = cls ∧ tc.Name = name) :
    ∃ r, mapGet (Aggregate runs) (cls ++ "::".toList ++ name) = some r ∧
      r.Class = cls ∧ r.Name = name ∧
      r.Pass + r.Fail = occurrences runs cls name ∧
      ((∀ run ∈ runs, (run.filter (sameId cls name)).length ≤ 1) →
        r.Pass + r.Fail = runsWith runs cls name) := by
  have hcount := observed_aggregate runs (cls ++ "::".toList ++ name)
  have hfilter : runs.flatten.filter (fun tc => decide (caseKey tc = cls ++ "::".toList ++ name))
      = runs.flatten.filter (sameId cls name) := by
    apply List.filter_congr
    intro tc htc
    by_cases hk : caseKey tc = cls ++ "::".toList ++ name
    · obtain ⟨hc, hn⟩ := hkey tc htc hk
      simp [sameId, hk, hc, hn]
    · have hne : ¬ (tc.Class = cls ∧ tc.Name = name) := by
        rintro ⟨hc, hn⟩
        exact hk (by simp [caseKey, hc, hn])
      have : sameId cls name tc = false := by
        simp only [sameId, Bool.and_eq_false_iff, decide_eq_false_iff_not]
        tauto
      rw [this, decide_eq_false_iff_not]
      exact hk
  rw [hfilter] at hcount
  have hpos : 0 < (runs.flatten.filter (sameId cls name)).length := by
    rw [List.length_pos_iff_exists_mem]
    obtain ⟨tc, htc, hc, hn⟩ := hocc
    exact ⟨tc, List.mem_filter.2 ⟨htc, by simp [sameId, hc, hn]⟩⟩
  cases hg : mapGet (Aggregate runs) (cls ++ "::".toList ++ name) with
  | none =>
    rw [hg] at hcount
    simp only [observed] at hcount
    omega
  | some r =>
    rw [hg] at hcount
    simp only [observed] at hcount
    obtain ⟨tc, htc, hk, hc, hn⟩ := aggregate_origin runs _ r hg
    obtain ⟨hc', hn'⟩ := hkey tc htc hk
    refine ⟨r, rfl, by rw [← hc, hc'], by rw [← hn, hn'], hcount, ?_⟩
    intro hone
    rw [hcount]
    exact occurrences_eq_runsWith runs cls name hone

/-- Witness of C5 (amended): `auth::test_token` fails in run 1 and passes in run 2. -/
theorem aggregate_pass_fail_count_witness :
    ∃ r, mapGet (Aggregate [[⟨"test_token".toList, "auth".toList, 1.2,
            some ⟨"timeout waiting".toList, "connection timed out".toList⟩⟩],
          [⟨"test_token".toList, "auth".toList, 0.8, none⟩]])
        ("auth".toList ++ "::".toList ++ "test_token".toList) = some r ∧
      r.Class = "auth".toList ∧ r.Name = "test_token".toList ∧
      r.Pass + r.Fail = occurrences [[⟨"test_token".toList, "auth".toList, 1.2,
            some ⟨"timeout waiting".toList, "connection timed out".toList⟩⟩],
          [⟨"test_token".toList, "auth".toList, 0.8, none⟩]] "auth".toList "test_token".toList ∧
      ((∀ run ∈ ([[⟨"test_token".toList, "auth".toList, 1.2,
            some ⟨"timeout waiting".toList, "connection timed out".toList⟩⟩],
          [⟨"test_token".toList, "auth".toList, 0.8, none⟩]] : List (List TestCase)),
          (run.filter (sameId "auth".toList "test_token".toList)).length ≤ 1) →
        r.Pass + r.Fail = runsWith [[⟨"test_token".toList, "auth".toList, 1.2,
            some ⟨"timeout waiting".toList, "connection timed out".toList⟩⟩],
          [⟨"test_token".toList, "auth".toList, 0.8, none⟩]] "auth".toList "test_token".toList) :=
  aggregate_pass_fail_count _ "auth".toList "test_token".toList
    ⟨⟨"test_token".toList, "auth".toList, 0.8, none⟩, by simp, rfl, rfl⟩
    (by
      intro tc htc _
      simp only [List.flatten_cons, List.flatten_nil, List.append_nil, List.singleton_append,
        List.mem_cons, List.mem_singleton, List.not_mem_nil, or_false] at htc
      rcases htc with h | h <;> rw [h] <;> exact ⟨rfl, rfl⟩)

/-- C6, the code at the failing input: the outcome of class `a`, name `b::c` and the outcome
of class `a::b`, name `c` are different identities with the same key `a::b::c`, and `Aggregate`
folds both into the one record it returns, under the first identity. -/
theorem aggregate_key_collision :
    ("a".toList, "b::c".toList) ≠ ("a::b".toList, "c".toList) ∧
    caseKey ⟨"b::c".toList, "a".toList, 0, none⟩ = caseKey ⟨"c".toList, "a::b".toList, 0, none⟩ ∧
    ∃ r, Aggregate [[⟨"b::c".toList, "a".toList, 0, none⟩, ⟨"c".toList, "a::b".toList, 0, none⟩]]
        = [("a::b::c".toList, r)] ∧
      r.Class = "a".toList ∧ r.Name = "b::c".toList ∧ r.Pass = 2 ∧ r.Fail = 0 := by
  refine ⟨by decide, by decide, ?_⟩
  have hk1 : caseKey ⟨"b::c".toList, "a".toList, 0, none⟩ = "a::b::c".toList := by decide
  have hk2 : caseKey ⟨"c".toList, "a::b".toList, 0, none⟩ = "a::b::c".toList := by decide
  simp only [Aggregate, List.foldl_cons, List.foldl_nil, addCase, hk1, hk2, mapGet, mapSet,
    if_true]
  exact ⟨_, rfl, rfl, rfl, rfl, rfl⟩

/-! ## The error function and the normal CDF -/

theorem gauss_continuous : Continuous (fun t : ℝ => Real.exp (-(t ^ 2))) := by
  continuity

theorem gauss_intervalIntegrable (a b : ℝ) :
    IntervalIntegrable (fun t : ℝ => Real.exp (-(t ^ 2))) MeasureTheory.volume a b :=
  gauss_continuous.intervalIntegrable a b

theorem erf_coeff_pos : 0 < 2 / Real.sqrt Real.pi :=
  div_pos two_pos (Real.sqrt_pos.2 Real.pi_pos)

theorem erf_zero : erf 0 = 0 := by
  simp [erf]

theorem erf_sub (x y : ℝ) :
    erf y - erf x = 2 / Real.sqrt Real.pi * ∫ t in x..y, Real.exp (-(t ^ 2)) := by
  unfold erf
  rw [← mul_sub, intervalIntegral.integral_interval_sub_left
    (gauss_intervalIntegrable 0 y) (gauss_intervalIntegrable 0 x)]

theorem erf_strictMono {x y : ℝ} (h : x < y) : erf x < erf y := by
  have hpos : 0 < ∫ t in x..y, Real.exp (-(t ^ 2)) :=
    intervalIntegral.intervalIntegral_pos_of_pos (gauss_intervalIntegrable x y)
      (fun t => Real.exp_pos _) h
  have := mul_pos erf_coeff_pos hpos
  rw [← erf_sub] at this
  linarith

theorem erf_mono {x y : ℝ} (h : x ≤ y) : erf x ≤ erf y := by
  rcases h.lt_or_eq with h | h
  · exact (erf_strictMono h).le
  · rw [h]

theorem gauss_integral_Ioi :
    ∫ t in Set.Ioi (0 : ℝ), Real.exp (-(t ^ 2)) = Real.sqrt Real.pi / 2 := by
  have h := integral_gaussian_Ioi 1
  simpa using h

theorem gauss_integrableOn_Ioi :
    MeasureTheory.IntegrableOn (fun t : ℝ => Real.exp (-(t ^ 2))) (Set.Ioi 0) := by
  have h := (integrable_exp_neg_mul_sq (b := 1) one_pos).integrableOn (s := Set.Ioi (0 : ℝ))
  simpa using h

theorem erf_le_one_of_nonneg {x : ℝ} (hx : 0 ≤ x) : erf x ≤ 1 := by
  have h1 : ∫ t in (0 : ℝ)..x, Real.exp (-(t ^ 2)) ≤ Real.sqrt Real.pi / 2 := by
    rw [intervalIntegral.integral_of_le hx, ← gauss_integral_Ioi]
    apply MeasureTheory.setIntegral_mono_set gauss_integrableOn_Ioi
    · exact Filter.Eventually.of_forall (fun t => (Real.exp_pos _).le)
    · exact Filter.Eventually.of_forall (fun t ht => ht.1)
  have hs : 0 < Real.sqrt Real.pi := Real.sqrt_pos.2 Real.pi_pos
  unfold erf
  calc 2 / Real.sqrt Real.pi * ∫ t in (0 : ℝ)..x, Real.exp (-(t ^ 2))
      ≤ 2 / Real.sqrt Real.pi * (Real.sqrt Real.pi / 2) :=
        mul_le_mul_of_nonneg_left h1 erf_coeff_pos.le
    _ = 1 := by field_simp

theorem erf_lt_one (x : ℝ) : erf x < 1 := by
  have h1 : erf x < erf (max x 0 + 1) :=
    erf_strictMono (by have := le_max_left x 0; linarith)
  have h2 : erf (max x 0 + 1) ≤ 1 :=
    erf_le_one_of_nonneg (by have := le_max_right x 0; linarith)
  linarith

theorem erf_neg (x : ℝ) : erf (-x) = -erf x := by
  unfold erf
  have h := intervalIntegral.integral_comp_neg (a := x) (b := 0)
    (fun t : ℝ => Real.exp (-(t ^ 2)))
  simp only [neg_sq, neg_zero] at h
  rw [← h, intervalIntegral.integral_symm]
  ring

theorem neg_one_lt_erf (x : ℝ) : -1 < erf x := by
  have h := erf_lt_one (-x)
  rw [erf_neg] at h
  linarith

theorem erf_one_ge_half : 1 / 2 ≤ erf 1 := by
  have hle : ∫ t in (0 : ℝ)..1, (1 - t ^ 2) ≤ ∫ t in (0 : ℝ)..1, Real.exp (-(t ^ 2)) := by
    apply intervalIntegral.integral_mono_on zero_le_one
    · exact (by continuity : Continuous (fun t : ℝ => 1 - t ^ 2)).intervalIntegrable 0 1
    · exact gauss_intervalIntegrable 0 1
    · intro t _
      have := Real.add_one_le_exp (-(t ^ 2))
      linarith
  have hval : ∫ t in (0 : ℝ)..1, (1 - t ^ 2) = 2 / 3 := by
    rw [intervalIntegral.integral_sub]
    · rw [integral_pow]
      norm_num
    · exact intervalIntegrable_const
    · exact (by continuity : Continuous (fun t : ℝ => t ^ 2)).intervalIntegrable 0 1
  rw [hval] at hle
  have hs : 0 < Real.sqrt Real.pi := Real.sqrt_pos.2 Real.pi_pos
  have hs2 : Real.sqrt Real.pi ≤ 2 := by
    rw [Real.sqrt_le_left (by norm_num)]
    have := Real.pi_le_four
    linarith
  unfold erf
  calc (1 : ℝ) / 2 ≤ 2 / Real.sqrt Real.pi * (2 / 3) := by
        rw [div_mul_eq_mul_div, le_div_iff₀ hs]
        linarith
    _ ≤ 2 / Real.sqrt Real.pi * ∫ t in (0 : ℝ)..1, Real.exp (-(t ^ 2)) :=
        mul_le_mul_of_nonneg_left hle erf_coeff_pos.le

theorem sqrt_two_pos : 0 < Real.sqrt 2 := Real.sqrt_pos.2 two_pos

theorem phi_mono {x y : ℝ} (h : x ≤ y) : phi x ≤ phi y := by
  unfold phi
  have := erf_mono (div_le_div_of_nonneg_right h sqrt_two_pos.le)
  linarith

theorem phi_lt_one (x : ℝ) : phi x < 1 := by
  unfold phi
  have := erf_lt_one (x / Real.sqrt 2)
  norm_num
  linarith

theorem phi_pos (x : ℝ) : 0 < phi x := by
  unfold phi
  have := neg_one_lt_erf (x / Real.sqrt 2)
  norm_num
  linarith

theorem phi_ge_half {x : ℝ} (h : 0 ≤ x) : 1 / 2 ≤ phi x := by
  unfold phi
  have := erf_mono (div_nonneg h sqrt_two_pos.le)
  rw [erf_zero] at this
  norm_num
  linarith

theorem phi_le_half {x : ℝ} (h : x ≤ 0) : phi x ≤ 1 / 2 := by
  unfold phi
  have := erf_mono (div_nonpos_of_nonpos_of_nonneg h sqrt_two_pos.le)
  rw [erf_zero] at this
  norm_num
  linarith

/-! ## The flakiness estimator -/

theorem wrapInt_eq_self {x : Int} (h0 : -9223372036854775808 ≤ x)
    (h1 : x < 9223372036854775808) : wrapInt x = x := by
  unfold wrapInt
  omega

theorem wrapInt_lt_two_of_ge {x : Int} (h0 : 9223372036854775808 ≤ x)
    (h1 : x < 18446744073709551616) : wrapInt x < 2 := by
  unfold wrapInt
  omega

theorem betaFlaky_guard (pass fail : Nat)
    (h : wrapInt ((pass : Int) + (fail : Int)) < 2 ∨ fail = 0 ∨ pass = 0) :
    BetaFlaky pass fail = 0 := by
  unfold BetaFlaky
  rw [if_pos h]

/-- The two ways `BetaFlaky` returns: `0` from a guard, or the difference of the two CDF
values with a standard deviation that passed the `1e-10` guard. -/
theorem betaFlaky_cases (pass fail : Nat) :
    BetaFlaky pass fail = 0 ∨
    (1 ≤ pass ∧ 1 ≤ fail ∧ ∃ sd : ℝ, 0 < sd ∧
      BetaFlaky pass fail =
        phi ((0.95 - ((pass + 1 : Nat) : ℝ) / (((pass + 1 : Nat) : ℝ) + ((fail + 1 : Nat) : ℝ))) / sd) -
        phi ((0.05 - ((pass + 1 : Nat) : ℝ) / (((pass + 1 : Nat) : ℝ) + ((fail + 1 : Nat) : ℝ))) / sd)) := by
  by_cases hg : wrapInt ((pass : Int) + (fail : Int)) < 2 ∨ fail = 0 ∨ pass = 0
  · left
    exact betaFlaky_guard pass fail hg
  · have hb : BetaFlaky pass fail =
        if Real.sqrt (((pass + 1 : Nat) : ℝ) * ((fail + 1 : Nat) : ℝ) /
          ((((pass + 1 : Nat) : ℝ) + ((fail + 1 : Nat) : ℝ)) *
            (((pass + 1 : Nat) : ℝ) + ((fail + 1 : Nat) : ℝ)) *
            (((pass + 1 : Nat) : ℝ) + ((fail + 1 : Nat) : ℝ) + 1))) < 1e-10 then 0
        else
          phi ((0.95 - ((pass + 1 : Nat) : ℝ) / (((pass + 1 : Nat) : ℝ) + ((fail + 1 : Nat) : ℝ))) /
            Real.sqrt (((pass + 1 : Nat) : ℝ) * ((fail + 1 : Nat) : ℝ) /
              ((((pass + 1 : Nat) : ℝ) + ((fail + 1 : Nat) : ℝ)) *
                (((pass + 1 : Nat) : ℝ) + ((fail + 1 : Nat) : ℝ)) *
                (((pass + 1 : Nat) : ℝ) + ((fail + 1 : Nat) : ℝ) + 1)))) -
          phi ((0.05 - ((pass + 1 : Nat) : ℝ) / (((pass + 1 : Nat) : ℝ) + ((fail + 1 : Nat) : ℝ))) /
            Real.sqrt (((pass + 1 : Nat) : ℝ) * ((fail + 1 : Nat) : ℝ) /
              ((((pass + 1 : Nat) : ℝ) + ((fail + 1 : Nat) : ℝ)) *
                (((pass + 1 : Nat) : ℝ) + ((fail + 1 : Nat) : ℝ)) *
                (((pass + 1 : Nat) : ℝ) + ((fail + 1 : Nat) : ℝ) + 1)))) := by
      unfold BetaFlaky
      rw [if_neg hg]
    by_cases hsd : Real.sqrt (((pass + 1 : Nat) : ℝ) * ((fail + 1 : Nat) : ℝ) /
        ((((pass + 1 : Nat) : ℝ) + ((fail + 1 : Nat) : ℝ)) *
          (((pass + 1 : Nat) : ℝ) + ((fail + 1 : Nat) : ℝ)) *
          (((pass + 1 : Nat) : ℝ) + ((fail + 1 : Nat) : ℝ) + 1))) < 1e-10
    · left
      rw [hb, if_pos hsd]
    · right
      rw [if_neg hsd] at hb
      push_neg at hg
      exact ⟨Nat.one_le_iff_ne_zero.2 hg.2.2, Nat.one_le_iff_ne_zero.2 hg.2.1, _,
        lt_of_lt_of_le (by norm_num) (not_lt.1 hsd), hb⟩

theorem betaFlaky_nonneg (pass fail : Nat) : 0 ≤ BetaFlaky pass fail := by
  rcases betaFlaky_cases pass fail with h | ⟨_, _, sd, hsd, h⟩
  · rw [h]
  · rw [h]
    have := phi_mono (div_le_div_of_nonneg_right
      (by linarith : (0.05 : ℝ) - ((pass + 1 : Nat) : ℝ) / (((pass + 1 : Nat) : ℝ) + ((fail + 1 : Nat) : ℝ))
        ≤ 0.95 - ((pass + 1 : Nat) : ℝ) / (((pass + 1 : Nat) : ℝ) + ((fail + 1 : Nat) : ℝ))) hsd.le)
    linarith

theorem betaFlaky_le_one (pass fail : Nat) : BetaFlaky pass fail ≤ 1 := by
  rcases betaFlaky_cases pass fail with h | ⟨_, _, sd, _, h⟩
  · rw [h]
    exact zero_le_one
  · rw [h]
    have h1 := phi_lt_one ((0.95 - ((pass + 1 : Nat) : ℝ) /
      (((pass + 1 : Nat) : ℝ) + ((fail + 1 : Nat) : ℝ))) / sd)
    have h2 := phi_pos ((0.05 - ((pass + 1 : Nat) : ℝ) /
      (((pass + 1 : Nat) : ℝ) + ((fail + 1 : Nat) : ℝ))) / sd)
    linarith

/-- C2: for all non-negative integers `pass` and `fail`, `BetaFlaky pass fail` lies in the
closed interval `[0, 1]`. -/
theorem betaFlaky_mem_unit_interval (pass fail : Nat) :
    0 ≤ BetaFlaky pass fail ∧ BetaFlaky pass fail ≤ 1 :=
  ⟨betaFlaky_nonneg pass fail, betaFlaky_le_one pass fail⟩

/-- C3: `BetaFlaky` is exactly `0` on degenerate counts: `BetaFlaky x 0 = 0` and
`BetaFlaky 0 x = 0` for every `x`, and `BetaFlaky pass fail = 0` whenever `pass + fail < 2`;
the test's instances are `(10, 0)`, `(0, 10)` and `(1, 0)`. -/
theorem betaFlaky_degenerate (x pass fail : Nat) (h : pass + fail < 2) :
    BetaFlaky x 0 = 0 ∧ BetaFlaky 0 x = 0 ∧ BetaFlaky pass fail = 0 ∧
    BetaFlaky 10 0 = 0 ∧ BetaFlaky 0 10 = 0 ∧ BetaFlaky 1 0 = 0 :=
  ⟨betaFlaky_guard x 0 (Or.inr (Or.inl rfl)), betaFlaky_guard 0 x (Or.inr (Or.inr rfl)),
    betaFlaky_guard pass fail (Or.inl (by
      rw [wrapInt_eq_self (by omega) (by omega)]
      omega)), betaFlaky_guard 10 0 (Or.inr (Or.inl rfl)),
    betaFlaky_guard 0 10 (Or.inr (Or.inr rfl)), betaFlaky_guard 1 0 (Or.inr (Or.inl rfl))⟩

/-- Witness of C3 at `x = 7` and the counts `(1, 0)`. -/
theorem betaFlaky_degenerate_witness :
    1 + 0 < 2 ∧ BetaFlaky 7 0 = 0 ∧ BetaFlaky 0 7 = 0 ∧ BetaFlaky 1 0 = 0 :=
  ⟨by decide, (betaFlaky_degenerate 7 1 0 (by decide)).1,
    (betaFlaky_degenerate 7 1 0 (by decide)).2.1, (betaFlaky_degenerate 7 1 0 (by decide)).2.2.1⟩

/-- A reported probability of at least one half needs a posterior mean strictly inside
`(0.05, 0.95)`: both counts are positive and neither exceeds nineteen times the other by 18. -/
theorem betaFlaky_ge_half (pass fail : Nat) (h : 1 / 2 ≤ BetaFlaky pass fail) :
    1 ≤ pass ∧ 1 ≤ fail ∧ fail < 19 * pass + 18 ∧ pass < 19 * fail + 18 := by
  rcases betaFlaky_cases pass fail with h0 | ⟨hp, hf, sd, hsd, hv⟩
  · rw [h0] at h
    norm_num at h
  · rw [hv] at h
    have hab : (0 : ℝ) < ((pass + 1 : Nat) : ℝ) + ((fail + 1 : Nat) : ℝ) := by positivity
    refine ⟨hp, hf, ?_, ?_⟩
    · by_contra hc
      have hc' : (19 * pass + 18 : ℝ) ≤ fail := by exact_mod_cast not_lt.1 hc
      have hmu : ((pass + 1 : Nat) : ℝ) / (((pass + 1 : Nat) : ℝ) + ((fail + 1 : Nat) : ℝ)) ≤ 0.05 := by
        rw [div_le_iff₀ hab]
        push_cast
        linarith
      have h1 := phi_ge_half (div_nonneg (sub_nonneg.2 hmu) hsd.le)
      have h2 := phi_lt_one ((0.95 - ((pass + 1 : Nat) : ℝ) /
        (((pass + 1 : Nat) : ℝ) + ((fail + 1 : Nat) : ℝ))) / sd)
      linarith
    · by_contra hc
      have hc' : (19 * fail + 18 : ℝ) ≤ pass := by exact_mod_cast not_lt.1 hc
      have hmu : 0.95 ≤ ((pass + 1 : Nat) : ℝ) / (((pass + 1 : Nat) : ℝ) + ((fail + 1 : Nat) : ℝ)) := by
        rw [le_div_iff₀ hab]
        push_cast
        linarith
      have h1 := phi_le_half (div_nonpos_of_nonpos_of_nonneg (sub_nonpos.2 hmu) hsd.le)
      have h2 := phi_pos ((0.05 - ((pass + 1 : Nat) : ℝ) /
        (((pass + 1 : Nat) : ℝ) + ((fail + 1 : Nat) : ℝ))) / sd)
      linarith

theorem sqrt_two_le : Real.sqrt 2 ≤ 7 / 4 := by
  rw [Real.sqrt_le_left (by norm_num)]
  norm_num

/-- One pass and two failures, the counts of `test_token` in the test, reach the default
threshold `0.5`. -/
theorem betaFlaky_one_two : 1 / 2 ≤ BetaFlaky 1 2 := by
  have hsd : Real.sqrt (((1 + 1 : Nat) : ℝ) * ((2 + 1 : Nat) : ℝ) /
      ((((1 + 1 : Nat) : ℝ) + ((2 + 1 : Nat) : ℝ)) * (((1 + 1 : Nat) : ℝ) + ((2 + 1 : Nat) : ℝ)) *
        (((1 + 1 : Nat) : ℝ) + ((2 + 1 : Nat) : ℝ) + 1))) = 1 / 5 := by
    rw [show (((1 + 1 : Nat) : ℝ) * ((2 + 1 : Nat) : ℝ) /
      ((((1 + 1 : Nat) : ℝ) + ((2 + 1 : Nat) : ℝ)) * (((1 + 1 : Nat) : ℝ) + ((2 + 1 : Nat) : ℝ)) *
        (((1 + 1 : Nat) : ℝ) + ((2 + 1 : Nat) : ℝ) + 1))) = (1 / 5 : ℝ) ^ 2 by norm_num]
    exact Real.sqrt_sq (by norm_num)
  have hb : BetaFlaky 1 2 = phi (11 / 4) - phi (-(7 / 4)) := by
    unfold BetaFlaky
    rw [if_neg (by decide)]
    simp only []
    rw [hsd, if_neg (by norm_num)]
    norm_num
  have h2 := sqrt_two_le
  have e1 : erf 1 ≤ erf (11 / 4 / Real.sqrt 2) :=
    erf_mono (by rw [le_div_iff₀ sqrt_two_pos]; linarith)
  have e2 : erf 1 ≤ erf (7 / 4 / Real.sqrt 2) :=
    erf_mono (by rw [le_div_iff₀ sqrt_two_pos]; linarith)
  have e3 : erf (-(7 / 4) / Real.sqrt 2) = -erf (7 / 4 / Real.sqrt 2) := by
    rw [neg_div, erf_neg]
  have e4 := erf_one_ge_half
  rw [hb]
  unfold phi
  rw [e3]
  norm_num
  linarith

/-! ## Rounding -/

theorem goRound_int (x : ℝ) : ∃ k : ℤ, goRound x = k := by
  unfold goRound
  split_ifs
  · exact ⟨_, rfl⟩
  · exact ⟨_, rfl⟩

theorem goRound_abs_sub_le (x : ℝ) : |goRound x - x| ≤ 1 / 2 := by
  unfold goRound
  rw [abs_le]
  split_ifs
  · have h1 := Int.floor_le (x + 1 / 2)
    have h2 := Int.lt_floor_add_one (x + 1 / 2)
    constructor <;> linarith
  · have h1 := Int.le_ceil (x - 1 / 2)
    have h2 := Int.ceil_lt_add_one (x - 1 / 2)
    constructor <;> linarith

theorem goRound_nearest (x : ℝ) (j : ℤ) : |goRound x - x| ≤ |(j : ℝ) - x| := by
  obtain ⟨k, hk⟩ := goRound_int x
  have hkx := goRound_abs_sub_le x
  by_cases hjk : j = k
  · rw [hjk, ← hk]
  · have h1 : (1 : ℝ) ≤ |(j : ℝ) - (k : ℝ)| := by
      have : (1 : ℤ) ≤ |j - k| := Int.one_le_abs (sub_ne_zero.2 hjk)
      exact_mod_cast this
    have h2 : |(j : ℝ) - (k : ℝ)| ≤ |(j : ℝ) - x| + |goRound x - x| := by
      rw [← hk]
      have := abs_sub_le (j : ℝ) x (goRound x)
      rw [abs_sub_comm x (goRound x)] at this
      exact this
    linarith

theorem goRound_nonneg {x : ℝ} (h : 0 ≤ x) : 0 ≤ goRound x := by
  unfold goRound
  rw [if_pos h]
  exact_mod_cast Int.floor_nonneg.2 (by linarith)

theorem goRound_ge_one {x : ℝ} (h : 1 / 2 ≤ x) : 1 ≤ goRound x := by
  unfold goRound
  rw [if_pos (by linarith)]
  have : (1 : ℤ) ≤ ⌊x + 1 / 2⌋ := Int.le_floor.2 (by push_cast; linarith)
  exact_mod_cast this

theorem goRound_le_of_lt {x : ℝ} (k : ℤ) (h0 : 0 ≤ x) (h : x + 1 / 2 < k) :
    goRound x ≤ k - 1 := by
  unfold goRound
  rw [if_pos h0]
  have : ⌊x + 1 / 2⌋ < k := Int.floor_lt.2 h
  have h2 : ⌊x + 1 / 2⌋ ≤ k - 1 := by omega
  exact_mod_cast h2

/-! ## Rounding to `float64` -/

theorem roundEven_zero : roundEven 0 = 0 := by
  simp [roundEven]

theorem rnd64_zero : rnd64 0 = F64.fin 0 := by
  have h : ¬ ((2 : ℝ) ^ (1024 : ℕ) ≤ 0) := not_le.2 (by positivity)
  simp [rnd64, roundEven_zero, h]

theorem decRound_zero (q : ℝ) (hq : q ≠ 0) : decRound q (F64.fin 0) = F64.fin 0 := by
  have h0 : goRound 0 = 0 := by
    unfold goRound
    rw [if_pos (le_refl 0)]
    norm_num
  simp only [decRound, fmul, fdiv, fround, zero_mul, rnd64_zero, h0, if_neg hq, zero_div]

theorem roundEven_sub_le (t : ℝ) : |(roundEven t : ℝ) - t| ≤ 1 / 2 := by
  unfold roundEven
  have h1 := Int.floor_le t
  have h2 := Int.lt_floor_add_one t
  split_ifs with ha hb hc
  · rw [abs_le]; constructor <;> linarith
  · push_cast; rw [abs_le]; constructor <;> linarith
  · rw [abs_le]; constructor <;> linarith
  · push_cast; rw [abs_le]; constructor <;> linarith

theorem floor_le_roundEven (t : ℝ) : ⌊t⌋ ≤ roundEven t := by
  unfold roundEven
  split_ifs <;> omega

theorem roundEven_le_floor_add_one (t : ℝ) : roundEven t ≤ ⌊t⌋ + 1 := by
  unfold roundEven
  split_ifs <;> omega

theorem roundEven_of_close (t : ℝ) (k : ℤ) (h : |t - k| < 1 / 2) : roundEven t = k := by
  rw [abs_lt] at h
  obtain ⟨h1, h2⟩ := h
  unfold roundEven
  by_cases hk : (k : ℝ) ≤ t
  · have hf : ⌊t⌋ = k := Int.floor_eq_iff.2 ⟨hk, by linarith⟩
    rw [hf, if_pos (by linarith)]
  · have hf : ⌊t⌋ = k - 1 := Int.floor_eq_iff.2 ⟨by push_cast; linarith, by push_cast; linarith⟩
    rw [hf, if_neg (by push_cast; linarith), if_pos (by push_cast; linarith)]
    ring

theorem roundEven_nonneg (t : ℝ) (h : 0 ≤ t) : 0 ≤ roundEven t :=
  le_trans (Int.floor_nonneg.2 h) (floor_le_roundEven t)

theorem ulpExp_of_bounds (x : ℝ) (e : ℤ) (h1 : (2 : ℝ) ^ e ≤ |x|) (h2 : |x| < (2 : ℝ) ^ (e + 1)) :
    ulpExp x = max (e - 52) (-1074) := by
  have hpos : 0 < |x| := lt_of_lt_of_le (by positivity) h1
  have hl : Int.log 2 |x| = e := by
    have a1 : e ≤ Int.log 2 |x| := (Int.zpow_le_iff_le_log (by norm_num) hpos).1 (by simpa using h1)
    have a2 : Int.log 2 |x| < e + 1 := (Int.lt_zpow_iff_log_lt (by norm_num) hpos).1 (by simpa using h2)
    omega
  unfold ulpExp
  rw [hl]

theorem two_zpow_ulpExp_le (x : ℝ) :
    (2 : ℝ) ^ ulpExp x / 2 ≤ (|x| + 1) / 2 ^ (53 : ℕ) := by
  have hx0 : 0 ≤ |x| := abs_nonneg x
  unfold ulpExp
  rcases le_total (Int.log 2 |x| - 52) (-1074) with h | h
  · rw [max_eq_right h]
    have h52 : (2 : ℝ) ^ (-1074 : ℤ) ≤ (2 : ℝ) ^ (-52 : ℤ) :=
      zpow_le_zpow_right₀ (by norm_num) (by norm_num)
    have : (2 : ℝ) ^ (-1074 : ℤ) / 2 ≤ 1 / 2 ^ (53 : ℕ) := by
      have e : (2 : ℝ) ^ (-52 : ℤ) / 2 = 1 / 2 ^ (53 : ℕ) := by norm_num
      rw [← e]
      exact div_le_div_of_nonneg_right h52 (by norm_num)
    refine le_trans this ?_
    exact div_le_div_of_nonneg_right (by linarith) (by positivity)
  · rw [max_eq_left h]
    have e1 : (2 : ℝ) ^ (Int.log 2 |x| - 52) / 2 = (2 : ℝ) ^ (Int.log 2 |x|) / 2 ^ (53 : ℕ) := by
      rw [zpow_sub₀ (by norm_num : (2 : ℝ) ≠ 0)]
      have : (2 : ℝ) ^ (52 : ℤ) = 2 ^ (52 : ℕ) := by norm_cast
      rw [this, div_div]
      congr 1
    rw [e1]
    refine div_le_div_of_nonneg_right ?_ (by positivity)
    by_cases hx : x = 0
    · subst hx
      simp [Int.log_of_right_le_zero]
    · have hpos : 0 < |x| := abs_pos.2 hx
      have := Int.zpow_log_le_self (b := 2) (by norm_num) hpos
      have h2 : ((2 : ℕ) : ℝ) = 2 := by norm_num
      rw [h2] at this
      linarith

theorem rnd64_cases (x : ℝ) :
    rnd64 x = F64.inf (decide (x < 0)) ∨
    rnd64 x = F64.fin ((roundEven (x / (2 : ℝ) ^ ulpExp x) : ℝ) * (2 : ℝ) ^ ulpExp x) := by
  unfold rnd64
  simp only
  split_ifs
  · exact Or.inl rfl
  · exact Or.inr rfl

theorem rnd64_grid_err (x : ℝ) :
    |(roundEven (x / (2 : ℝ) ^ ulpExp x) : ℝ) * (2 : ℝ) ^ ulpExp x - x| ≤
      (|x| + 1) / 2 ^ (53 : ℕ) := by
  have hp : (0 : ℝ) < (2 : ℝ) ^ ulpExp x := by positivity
  have e : (roundEven (x / (2 : ℝ) ^ ulpExp x) : ℝ) * (2 : ℝ) ^ ulpExp x - x =
      ((roundEven (x / (2 : ℝ) ^ ulpExp x) : ℝ) - x / (2 : ℝ) ^ ulpExp x) * (2 : ℝ) ^ ulpExp x := by
    field_simp
  rw [e, abs_mul, abs_of_pos hp]
  calc |(roundEven (x / (2 : ℝ) ^ ulpExp x) : ℝ) - x / (2 : ℝ) ^ ulpExp x| * (2 : ℝ) ^ ulpExp x
      ≤ 1 / 2 * (2 : ℝ) ^ ulpExp x :=
        mul_le_mul_of_nonneg_right (roundEven_sub_le _) hp.le
    _ = (2 : ℝ) ^ ulpExp x / 2 := by ring
    _ ≤ _ := two_zpow_ulpExp_le x

/-- Within the range of the format (here up to `2 ^ 1023`) the rounding is finite and moves
its argument by at most `(|x| + 1) / 2 ^ 53`. -/
theorem rnd64_abs (x : ℝ) (hx : |x| ≤ (2 : ℝ) ^ (1023 : ℕ)) :
    ∃ r, rnd64 x = F64.fin r ∧ |r - x| ≤ (|x| + 1) / 2 ^ (53 : ℕ) := by
  have herr := rnd64_grid_err x
  refine ⟨_, ?_, herr⟩
  unfold rnd64
  simp only
  rw [if_neg]
  rw [not_le]
  have hB1 : (1 : ℝ) ≤ (2 : ℝ) ^ (1023 : ℕ) := one_le_pow₀ (by norm_num)
  have h2 : (2 : ℝ) ^ (1024 : ℕ) = 2 * (2 : ℝ) ^ (1023 : ℕ) := by rw [pow_succ]; ring
  rw [h2]
  generalize (2 : ℝ) ^ (1023 : ℕ) = B at hx hB1
  have h53 : (0 : ℝ) < 2 ^ (53 : ℕ) := by positivity
  have hb : (|x| + 1) / 2 ^ (53 : ℕ) ≤ (B + 1) / 2 ^ (53 : ℕ) :=
    div_le_div_of_nonneg_right (by linarith) h53.le
  have hb2 : (B + 1) / 2 ^ (53 : ℕ) < B := by
    rw [div_lt_iff₀ h53]
    have : (2 : ℝ) ^ (53 : ℕ) = 9007199254740992 := by norm_num
    rw [this]
    nlinarith
  have := abs_sub_abs_le_abs_sub ((roundEven (x / (2 : ℝ) ^ ulpExp x) : ℝ) * (2 : ℝ) ^ ulpExp x) x
  linarith

theorem rnd64_nonneg (x : ℝ) (hx : 0 ≤ x) : (rnd64 x).nonneg := by
  rcases rnd64_cases x with h | h
  · rw [h]
    simp [F64.nonneg, not_lt.2 hx]
  · rw [h]
    have hk : 0 ≤ roundEven (x / (2 : ℝ) ^ ulpExp x) := roundEven_nonneg _ (by positivity)
    have : (0 : ℝ) ≤ (roundEven (x / (2 : ℝ) ^ ulpExp x) : ℝ) := by exact_mod_cast hk
    exact mul_nonneg this (by positivity)

/-- Rounding never takes a number that is at least 1 below 1. -/
theorem rnd64_one_le (x : ℝ) (hx : 1 ≤ x) (r : ℝ) (h : rnd64 x = F64.fin r) : 1 ≤ r := by
  have hpos : 0 < |x| := by rw [abs_of_pos (by linarith)]; linarith
  have hL : 0 ≤ Int.log 2 |x| := by
    refine (Int.zpow_le_iff_le_log (by norm_num) hpos).1 ?_
    rw [abs_of_pos (by linarith)]
    simpa using hx
  have hu : ulpExp x = Int.log 2 |x| - 52 := by
    unfold ulpExp
    exact max_eq_left (by omega)
  rcases rnd64_cases x with h1 | h1
  · rw [h1] at h
    cases h
  · rw [h1] at h
    injection h with h
    rw [← h, hu]
    have hlog0 := Int.zpow_log_le_self (b := 2) (by norm_num) hpos
    have h2 : ((2 : ℕ) : ℝ) = 2 := by norm_num
    rw [h2] at hlog0
    have hlog : (2 : ℝ) ^ Int.log 2 |x| ≤ x :=
      le_trans hlog0 (le_of_eq (abs_of_pos (by linarith : (0 : ℝ) < x)))
    generalize Int.log 2 |x| = L at hL hlog
    have hp : (0 : ℝ) < (2 : ℝ) ^ (L - 52) := by positivity
    have ht : (2 : ℝ) ^ (52 : ℕ) ≤ x / (2 : ℝ) ^ (L - 52) := by
      rw [le_div_iff₀ hp]
      calc (2 : ℝ) ^ (52 : ℕ) * (2 : ℝ) ^ (L - 52) = (2 : ℝ) ^ L := by
            rw [zpow_sub₀ (by norm_num : (2 : ℝ) ≠ 0)]
            have : (2 : ℝ) ^ (52 : ℤ) = 2 ^ (52 : ℕ) := by norm_cast
            rw [this]
            field_simp
        _ ≤ x := hlog
    have hfl : ((2 : ℤ) ^ (52 : ℕ)) ≤ ⌊x / (2 : ℝ) ^ (L - 52)⌋ :=
      Int.le_floor.2 (by norm_num at ht ⊢; exact ht)
    have hk : ((2 : ℤ) ^ (52 : ℕ)) ≤ roundEven (x / (2 : ℝ) ^ (L - 52)) :=
      le_trans hfl (floor_le_roundEven _)
    have hkR : (2 : ℝ) ^ (52 : ℕ) ≤ (roundEven (x / (2 : ℝ) ^ (L - 52)) : ℝ) := by
      exact_mod_cast hk
    have h1L : (1 : ℝ) ≤ (2 : ℝ) ^ L := one_le_zpow₀ (by norm_num) hL
    calc (1 : ℝ) ≤ (2 : ℝ) ^ L := h1L
      _ = (2 : ℝ) ^ (52 : ℕ) * (2 : ℝ) ^ (L - 52) := by
            rw [zpow_sub₀ (by norm_num : (2 : ℝ) ≠ 0)]
            have : (2 : ℝ) ^ (52 : ℤ) = 2 ^ (52 : ℕ) := by norm_cast
            rw [this]
            field_simp
      _ ≤ _ := mul_le_mul_of_nonneg_right hkR hp.le

/-- Evaluation of the rounding at a normal number: `k` is the nearest integer multiple of the
grid step `2 ^ (e - 52)`. -/
theorem rnd64_eval (x : ℝ) (e k : ℤ) (he : -1022 ≤ e) (h1 : (2 : ℝ) ^ e ≤ |x|)
    (h2 : |x| < (2 : ℝ) ^ (e + 1)) (hk : |x / (2 : ℝ) ^ (e - 52) - k| < 1 / 2)
    (hf : |(k : ℝ) * (2 : ℝ) ^ (e - 52)| < (2 : ℝ) ^ (1024 : ℕ)) :
    rnd64 x = F64.fin ((k : ℝ) * (2 : ℝ) ^ (e - 52)) := by
  have hu : ulpExp x = e - 52 := by
    rw [ulpExp_of_bounds x e h1 h2]
    exact max_eq_left (by omega)
  unfold rnd64
  simp only
  rw [hu, roundEven_of_close _ k hk, if_neg (not_le.2 hf)]

theorem two_pow_le_1023 (n : ℕ) (h : n ≤ 1023) : (2 : ℝ) ^ n ≤ (2 : ℝ) ^ (1023 : ℕ) :=
  pow_le_pow_right₀ (by norm_num) h

/-- The conversion of a positive `int`: finite, at least 1, within `(n + 1) / 2 ^ 53` of `n`. -/
theorem ofInt_pos (n : Int) (h1 : 1 ≤ n) (h2 : n < 2 ^ (63 : ℕ)) :
    ∃ d, ofInt n = F64.fin d ∧ 1 ≤ d ∧ |d - (n : ℝ)| ≤ ((n : ℝ) + 1) / 2 ^ (53 : ℕ) := by
  have hn1 : (1 : ℝ) ≤ (n : ℝ) := by exact_mod_cast h1
  have hn2 : (n : ℝ) < (2 : ℝ) ^ (63 : ℕ) := by exact_mod_cast h2
  have habs : |(n : ℝ)| = (n : ℝ) := abs_of_pos (by linarith)
  have hx : |(n : ℝ)| ≤ (2 : ℝ) ^ (1023 : ℕ) := by
    rw [habs]
    exact le_trans hn2.le (two_pow_le_1023 63 (by norm_num))
  obtain ⟨d, hd, herr⟩ := rnd64_abs (n : ℝ) hx
  rw [habs] at herr
  exact ⟨d, hd, rnd64_one_le _ hn1 d hd, herr⟩

theorem ofInt_zero : ofInt 0 = F64.fin 0 := by
  unfold ofInt
  rw [Int.cast_zero, rnd64_zero]

theorem ofInt_nonneg (n : Int) (h : 0 ≤ n) : (ofInt n).nonneg :=
  rnd64_nonneg _ (by exact_mod_cast h)

theorem fdiv_nonneg (a : F64) (y : ℝ) (ha : a.nonneg) (hy : 0 < y) :
    (fdiv a (F64.fin y)).nonneg := by
  cases a with
  | nan => exact ha.elim
  | inf s =>
    simp only [F64.nonneg] at ha
    simp [fdiv, F64.nonneg, ha, not_lt.2 hy.le]
  | fin x =>
    simp only [F64.nonneg] at ha
    simp only [fdiv, if_neg hy.ne']
    exact rnd64_nonneg _ (div_nonneg ha hy.le)

theorem fmul_nonneg_right (a : F64) (y : ℝ) (ha : a.nonneg) (hy : 0 < y) :
    (fmul a (F64.fin y)).nonneg := by
  cases a with
  | nan => exact ha.elim
  | inf s =>
    simp only [F64.nonneg] at ha
    simp [fmul, F64.nonneg, ha, hy.ne', not_lt.2 hy.le]
  | fin x =>
    simp only [F64.nonneg] at ha
    simp only [fmul]
    exact rnd64_nonneg _ (mul_nonneg ha hy.le)

theorem fmul_nonneg_left (x : ℝ) (b : F64) (hx : 0 < x) (hb : b.nonneg) :
    (fmul (F64.fin x) b).nonneg := by
  cases b with
  | nan => exact hb.elim
  | inf s =>
    simp only [F64.nonneg] at hb
    simp [fmul, F64.nonneg, hb, hx.ne', not_lt.2 hx.le]
  | fin y =>
    simp only [F64.nonneg] at hb
    simp only [fmul]
    exact rnd64_nonneg _ (mul_nonneg hx.le hb)

theorem fmul_nan_or_nonneg (a b : F64) (ha : a.nonneg) (hb : b.nonneg) :
    fmul a b = F64.nan ∨ (fmul a b).nonneg := by
  cases a with
  | nan => exact ha.elim
  | inf s =>
    cases b with
    | nan => exact hb.elim
    | inf t =>
      simp only [F64.nonneg] at ha hb
      simp [fmul, F64.nonneg, ha, hb]
    | fin y =>
      simp only [F64.nonneg] at ha hb
      by_cases hy : y = 0
      · simp [fmul, hy]
      · simp [fmul, F64.nonneg, hy, ha, not_lt.2 hb]
  | fin x =>
    cases b with
    | nan => exact hb.elim
    | inf t =>
      simp only [F64.nonneg] at ha hb
      by_cases hx : x = 0
      · simp [fmul, hx]
      · simp [fmul, F64.nonneg, hx, hb, not_lt.2 ha]
    | fin y =>
      simp only [F64.nonneg] at ha hb
      right
      simp only [fmul]
      exact rnd64_nonneg _ (mul_nonneg ha hb)

theorem fround_nonneg (a : F64) (ha : a.nonneg) : (fround a).nonneg := by
  cases a with
  | nan => exact ha.elim
  | inf s => exact ha
  | fin x =>
    simp only [F64.nonneg] at ha
    simp only [fround, F64.nonneg]
    exact goRound_nonneg ha

theorem decRound_nonneg (q : ℝ) (a : F64) (hq : 0 < q) (ha : a.nonneg) :
    (decRound q a).nonneg :=
  fdiv_nonneg _ q (fround_nonneg _ (fmul_nonneg_right a q ha hq)) hq

theorem decRound_nan (q : ℝ) : decRound q F64.nan = F64.nan := rfl

/-- The steps of `math.Round(x * q) / q` on a finite `x` of moderate size: the product is
rounded to `m`, `m` to the integer `k`, and the quotient `k / q` to the result `v`. -/
theorem decRound_fin (q x : ℝ) (hq1 : 1 ≤ q) (hq2 : q ≤ 1000)
    (hx : |x| ≤ (2 : ℝ) ^ (1010 : ℕ)) :
    ∃ (k : ℤ) (m v : ℝ), rnd64 (x * q) = F64.fin m ∧ (k : ℝ) = goRound m ∧
      decRound q (F64.fin x) = F64.fin v ∧ rnd64 ((k : ℝ) / q) = F64.fin v ∧
      |m - x * q| ≤ (|x * q| + 1) / 2 ^ (53 : ℕ) ∧ |(k : ℝ) - m| ≤ 1 / 2 ∧
      |v - (k : ℝ) / q| ≤ (|(k : ℝ) / q| + 1) / 2 ^ (53 : ℕ) := by
  have hq0 : (0 : ℝ) < q := by linarith
  have hB : (2 : ℝ) ^ (1023 : ℕ) = 2 ^ (13 : ℕ) * (2 : ℝ) ^ (1010 : ℕ) := by
    rw [← pow_add]
  have hB1 : (1 : ℝ) ≤ (2 : ℝ) ^ (1010 : ℕ) := one_le_pow₀ (by norm_num)
  have h13 : (2 : ℝ) ^ (13 : ℕ) = 8192 := by norm_num
  have h53 : (2 : ℝ) ^ (53 : ℕ) = 9007199254740992 := by norm_num
  rw [h13] at hB
  generalize (2 : ℝ) ^ (1010 : ℕ) = B at hx hB hB1
  have hxq : |x * q| ≤ 1000 * B := by
    rw [abs_mul, abs_of_pos hq0]
    calc |x| * q ≤ B * 1000 := mul_le_mul hx hq2 hq0.le (by linarith)
      _ = 1000 * B := by ring
  obtain ⟨m, hm, hmerr⟩ := rnd64_abs (x * q) (by rw [hB]; linarith)
  obtain ⟨k, hk⟩ := goRound_int m
  have hkm : |(k : ℝ) - m| ≤ 1 / 2 := by
    rw [← hk]
    exact goRound_abs_sub_le m
  have hmabs : |m| ≤ 2001 * B := by
    have := abs_sub_abs_le_abs_sub m (x * q)
    have h2 : (|x * q| + 1) / 2 ^ (53 : ℕ) ≤ |x * q| + 1 := by
      rw [h53]
      exact div_le_self (by positivity) (by norm_num)
    linarith
  have hkabs : |(k : ℝ)| ≤ 2002 * B := by
    have := abs_sub_abs_le_abs_sub (k : ℝ) m
    linarith
  have hkq : |(k : ℝ) / q| ≤ 2002 * B := by
    rw [abs_div, abs_of_pos hq0]
    exact le_trans (div_le_self (abs_nonneg _) hq1) hkabs
  obtain ⟨v, hv, hverr⟩ := rnd64_abs ((k : ℝ) / q) (by rw [hB]; linarith)
  refine ⟨k, m, v, hm, hk.symm, ?_, hv, hmerr, hkm, hverr⟩
  simp only [decRound, fmul, hm, fround, fdiv, if_neg hq0.ne', hk, hv]

theorem decRound_err_aux (q x m k v δ : ℝ) (hq1 : 1 ≤ q) (hδ0 : 0 ≤ δ) (hδ : δ ≤ 1 / 1000)
    (h1 : |m - x * q| ≤ (|x * q| + 1) * δ) (h2 : |k - m| ≤ 1 / 2)
    (h3 : |v - k / q| ≤ (|k / q| + 1) * δ) :
    |k - x * q| ≤ 1 / 2 + (|x * q| + 1) * δ ∧ |v - x| ≤ 1 / (2 * q) + 4 * δ * (|x| + 1) := by
  have hq0 : (0 : ℝ) < q := by linarith
  have ha : 0 ≤ |x| := abs_nonneg x
  have hxq : |x * q| = |x| * q := by rw [abs_mul, abs_of_pos hq0]
  have hkx : |k - x * q| ≤ 1 / 2 + (|x * q| + 1) * δ := by
    have := abs_sub_le k m (x * q)
    linarith
  refine ⟨hkx, ?_⟩
  have hqinv : 1 / q ≤ 1 := by
    rw [div_le_one hq0]
    exact hq1
  have hqinv0 : 0 ≤ 1 / q := by positivity
  have hkq : |k / q - x| ≤ 1 / (2 * q) + (|x| + 1) * δ := by
    have e : k / q - x = (k - x * q) / q := by
      field_simp
      ring
    rw [e, abs_div, abs_of_pos hq0, div_le_iff₀ hq0]
    rw [hxq] at hkx
    have e2 : (1 / (2 * q) + (|x| + 1) * δ) * q = 1 / 2 + (|x| * q + q) * δ := by
      field_simp
      ring
    rw [e2]
    have : (|x| * q + 1) * δ ≤ (|x| * q + q) * δ :=
      mul_le_mul_of_nonneg_right (by linarith) hδ0
    linarith
  have hhalf : 1 / (2 * q) ≤ 1 / 2 := by
    rw [div_le_div_iff₀ (by positivity) (by norm_num)]
    linarith
  have hka : |k / q| ≤ |x| + 1 / 2 + (|x| + 1) * δ := by
    have h := abs_sub_abs_le_abs_sub (k / q) x
    linarith
  have hv : |v - x| ≤ (|k / q| + 1) * δ + (1 / (2 * q) + (|x| + 1) * δ) := by
    have := abs_sub_le v (k / q) x
    linarith
  have h4 : (|k / q| + 1) * δ ≤ (|x| + 3 / 2 + (|x| + 1) * δ) * δ :=
    mul_le_mul_of_nonneg_right (by linarith) hδ0
  have h5 : (|x| + 1) * δ * δ ≤ (|x| + 1) * δ * (1 / 1000) :=
    mul_le_mul_of_nonneg_left hδ (mul_nonneg (by linarith) hδ0)
  have h6 : 0 ≤ |x| * δ := mul_nonneg ha hδ0
  nlinarith

/-- Two-sided reading of `math.Round(x * q) / q` for a finite `x` of moderate size: the result is
the `float64` nearest to `k / q` for an integer `k`, and it is within `1 / (2 q)`, up to the
rounding of the three operations, of `x`. -/
theorem decRound_err (q x : ℝ) (hq1 : 1 ≤ q) (hq2 : q ≤ 1000)
    (hx : |x| ≤ (2 : ℝ) ^ (1010 : ℕ)) :
    ∃ (k : ℤ) (v : ℝ), decRound q (F64.fin x) = F64.fin v ∧ rnd64 ((k : ℝ) / q) = F64.fin v ∧
      |(k : ℝ) - x * q| ≤ 1 / 2 + (|x * q| + 1) / 2 ^ (53 : ℕ) ∧
      |v - x| ≤ 1 / (2 * q) + (|x| + 1) / 2 ^ (51 : ℕ) := by
  obtain ⟨k, m, v, _, _, hd, hv, h1, h2, h3⟩ := decRound_fin q x hq1 hq2 hx
  have h53 : (2 : ℝ) ^ (53 : ℕ) = 9007199254740992 := by norm_num
  have h51 : (2 : ℝ) ^ (51 : ℕ) = 2251799813685248 := by norm_num
  have aux := decRound_err_aux q x m k v (1 / 2 ^ (53 : ℕ)) hq1 (by positivity)
    (by rw [h53]; norm_num) (by rw [mul_one_div]; exact h1) h2 (by rw [mul_one_div]; exact h3)
  refine ⟨k, v, hd, hv, ?_, ?_⟩
  · have := aux.1
    rw [mul_one_div] at this
    exact this
  · have := aux.2
    have e : 4 * (1 / 2 ^ (53 : ℕ)) * (|x| + 1) = (|x| + 1) / 2 ^ (51 : ℕ) := by
      rw [h53, h51]
      ring
    rw [e] at this
    exact this

theorem passRate_aux (P n p n1 q m k v δ : ℝ) (hδ : δ ≤ 1 / 1000000)
    (hP : 1 ≤ P) (hPn1 : n ≤ 37 * P) (hPn2 : 37 * P ≤ 36 * n)
    (hp : |p - P| ≤ (P + 1) * δ) (hn : |n1 - n| ≤ (n + 1) * δ)
    (hq : |q - p / n1| ≤ (|p / n1| + 1) * δ) (hm : |m - q * 1000| ≤ (|q * 1000| + 1) * δ)
    (hk : |k - m| ≤ 1 / 2) (hv : |v - k / 1000| ≤ (|k / 1000| + 1) * δ) :
    0 < v ∧ v < 1 := by
  have hn1 : 1 ≤ n := by linarith
  have ep : (P + 1) * δ ≤ (P + 1) * (1 / 1000000) := mul_le_mul_of_nonneg_left hδ (by linarith)
  have en : (n + 1) * δ ≤ (n + 1) * (1 / 1000000) := mul_le_mul_of_nonneg_left hδ (by linarith)
  rw [abs_le] at hp hn
  have hn1pos : 0 < n1 := by linarith
  have hppos : 0 < p := by linarith
  have hq0lo : 1 / 38 ≤ p / n1 := by
    rw [div_le_div_iff₀ (by norm_num) hn1pos]
    linarith
  have hq0hi : p / n1 ≤ 73 / 74 := by
    rw [div_le_div_iff₀ hn1pos (by norm_num)]
    linarith
  have hq0abs : |p / n1| = p / n1 := abs_of_pos (by positivity)
  rw [hq0abs] at hq
  have eq : (p / n1 + 1) * δ ≤ (p / n1 + 1) * (1 / 1000000) :=
    mul_le_mul_of_nonneg_left hδ (by linarith)
  rw [abs_le] at hq
  have hqlo : 0.026 ≤ q := by norm_num; linarith
  have hqhi : q ≤ 0.987 := by norm_num; linarith
  have hqabs : |q * 1000| = q * 1000 := abs_of_pos (by linarith)
  rw [hqabs] at hm
  have em : (q * 1000 + 1) * δ ≤ (q * 1000 + 1) * (1 / 1000000) :=
    mul_le_mul_of_nonneg_left hδ (by linarith)
  rw [abs_le] at hm hk
  have hklo : 25 ≤ k := by linarith
  have hkhi : k ≤ 988 := by linarith
  have hkabs : |k / 1000| = k / 1000 := abs_of_pos (by linarith)
  rw [hkabs] at hv
  have ev : (k / 1000 + 1) * δ ≤ (k / 1000 + 1) * (1 / 1000000) :=
    mul_le_mul_of_nonneg_left hδ (by linarith)
  rw [abs_le] at hv
  constructor <;> linarith

/-- The pass rate of a record whose counts are within a factor 19 of each other (as for every
record at or above a threshold `≥ 0.5`) is reported as a finite number strictly between 0
and 1. -/
theorem passRate_mixed (P F : ℕ) (hP : 1 ≤ P) (hF : 1 ≤ F)
    (hn : ((P : Int) + (F : Int)) < 2 ^ (63 : ℕ)) (h1 : F < 19 * P + 18) (h2 : P < 19 * F + 18) :
    ∃ v, decRound 1000 (fdiv (ofInt (P : Int)) (ofInt ((P : Int) + (F : Int)))) = F64.fin v ∧
      0 < v ∧ v < 1 := by
  obtain ⟨p, hp, hp1, hperr⟩ := ofInt_pos (P : Int) (by omega) (by omega)
  obtain ⟨n1, hn1, hn11, hnerr⟩ := ofInt_pos ((P : Int) + (F : Int)) (by omega) hn
  have hn1ne : n1 ≠ 0 := by linarith
  have hB : (1 : ℝ) ≤ (2 : ℝ) ^ (1010 : ℕ) := one_le_pow₀ (by norm_num)
  have hBB : (2 : ℝ) ^ (1010 : ℕ) ≤ (2 : ℝ) ^ (1023 : ℕ) := two_pow_le_1023 1010 (by norm_num)
  have h53 : (2 : ℝ) ^ (53 : ℕ) = 9007199254740992 := by norm_num
  have hPR : (1 : ℝ) ≤ (P : ℝ) := by exact_mod_cast hP
  have hFR : (1 : ℝ) ≤ (F : ℝ) := by exact_mod_cast hF
  have h1R : (F : ℝ) ≤ 19 * (P : ℝ) + 17 := by exact_mod_cast (by omega : F ≤ 19 * P + 17)
  have h2R : (P : ℝ) ≤ 19 * (F : ℝ) + 17 := by exact_mod_cast (by omega : P ≤ 19 * F + 17)
  push_cast at hperr hnerr
  have hδ : (1 : ℝ) / 2 ^ (53 : ℕ) ≤ 1 / 1000000 := by rw [h53]; norm_num
  have hp' : |p - (P : ℝ)| ≤ ((P : ℝ) + 1) * (1 / 2 ^ (53 : ℕ)) := by
    rw [mul_one_div]; exact hperr
  have hn' : |n1 - ((P : ℝ) + (F : ℝ))| ≤ ((P : ℝ) + (F : ℝ) + 1) * (1 / 2 ^ (53 : ℕ)) := by
    rw [mul_one_div]; exact hnerr
  -- the quotient is at most 1 in absolute value, up to rounding
  have hp'' := hp'
  have hn'' := hn'
  rw [abs_le] at hp'' hn''
  have ep : ((P : ℝ) + 1) * (1 / 2 ^ (53 : ℕ)) ≤ ((P : ℝ) + 1) * (1 / 1000000) :=
    mul_le_mul_of_nonneg_left hδ (by linarith)
  have en : ((P : ℝ) + (F : ℝ) + 1) * (1 / 2 ^ (53 : ℕ)) ≤ ((P : ℝ) + (F : ℝ) + 1) * (1 / 1000000) :=
    mul_le_mul_of_nonneg_left hδ (by linarith)
  have hq0 : |p / n1| ≤ 1 := by
    rw [abs_div, abs_of_pos (by linarith : (0 : ℝ) < p), abs_of_pos (by linarith : (0 : ℝ) < n1),
      div_le_one (by linarith)]
    linarith
  obtain ⟨q, hq, hqerr⟩ := rnd64_abs (p / n1) (by linarith)
  have hqabs : |q| ≤ 2 := by
    have := abs_sub_abs_le_abs_sub q (p / n1)
    have h3 : (|p / n1| + 1) / 2 ^ (53 : ℕ) ≤ 1 := by
      rw [h53, div_le_one (by norm_num)]
      linarith
    linarith
  obtain ⟨k, m, v, hm, hk, hd, hv, hmerr, hkerr, hverr⟩ :=
    decRound_fin 1000 q (by norm_num) (le_refl _) (by linarith)
  refine ⟨v, ?_, ?_⟩
  · simp only [hp, hn1, fdiv, if_neg hn1ne, hq, hd]
  · exact passRate_aux (P : ℝ) ((P : ℝ) + (F : ℝ)) p n1 q m k v (1 / 2 ^ (53 : ℕ))
      hδ hPR (by linarith) (by linarith) hp' hn'
      (by rw [mul_one_div]; exact hqerr) (by rw [mul_one_div]; exact hmerr) hkerr
      (by rw [mul_one_div]; exact hverr)

theorem fin_nonneg_of_rnd64 (x r : ℝ) (hx : 0 ≤ x) (h : rnd64 x = F64.fin r) : 0 ≤ r := by
  have := rnd64_nonneg x hx
  rw [h] at this
  exact this

/-- Past the range of the format the rounding is `+Inf`. -/
theorem rnd64_overflow (x : ℝ) (hx : (2 : ℝ) ^ (1024 : ℕ) ≤ x) : rnd64 x = F64.inf false := by
  have hx0 : (0 : ℝ) < x := lt_of_lt_of_le (by positivity) hx
  have habs : |x| = x := abs_of_pos hx0
  have hpos : 0 < |x| := by rw [habs]; exact hx0
  have hL : ((1024 : ℕ) : ℤ) ≤ Int.log 2 |x| := by
    refine (Int.zpow_le_iff_le_log (by norm_num) hpos).1 ?_
    rw [habs, zpow_natCast]
    simpa using hx
  have hu : ulpExp x = Int.log 2 |x| - 52 := by
    unfold ulpExp
    exact max_eq_left (by omega)
  have hlog0 := Int.zpow_log_le_self (b := 2) (by norm_num) hpos
  have h2 : ((2 : ℕ) : ℝ) = 2 := by norm_num
  rw [h2] at hlog0
  have hlog : (2 : ℝ) ^ Int.log 2 |x| ≤ x := le_trans hlog0 (le_of_eq habs)
  unfold rnd64
  simp only
  rw [hu]
  generalize Int.log 2 |x| = L at hL hlog
  have hp : (0 : ℝ) < (2 : ℝ) ^ (L - 52) := by positivity
  have hsplit : (2 : ℝ) ^ (52 : ℕ) * (2 : ℝ) ^ (L - 52) = (2 : ℝ) ^ L := by
    rw [zpow_sub₀ (by norm_num : (2 : ℝ) ≠ 0)]
    have : (2 : ℝ) ^ (52 : ℤ) = 2 ^ (52 : ℕ) := by norm_cast
    rw [this]
    field_simp
  have ht : (2 : ℝ) ^ (52 : ℕ) ≤ x / (2 : ℝ) ^ (L - 52) := by
    rw [le_div_iff₀ hp, hsplit]
    exact hlog
  have hfl : ((2 : ℤ) ^ (52 : ℕ)) ≤ ⌊x / (2 : ℝ) ^ (L - 52)⌋ :=
    Int.le_floor.2 (by norm_num at ht ⊢; exact ht)
  have hk : ((2 : ℤ) ^ (52 : ℕ)) ≤ roundEven (x / (2 : ℝ) ^ (L - 52)) :=
    le_trans hfl (floor_le_roundEven _)
  have hkR : (2 : ℝ) ^ (52 : ℕ) ≤ (roundEven (x / (2 : ℝ) ^ (L - 52)) : ℝ) := by
    exact_mod_cast hk
  have hge : (2 : ℝ) ^ (1024 : ℕ) ≤
      (roundEven (x / (2 : ℝ) ^ (L - 52)) : ℝ) * (2 : ℝ) ^ (L - 52) := by
    calc (2 : ℝ) ^ (1024 : ℕ) = (2 : ℝ) ^ ((1024 : ℕ) : ℤ) := (zpow_natCast _ _).symm
      _ ≤ (2 : ℝ) ^ L := zpow_le_zpow_right₀ (by norm_num) hL
      _ = (2 : ℝ) ^ (52 : ℕ) * (2 : ℝ) ^ (L - 52) := hsplit.symm
      _ ≤ _ := mul_le_mul_of_nonneg_right hkR hp.le
  rw [if_pos (le_trans hge (le_abs_self _))]
  simp [not_lt.2 hx0.le]

/-- The unrounded cost is computed from non-negative factors: it is `≥ 0` (`+Inf` included)
or NaN, and it is `≥ 0` when the cost per minute is a positive finite `float64`. -/
theorem cost_sign (T c : ℝ) (F n : Int) (hT : 0 ≤ T) (hc : 0 ≤ c) (hF : 1 ≤ F)
    (hFn : F ≤ n) (hn : n < 2 ^ (63 : ℕ)) :
    (fdiv (fmul (ofInt F) (fdiv (rnd64 T) (ofInt n))) (F64.fin 60)).nonneg ∧
    (decRound 100 (fmul (fdiv (fmul (ofInt F) (fdiv (rnd64 T) (ofInt n))) (F64.fin 60))
        (rnd64 c)) = F64.nan ∨
      (decRound 100 (fmul (fdiv (fmul (ofInt F) (fdiv (rnd64 T) (ofInt n))) (F64.fin 60))
        (rnd64 c))).nonneg) ∧
    ((∃ c1, rnd64 c = F64.fin c1 ∧ 0 < c1) →
      (decRound 100 (fmul (fdiv (fmul (ofInt F) (fdiv (rnd64 T) (ofInt n))) (F64.fin 60))
        (rnd64 c))).nonneg) := by
  obtain ⟨d, hd, hd1, _⟩ := ofInt_pos n (by omega) hn
  obtain ⟨f, hf, hf1, _⟩ := ofInt_pos F hF (by omega)
  have havg : (fdiv (rnd64 T) (ofInt n)).nonneg := by
    rw [hd]
    exact fdiv_nonneg _ d (rnd64_nonneg T hT) (by linarith)
  have hb : (fmul (ofInt F) (fdiv (rnd64 T) (ofInt n))).nonneg := by
    rw [hf]
    exact fmul_nonneg_left f _ (by linarith) havg
  have hX : (fdiv (fmul (ofInt F) (fdiv (rnd64 T) (ofInt n))) (F64.fin 60)).nonneg :=
    fdiv_nonneg _ 60 hb (by norm_num)
  refine ⟨hX, ?_, ?_⟩
  · rcases fmul_nan_or_nonneg _ (rnd64 c) hX (rnd64_nonneg c hc) with h | h
    · left
      rw [h]
      rfl
    · right
      exact decRound_nonneg 100 _ (by norm_num) h
  · rintro ⟨c1, hc1, hpos⟩
    rw [hc1]
    exact decRound_nonneg 100 _ (by norm_num) (fmul_nonneg_right _ c1 hX hpos)

/-- With a cumulative duration of moderate size nothing overflows before the multiplication by
the cost per minute. -/
theorem cost_finite (T : ℝ) (F n : Int) (hT : 0 ≤ T) (hTB : T ≤ (2 : ℝ) ^ (1000 : ℕ))
    (hF : 1 ≤ F) (hFn : F ≤ n) (hn : n < 2 ^ (63 : ℕ)) :
    ∃ x, 0 ≤ x ∧
      fdiv (fmul (ofInt F) (fdiv (rnd64 T) (ofInt n))) (F64.fin 60) = F64.fin x := by
  have hB1 : (1 : ℝ) ≤ (2 : ℝ) ^ (1000 : ℕ) := one_le_pow₀ (by norm_num)
  have hB : (2 : ℝ) ^ (1023 : ℕ) = 2 ^ (23 : ℕ) * (2 : ℝ) ^ (1000 : ℕ) := by
    rw [← pow_add]
  have h23 : (2 : ℝ) ^ (23 : ℕ) = 8388608 := by norm_num
  have h53 : (2 : ℝ) ^ (53 : ℕ) = 9007199254740992 := by norm_num
  rw [h23] at hB
  obtain ⟨d, hd, hd1, hderr⟩ := ofInt_pos n (by omega) hn
  obtain ⟨f, hf, hf1, hferr⟩ := ofInt_pos F hF (by omega)
  have hnR : (n : ℝ) < 9223372036854775808 := by
    have : (n : ℝ) < (2 : ℝ) ^ (63 : ℕ) := by exact_mod_cast hn
    norm_num at this
    exact this
  have hFR : (1 : ℝ) ≤ (F : ℝ) := by exact_mod_cast hF
  have hFnR : (F : ℝ) ≤ (n : ℝ) := by exact_mod_cast hFn
  rw [h53, abs_le] at hderr hferr
  generalize (2 : ℝ) ^ (1000 : ℕ) = B at hTB hB1 hB
  obtain ⟨t, ht, hterr⟩ := rnd64_abs T (by rw [abs_of_nonneg hT, hB]; linarith)
  have ht0 := fin_nonneg_of_rnd64 T t hT ht
  rw [abs_of_nonneg hT, h53, abs_le] at hterr
  have htle : t ≤ 2 * T + 1 := by linarith
  have hfd : f ≤ 4 * d := by linarith
  have hfle : f ≤ 18446744073709551616 := by linarith
  have hd0 : (0 : ℝ) < d := by linarith
  have ha0 : 0 ≤ t / d := div_nonneg ht0 hd0.le
  have ha0le : t / d ≤ t := div_le_self ht0 hd1
  obtain ⟨a, ha, haerr⟩ := rnd64_abs (t / d) (by rw [abs_of_nonneg ha0, hB]; linarith)
  have haa := fin_nonneg_of_rnd64 _ a ha0 ha
  rw [abs_of_nonneg ha0, h53, abs_le] at haerr
  have hft : f * (t / d) ≤ 4 * t := by
    rw [← mul_div_assoc, div_le_iff₀ hd0]
    have := mul_le_mul_of_nonneg_right hfd ht0
    linarith
  have hf0 : (0 : ℝ) ≤ f := by linarith
  have hfa : f * a ≤ 8 * t + 2048 := by
    have h1 : f * a ≤ f * (t / d + (t / d + 1) / 9007199254740992) :=
      mul_le_mul_of_nonneg_left (by linarith) hf0
    have h2 : f * (t / d + (t / d + 1) / 9007199254740992) =
        f * (t / d) * (1 + 1 / 9007199254740992) + f / 9007199254740992 := by ring
    have h3 : f * (t / d) * (1 + 1 / 9007199254740992) ≤ 4 * t * (1 + 1 / 9007199254740992) :=
      mul_le_mul_of_nonneg_right hft (by norm_num)
    have h4 : f / 9007199254740992 ≤ 2048 := by
      rw [div_le_iff₀ (by norm_num)]
      linarith
    linarith
  have hb0 : 0 ≤ f * a := mul_nonneg hf0 haa
  obtain ⟨b, hb, hberr⟩ := rnd64_abs (f * a) (by rw [abs_of_nonneg hb0, hB]; linarith)
  have hbb := fin_nonneg_of_rnd64 _ b hb0 hb
  rw [abs_of_nonneg hb0, h53, abs_le] at hberr
  have hc0 : 0 ≤ b / 60 := div_nonneg hbb (by norm_num)
  have hc0le : b / 60 ≤ b := div_le_self hbb (by norm_num)
  obtain ⟨x, hx, _⟩ := rnd64_abs (b / 60) (by rw [abs_of_nonneg hc0, hB]; linarith)
  refine ⟨x, fin_nonneg_of_rnd64 _ x hc0 hx, ?_⟩
  simp only [ht, hd, hf, fdiv, fmul, if_neg hd0.ne', ha, hb,
    if_neg (by norm_num : (60 : ℝ) ≠ 0), hx]

/-! ## The detection pipeline -/

theorem detect_foldl (lower : Str → Str) (records : RecMap) (costPerMin threshold : ℝ)
    (out : List FlakyTest) :
    records.foldl (fun out kr =>
      if BetaFlaky kr.2.Pass kr.2.Fail < threshold then out
      else out ++ [mkEntry lower kr.2 costPerMin (BetaFlaky kr.2.Pass kr.2.Fail)]) out =
    out ++ (records.filter (fun kr => decide (threshold ≤ BetaFlaky kr.2.Pass kr.2.Fail))).map
      (fun kr => mkEntry lower kr.2 costPerMin (BetaFlaky kr.2.Pass kr.2.Fail)) := by
  induction records generalizing out with
  | nil => simp
  | cons kr rest ih =>
    rw [List.foldl_cons, ih]
    by_cases h : BetaFlaky kr.2.Pass kr.2.Fail < threshold
    · simp [h, List.filter_cons, not_le.2 h]
    · simp [h, List.filter_cons, not_lt.1 h]

/-- The report is the list of entries of the records that are not below the threshold, in the
order of the pass. -/
theorem detect_eq (lower : Str → Str) (records : RecMap) (costPerMin threshold : ℝ) :
    Detect lower records costPerMin threshold =
      (records.filter (fun kr => decide (threshold ≤ BetaFlaky kr.2.Pass kr.2.Fail))).map
        (fun kr => mkEntry lower kr.2 costPerMin (BetaFlaky kr.2.Pass kr.2.Fail)) := by
  unfold Detect
  rw [detect_foldl]
  rfl

theorem mem_detect (lower : Str → Str) (records : RecMap) (costPerMin threshold : ℝ)
    (e : FlakyTest) :
    e ∈ Detect lower records costPerMin threshold ↔
      ∃ kr ∈ records, threshold ≤ BetaFlaky kr.2.Pass kr.2.Fail ∧
        e = mkEntry lower kr.2 costPerMin (BetaFlaky kr.2.Pass kr.2.Fail) := by
  rw [detect_eq, List.mem_map]
  constructor
  · rintro ⟨kr, hkr, rfl⟩
    rw [List.mem_filter] at hkr
    exact ⟨kr, hkr.1, by simpa using hkr.2, rfl⟩
  · rintro ⟨kr, hkr, hthr, rfl⟩
    exact ⟨kr, List.mem_filter.2 ⟨hkr, by simpa using hthr⟩, rfl⟩

/-- C1: `Detect` is a filter on the flakiness probability: the entries, read by name and
class, are exactly the records with `BetaFlaky r.Pass r.Fail ≥ threshold`, one entry per such
record and none for a record below the threshold; the report is empty exactly when every record
is below the threshold, in particular for the empty mapping. -/
theorem detect_is_filter (lower : Str → Str) (records : RecMap) (costPerMin threshold : ℝ) :
    (Detect lower records costPerMin threshold).map (fun e => (e.Name, e.Class)) =
      ((records.map Prod.snd).filter
          (fun r => decide (threshold ≤ BetaFlaky r.Pass r.Fail))).map
        (fun r => (r.Name, r.Class)) ∧
    (Detect lower records costPerMin threshold = [] ↔
      ∀ kr ∈ records, BetaFlaky kr.2.Pass kr.2.Fail < threshold) ∧
    Detect lower [] costPerMin threshold = [] := by
  refine ⟨?_, ?_, ?_⟩
  · rw [detect_eq, List.map_map, List.filter_map, List.map_map]
    rfl
  · rw [detect_eq, List.map_eq_nil_iff, List.filter_eq_nil_iff]
    constructor
    · intro h kr hkr
      have := h kr hkr
      simpa using this
    · intro h kr hkr
      have := h kr hkr
      simpa using this
  · rfl

/-! ## The record stored under a key -/

theorem addCase_eq_bump (m : RecMap) (tc : TestCase) :
    addCase m tc = mapSet m (caseKey tc) (bump (mapGet m (caseKey tc)) tc) := rfl

theorem mapGet_addCase (m : RecMap) (tc : TestCase) (k : Str) :
    mapGet (addCase m tc) k =
      if caseKey tc = k then some (bump (mapGet m k) tc) else mapGet m k := by
  rw [addCase_eq_bump, mapGet_mapSet]
  by_cases h : caseKey tc = k
  · subst h; simp
  · simp [h]

theorem mapGet_foldl (cs : List TestCase) (m : RecMap) (k : Str) :
    mapGet (cs.foldl addCase m) k =
      (cs.filter (fun tc => decide (caseKey tc = k))).foldl (fun o tc => some (bump o tc))
        (mapGet m k) := by
  induction cs generalizing m with
  | nil => rfl
  | cons tc rest ih =>
    rw [List.foldl_cons, ih, mapGet_addCase]
    by_cases h : caseKey tc = k
    · simp [h, List.filter_cons]
    · simp [h, List.filter_cons]

theorem mapGet_aggregate (runs : List (List TestCase)) (k : Str) :
    mapGet (Aggregate runs) k =
      (countedIn runs k).foldl (fun o tc => some (bump o tc)) none := by
  unfold Aggregate countedIn
  rw [aggregate_eq_foldl, mapGet_foldl]
  rfl

theorem errorsOf_bump (o : Option TestRecord) (tc : TestCase) :
    errorsOf (some (bump o tc)) = errorsOf o ++ (snippet tc).toList := by
  cases o <;> cases hf : tc.Failure <;> simp [errorsOf, bump, snippet, hf]

theorem failsOf_bump (o : Option TestRecord) (tc : TestCase) :
    failsOf (some (bump o tc)) = failsOf o + (if tc.Failure.isSome then 1 else 0) := by
  cases o <;> cases hf : tc.Failure <;> simp [failsOf, bump, hf]

theorem timeOf_bump (o : Option TestRecord) (tc : TestCase) :
    timeOf (some (bump o tc)) = timeOf o + tc.Time := by
  cases o <;> cases hf : tc.Failure <;> simp [timeOf, bump, hf]

theorem errorsOf_foldl (l : List TestCase) (o : Option TestRecord) :
    errorsOf (l.foldl (fun o tc => some (bump o tc)) o) = errorsOf o ++ l.filterMap snippet := by
  induction l generalizing o with
  | nil => simp
  | cons tc rest ih =>
    rw [List.foldl_cons, ih, errorsOf_bump, List.filterMap_cons]
    cases hs : snippet tc <;> simp

theorem failsOf_foldl (l : List TestCase) (o : Option TestRecord) :
    failsOf (l.foldl (fun o tc => some (bump o tc)) o) =
      failsOf o + (l.filter (fun tc => tc.Failure.isSome)).length := by
  induction l generalizing o with
  | nil => simp
  | cons tc rest ih =>
    rw [List.foldl_cons, ih, failsOf_bump, List.filter_cons]
    cases hf : tc.Failure <;> simp
    omega

theorem timeOf_foldl (l : List TestCase) (o : Option TestRecord) :
    timeOf (l.foldl (fun o tc => some (bump o tc)) o) = timeOf o + (l.map (fun tc => tc.Time)).sum := by
  induction l generalizing o with
  | nil => simp
  | cons tc rest ih =>
    rw [List.foldl_cons, ih, timeOf_bump, List.map_cons, List.sum_cons]
    ring

theorem filterMap_snippet_length (l : List TestCase) :
    (l.filterMap snippet).length = (l.filter (fun tc => tc.Failure.isSome)).length := by
  induction l with
  | nil => rfl
  | cons tc rest ih =>
    rw [List.filterMap_cons, List.filter_cons]
    cases hf : tc.Failure <;> simp [snippet, hf, ih]

theorem mem_keys_mapSet (m : RecMap) (k x : Str) (r : TestRecord) :
    x ∈ (mapSet m k r).map Prod.fst ↔ x = k ∨ x ∈ m.map Prod.fst := by
  induction m with
  | nil => simp [mapSet]
  | cons kr rest ih =>
    obtain ⟨k0, r0⟩ := kr
    by_cases h0 : k0 = k
    · subst h0
      simp only [mapSet, if_true, List.map_cons, List.mem_cons]
      tauto
    · simp only [mapSet, if_neg h0, List.map_cons, List.mem_cons, ih]
      tauto

theorem nodup_keys_mapSet (m : RecMap) (k : Str) (r : TestRecord)
    (h : (m.map Prod.fst).Nodup) : ((mapSet m k r).map Prod.fst).Nodup := by
  induction m with
  | nil => simp [mapSet]
  | cons kr rest ih =>
    obtain ⟨k0, r0⟩ := kr
    rw [List.map_cons, List.nodup_cons] at h
    by_cases h0 : k0 = k
    · subst h0
      simp only [mapSet, if_true, List.map_cons, List.nodup_cons]
      exact h
    · simp only [mapSet, if_neg h0, List.map_cons, List.nodup_cons]
      refine ⟨?_, ih h.2⟩
      rw [mem_keys_mapSet]
      rintro (h1 | h1)
      · exact h0 h1
      · exact h.1 h1

theorem nodup_keys_foldl (cs : List TestCase) (m : RecMap) (h : (m.map Prod.fst).Nodup) :
    ((cs.foldl addCase m).map Prod.fst).Nodup := by
  induction cs generalizing m with
  | nil => exact h
  | cons tc rest ih =>
    rw [List.foldl_cons]
    exact ih _ (by rw [addCase_eq_bump]; exact nodup_keys_mapSet m _ _ h)

/-- The keys of the map `Aggregate` returns are pairwise distinct. -/
theorem nodup_keys_aggregate (runs : List (List TestCase)) :
    ((Aggregate runs).map Prod.fst).Nodup := by
  unfold Aggregate
  rw [aggregate_eq_foldl]
  exact nodup_keys_foldl _ [] (by simp)

theorem mapGet_of_mem (m : RecMap) (h : (m.map Prod.fst).Nodup) (kr : Str × TestRecord)
    (hkr : kr ∈ m) : mapGet m kr.1 = some kr.2 := by
  induction m with
  | nil => simp at hkr
  | cons kr0 rest ih =>
    obtain ⟨k0, r0⟩ := kr0
    rw [List.map_cons, List.nodup_cons] at h
    rcases List.mem_cons.1 hkr with h1 | h1
    · subst h1
      simp [mapGet]
    · have hne : k0 ≠ kr.1 := by
        rintro rfl
        exact h.1 (List.mem_map.2 ⟨kr, h1, rfl⟩)
      simp only [mapGet, if_neg hne]
      exact ih h.2 h1

theorem mapGet_aggregate_of_mem (runs : List (List TestCase)) (kr : Str × TestRecord)
    (hkr : kr ∈ Aggregate runs) : mapGet (Aggregate runs) kr.1 = some kr.2 :=
  mapGet_of_mem _ (nodup_keys_aggregate runs) kr hkr

/-! ## Mean, standard deviation and symmetry of the estimator -/

/-- Past the first guard `BetaFlaky` is the second guard followed by the CDF difference. -/
theorem betaFlaky_eq (pass fail : Nat) (hp : 1 ≤ pass) (hf : 1 ≤ fail)
    (hw : 2 ≤ wrapInt ((pass : Int) + (fail : Int))) :
    BetaFlaky pass fail =
      if betaStdDev pass fail < 1e-10 then 0
      else phi ((0.95 - betaMean pass fail) / betaStdDev pass fail) -
        phi ((0.05 - betaMean pass fail) / betaStdDev pass fail) := by
  unfold BetaFlaky
  rw [if_neg (by
    push_neg
    exact ⟨hw, by omega, by omega⟩)]
  rfl

theorem betaStdDev_arg_pos (pass fail : Nat) :
    0 < ((pass + 1 : Nat) : ℝ) * ((fail + 1 : Nat) : ℝ) /
      ((((pass + 1 : Nat) : ℝ) + ((fail + 1 : Nat) : ℝ)) *
        (((pass + 1 : Nat) : ℝ) + ((fail + 1 : Nat) : ℝ)) *
        (((pass + 1 : Nat) : ℝ) + ((fail + 1 : Nat) : ℝ) + 1)) := by
  positivity

theorem betaStdDev_pos (pass fail : Nat) : 0 < betaStdDev pass fail :=
  Real.sqrt_pos.2 (betaStdDev_arg_pos pass fail)

theorem betaStdDev_comm (pass fail : Nat) : betaStdDev fail pass = betaStdDev pass fail := by
  unfold betaStdDev
  congr 1
  ring

theorem betaMean_comm (pass fail : Nat) : betaMean fail pass = 1 - betaMean pass fail := by
  unfold betaMean
  have h : (((pass + 1 : Nat) : ℝ) + ((fail + 1 : Nat) : ℝ)) ≠ 0 := by positivity
  rw [eq_sub_iff_add_eq, add_comm ((fail + 1 : Nat) : ℝ) ((pass + 1 : Nat) : ℝ), ← add_div,
    add_comm ((fail + 1 : Nat) : ℝ) ((pass + 1 : Nat) : ℝ)]
  exact div_self h

theorem phi_neg (x : ℝ) : phi (-x) = 1 - phi x := by
  unfold phi
  rw [neg_div, erf_neg]
  ring

theorem phi_strictMono {x y : ℝ} (h : x < y) : phi x < phi y := by
  unfold phi
  have := erf_strictMono (div_lt_div_of_pos_right h sqrt_two_pos)
  linarith

/-- Swapping the two counts does not change the estimate. -/
theorem betaFlaky_comm (pass fail : Nat) : BetaFlaky pass fail = BetaFlaky fail pass := by
  by_cases hg : wrapInt ((pass : Int) + (fail : Int)) < 2 ∨ fail = 0 ∨ pass = 0
  · rw [betaFlaky_guard pass fail hg, betaFlaky_guard fail pass (by
      rw [Int.add_comm]
      rcases hg with h | h | h
      · exact Or.inl h
      · exact Or.inr (Or.inr h)
      · exact Or.inr (Or.inl h))]
  · push_neg at hg
    obtain ⟨hw, hf, hp⟩ := hg
    rw [betaFlaky_eq pass fail (Nat.one_le_iff_ne_zero.2 hp) (Nat.one_le_iff_ne_zero.2 hf) hw,
      betaFlaky_eq fail pass (Nat.one_le_iff_ne_zero.2 hf) (Nat.one_le_iff_ne_zero.2 hp)
        (by rw [Int.add_comm]; exact hw),
      betaStdDev_comm pass fail, betaMean_comm pass fail]
    by_cases hsd : betaStdDev pass fail < 1e-10
    · rw [if_pos hsd, if_pos hsd]
    · rw [if_neg hsd, if_neg hsd]
      have e1 : (0.95 - (1 - betaMean pass fail)) / betaStdDev pass fail =
          -((0.05 - betaMean pass fail) / betaStdDev pass fail) := by ring
      have e2 : (0.05 - (1 - betaMean pass fail)) / betaStdDev pass fail =
          -((0.95 - betaMean pass fail) / betaStdDev pass fail) := by ring
      rw [e1, e2, phi_neg, phi_neg]
      ring

/-- C17: `BetaFlaky` is symmetric in its arguments: `BetaFlaky pass fail = BetaFlaky fail pass`
for all counts, as an equation over exact real arithmetic. -/
theorem betaFlaky_symmetric (pass fail : Nat) : BetaFlaky pass fail = BetaFlaky fail pass :=
  betaFlaky_comm pass fail

/-- For counts up to a billion the standard deviation passes the `1e-10` guard. -/
theorem betaStdDev_ge (pass fail : Nat) (hp : 1 ≤ pass) (hf : 1 ≤ fail)
    (hn : pass + fail ≤ 1000000000) : (1e-10 : ℝ) ≤ betaStdDev pass fail := by
  unfold betaStdDev
  apply Real.le_sqrt_of_sq_le
  have ha : (2 : ℝ) ≤ ((pass + 1 : Nat) : ℝ) := by exact_mod_cast (by omega : 2 ≤ pass + 1)
  have hb : (2 : ℝ) ≤ ((fail + 1 : Nat) : ℝ) := by exact_mod_cast (by omega : 2 ≤ fail + 1)
  have hN : ((pass + 1 : Nat) : ℝ) + ((fail + 1 : Nat) : ℝ) ≤ 1000000002 := by
    exact_mod_cast (by omega : (pass + 1) + (fail + 1) ≤ 1000000002)
  generalize ((pass + 1 : Nat) : ℝ) = a at ha hN ⊢
  generalize ((fail + 1 : Nat) : ℝ) = b at hb hN ⊢
  rw [le_div_iff₀ (by positivity)]
  have hab : 2 * (a + b) - 4 ≤ a * b := by nlinarith
  have hN4 : 4 ≤ a + b := by linarith
  have h1 : (a + b) * (a + b + 1) ≤ 1000000002 * 1000000003 := by nlinarith
  have h2 : (a + b) ≤ 2 * (a + b) - 4 := by linarith
  have h3 : (1e-10 : ℝ) ^ 2 * ((a + b) * (a + b + 1)) ≤ 1 := by
    calc (1e-10 : ℝ) ^ 2 * ((a + b) * (a + b + 1))
        ≤ (1e-10 : ℝ) ^ 2 * (1000000002 * 1000000003) :=
          mul_le_mul_of_nonneg_left h1 (by norm_num)
      _ ≤ 1 := by norm_num
  calc (1e-10 : ℝ) ^ 2 * ((a + b) * (a + b) * (a + b + 1))
      = ((1e-10 : ℝ) ^ 2 * ((a + b) * (a + b + 1))) * (a + b) := by ring
    _ ≤ 1 * (a + b) := mul_le_mul_of_nonneg_right h3 (by linarith)
    _ ≤ a * b := by linarith

/-- C19: for realistic counts the numerical-degeneracy guard never fires: for `pass ≥ 1`,
`fail ≥ 1` and `pass + fail ≤ 10^9` the computed standard deviation is at least `1e-10`, so
`BetaFlaky pass fail` is the difference of the two CDF values and is strictly positive. -/
theorem betaFlaky_realistic (pass fail : Nat) (hp : 1 ≤ pass) (hf : 1 ≤ fail)
    (hn : pass + fail ≤ 1000000000) :
    betaStdDev pass fail =
      Real.sqrt (((pass + 1 : Nat) : ℝ) * ((fail + 1 : Nat) : ℝ) /
        ((((pass + 1 : Nat) : ℝ) + ((fail + 1 : Nat) : ℝ)) *
          (((pass + 1 : Nat) : ℝ) + ((fail + 1 : Nat) : ℝ)) *
          (((pass + 1 : Nat) : ℝ) + ((fail + 1 : Nat) : ℝ) + 1))) ∧
    betaMean pass fail =
      ((pass + 1 : Nat) : ℝ) / (((pass + 1 : Nat) : ℝ) + ((fail + 1 : Nat) : ℝ)) ∧
    (1e-10 : ℝ) ≤ betaStdDev pass fail ∧
    BetaFlaky pass fail =
      phi ((0.95 - betaMean pass fail) / betaStdDev pass fail) -
        phi ((0.05 - betaMean pass fail) / betaStdDev pass fail) ∧
    0 < BetaFlaky pass fail := by
  have hsd := betaStdDev_ge pass fail hp hf hn
  have hw : 2 ≤ wrapInt ((pass : Int) + (fail : Int)) := by
    rw [wrapInt_eq_self (by omega) (by omega)]
    omega
  have hb : BetaFlaky pass fail =
      phi ((0.95 - betaMean pass fail) / betaStdDev pass fail) -
        phi ((0.05 - betaMean pass fail) / betaStdDev pass fail) := by
    rw [betaFlaky_eq pass fail hp hf hw, if_neg (not_lt.2 hsd)]
  refine ⟨rfl, rfl, hsd, hb, ?_⟩
  rw [hb]
  have := phi_strictMono (div_lt_div_of_pos_right
    (by linarith : (0.05 : ℝ) - betaMean pass fail < 0.95 - betaMean pass fail)
    (betaStdDev_pos pass fail))
  linarith

/-- Witness of C19 at the counts of `test_token`: one pass, two failures. -/
theorem betaFlaky_realistic_witness :
    (1e-10 : ℝ) ≤ betaStdDev 1 2 ∧
    BetaFlaky 1 2 =
      phi ((0.95 - betaMean 1 2) / betaStdDev 1 2) - phi ((0.05 - betaMean 1 2) / betaStdDev 1 2) ∧
    0 < BetaFlaky 1 2 :=
  (betaFlaky_realistic 1 2 (by decide) (by decide) (by decide)).2.2

/-! ## The three runs of the test file -/

/-- The map `Aggregate` builds from the three runs of the test file. -/
theorem aggregate_test_runs :
    Aggregate [xmlRun1, xmlRun2, xmlRun3] =
      [ ("auth::test_login".toList,
          ⟨"test_login".toList, "auth".toList, 3, 0, 0 + 0.5 + 0.4 + 0.5, []⟩),
        ("auth::test_token".toList,
          ⟨"test_token".toList, "auth".toList, 1, 2, 0 + 1.2 + 0.8 + 1.0,
            ["timeout waiting connection timed out".toList,
              "deadline exceeded timeout".toList]⟩),
        ("core::test_calc".toList,
          ⟨"test_calc".toList, "core".toList, 2, 1, 0 + 0.1 + 0.12 + 0.11,
            ["race detected concurrent map writes".toList]⟩) ] := by
  have k1 : ∀ t f, caseKey ⟨"test_login".toList, "auth".toList, t, f⟩ = "auth::test_login".toList :=
    fun _ _ => rfl
  have k2 : ∀ t f, caseKey ⟨"test_token".toList, "auth".toList, t, f⟩ = "auth::test_token".toList :=
    fun _ _ => rfl
  have k3 : ∀ t f, caseKey ⟨"test_calc".toList, "core".toList, t, f⟩ = "core::test_calc".toList :=
    fun _ _ => rfl
  have n12 : ("auth::test_login".toList = "auth::test_token".toList) = False :=
    eq_false (by decide)
  have n13 : ("auth::test_login".toList = "core::test_calc".toList) = False :=
    eq_false (by decide)
  have n23 : ("auth::test_token".toList = "core::test_calc".toList) = False :=
    eq_false (by decide)
  have e1 : "timeout waiting".toList ++ " ".toList ++ "connection timed out".toList =
      "timeout waiting connection timed out".toList := by decide
  have e2 : "race detected".toList ++ " ".toList ++ "concurrent map writes".toList =
      "race detected concurrent map writes".toList := by decide
  have e3 : "deadline exceeded".toList ++ " ".toList ++ "timeout".toList =
      "deadline exceeded timeout".toList := by decide
  simp only [Aggregate, xmlRun1, xmlRun2, xmlRun3, List.foldl_cons, List.foldl_nil, addCase,
    k1, k2, k3, mapGet, mapSet, n12, n13, n23, if_true, if_false, e1, e2, e3,
    List.nil_append, List.singleton_append]

/-- C13: for every record `Aggregate` returns, the failure-text list holds exactly one snippet
per failing outcome counted in that record, in order of occurrence (run order, then position
within the run), each snippet being the failure message, a single space and the failure body;
hence `len(Errors) = Fail`, and a record that never failed has an empty list. -/
theorem aggregate_errors (runs : List (List TestCase)) (kr : Str × TestRecord)
    (h : kr ∈ Aggregate runs) :
    kr.2.Errors = (countedIn runs kr.1).filterMap
      (fun tc => tc.Failure.map (fun f => f.Message ++ " ".toList ++ f.Body)) ∧
    kr.2.Fail = ((countedIn runs kr.1).filter (fun tc => tc.Failure.isSome)).length ∧
    kr.2.Errors.length = kr.2.Fail ∧
    (kr.2.Fail = 0 → kr.2.Errors = []) := by
  have hg := mapGet_aggregate_of_mem runs kr h
  rw [mapGet_aggregate] at hg
  have he := errorsOf_foldl (countedIn runs kr.1) none
  have hf := failsOf_foldl (countedIn runs kr.1) none
  rw [hg] at he hf
  simp only [errorsOf, failsOf, List.nil_append, Nat.zero_add] at he hf
  have hlen : kr.2.Errors.length = kr.2.Fail := by
    rw [he, hf, filterMap_snippet_length]
  refine ⟨he, hf, hlen, ?_⟩
  intro h0
  rw [h0] at hlen
  exact List.length_eq_zero.1 hlen

/-- Witness of C13: the record of `auth::test_token` after the three runs of the test file. -/
theorem aggregate_errors_witness :
    (["timeout waiting connection timed out".toList, "deadline exceeded timeout".toList] : List Str) =
      (countedIn [xmlRun1, xmlRun2, xmlRun3] "auth::test_token".toList).filterMap
        (fun tc => tc.Failure.map (fun f => f.Message ++ " ".toList ++ f.Body)) ∧
    2 = ((countedIn [xmlRun1, xmlRun2, xmlRun3] "auth::test_token".toList).filter
      (fun tc => tc.Failure.isSome)).length :=
  ⟨(aggregate_errors [xmlRun1, xmlRun2, xmlRun3]
      ("auth::test_token".toList, ⟨"test_token".toList, "auth".toList, 1, 2, 0 + 1.2 + 0.8 + 1.0,
        ["timeout waiting connection timed out".toList, "deadline exceeded timeout".toList]⟩)
      (by rw [aggregate_test_runs]; simp)).1,
   (aggregate_errors [xmlRun1, xmlRun2, xmlRun3]
      ("auth::test_token".toList, ⟨"test_token".toList, "auth".toList, 1, 2, 0 + 1.2 + 0.8 + 1.0,
        ["timeout waiting connection timed out".toList, "deadline exceeded timeout".toList]⟩)
      (by rw [aggregate_test_runs]; simp)).2.1⟩

/-- C14: for every record `Aggregate` returns, `TotalTime` is the sum of the durations of all
outcomes (passing and failing) counted in that record, and is therefore non-negative when all
input durations are non-negative. -/
theorem aggregate_total_time (runs : List (List TestCase)) (kr : Str × TestRecord)
    (h : kr ∈ Aggregate runs) :
    kr.2.TotalTime = ((countedIn runs kr.1).map (fun tc => tc.Time)).sum ∧
    ((∀ tc ∈ runs.flatten, 0 ≤ tc.Time) → 0 ≤ kr.2.TotalTime) := by
  have hg := mapGet_aggregate_of_mem runs kr h
  rw [mapGet_aggregate] at hg
  have ht := timeOf_foldl (countedIn runs kr.1) none
  rw [hg] at ht
  simp only [timeOf, zero_add] at ht
  refine ⟨ht, ?_⟩
  intro hpos
  rw [ht]
  apply List.sum_nonneg
  intro x hx
  obtain ⟨tc, htc, rfl⟩ := List.mem_map.1 hx
  exact hpos tc (List.mem_of_mem_filter htc)

/-- Witness of C14: the record of `auth::test_token` after the three runs of the test file. -/
theorem aggregate_total_time_witness :
    (0 + 1.2 + 0.8 + 1.0 : ℝ) =
      ((countedIn [xmlRun1, xmlRun2, xmlRun3] "auth::test_token".toList).map
        (fun tc => tc.Time)).sum ∧
    ((∀ tc ∈ [xmlRun1, xmlRun2, xmlRun3].flatten, 0 ≤ tc.Time) → (0 : ℝ) ≤ 0 + 1.2 + 0.8 + 1.0) :=
  aggregate_total_time [xmlRun1, xmlRun2, xmlRun3]
    ("auth::test_token".toList, ⟨"test_token".toList, "auth".toList, 1, 2, 0 + 1.2 + 0.8 + 1.0,
      ["timeout waiting connection timed out".toList, "deadline exceeded timeout".toList]⟩)
    (by rw [aggregate_test_runs]; simp)

theorem aggregate_observed_pos (runs : List (List TestCase)) (kr : Str × TestRecord)
    (h : kr ∈ Aggregate runs) : 1 ≤ kr.2.Pass + kr.2.Fail := by
  have hg := mapGet_aggregate_of_mem runs kr h
  obtain ⟨tc, htc, hk, _, _⟩ := aggregate_origin runs kr.1 kr.2 hg
  have hc := observed_aggregate runs kr.1
  rw [hg] at hc
  simp only [observed] at hc
  rw [hc]
  exact List.length_pos_iff_exists_mem.2 ⟨tc, List.mem_filter.2 ⟨htc, by simpa using hk⟩⟩

/-! ## Thresholds at or below zero, and letter case -/

theorem goRound_zero : goRound 0 = 0 := by
  unfold goRound
  rw [if_pos (le_refl 0)]
  norm_num

/-- C20: with a threshold `≤ 0` nothing is filtered: `Detect` reports one entry for every
record, in the order of the pass, and a test that never failed is reported with flakiness
probability 0. -/
theorem detect_nonpositive_threshold (lower : Str → Str) (records : RecMap)
    (costPerMin threshold : ℝ) (hthr : threshold ≤ 0) :
    Detect lower records costPerMin threshold =
      records.map (fun kr => mkEntry lower kr.2 costPerMin (BetaFlaky kr.2.Pass kr.2.Fail)) ∧
    (Detect lower records costPerMin threshold).map (fun e => (e.Name, e.Class)) =
      records.map (fun kr => (kr.2.Name, kr.2.Class)) ∧
    (Detect lower records costPerMin threshold).length = records.length ∧
    ∀ kr ∈ records, kr.2.Fail = 0 →
      BetaFlaky kr.2.Pass kr.2.Fail = 0 ∧
      (mkEntry lower kr.2 costPerMin (BetaFlaky kr.2.Pass kr.2.Fail)).FlakyProb = F64.fin 0 := by
  have hd : Detect lower records costPerMin threshold =
      records.map (fun kr => mkEntry lower kr.2 costPerMin (BetaFlaky kr.2.Pass kr.2.Fail)) := by
    rw [detect_eq, List.filter_eq_self.2]
    intro kr _
    have := betaFlaky_nonneg kr.2.Pass kr.2.Fail
    simpa using le_trans hthr this
  refine ⟨hd, ?_, ?_, ?_⟩
  · rw [hd, List.map_map]
    rfl
  · rw [hd, List.length_map]
  · intro kr _ hf
    have h0 : BetaFlaky kr.2.Pass kr.2.Fail = 0 :=
      betaFlaky_guard _ _ (Or.inr (Or.inl hf))
    refine ⟨h0, ?_⟩
    rw [h0]
    simp only [mkEntry, rnd64_zero]
    exact decRound_zero 1000 (by norm_num)

/-- Witness of C20: the record of `auth::test_login` (three passes) alone, at threshold 0. -/
theorem detect_nonpositive_threshold_witness :
    (Detect ToLowerASCII [("auth::test_login".toList,
        ⟨"test_login".toList, "auth".toList, 3, 0, 0 + 0.5 + 0.4 + 0.5, []⟩)] 0.008 0).length =
      [("auth::test_login".toList,
        (⟨"test_login".toList, "auth".toList, 3, 0, 0 + 0.5 + 0.4 + 0.5, []⟩ : TestRecord))].length :=
  (detect_nonpositive_threshold ToLowerASCII [("auth::test_login".toList,
        ⟨"test_login".toList, "auth".toList, 3, 0, 0 + 0.5 + 0.4 + 0.5, []⟩)] 0.008 0
    (le_refl 0)).2.2.1

theorem toLowerASCII_append (s t : Str) :
    ToLowerASCII (s ++ t) = ToLowerASCII s ++ ToLowerASCII t := by
  simp [ToLowerASCII]

theorem toLowerASCII_join (xs : List Str) (sep : Str) :
    ToLowerASCII (Join xs sep) = Join (xs.map ToLowerASCII) (ToLowerASCII sep) := by
  induction xs with
  | nil => rfl
  | cons x rest ih =>
    cases rest with
    | nil => rfl
    | cons y rest =>
      simp only [Join, List.map_cons, toLowerASCII_append] at ih ⊢
      rw [ih]

theorem ascii_join (xs : List Str) (sep : Str) (hx : ∀ s ∈ xs, ∀ c ∈ s, c.toNat < 128)
    (hs : ∀ c ∈ sep, c.toNat < 128) : ∀ c ∈ Join xs sep, c.toNat < 128 := by
  induction xs with
  | nil => intro c hc; simp [Join] at hc
  | cons x rest ih =>
    cases rest with
    | nil =>
      intro c hc
      exact hx x (List.mem_cons_self _ _) c (by simpa [Join] using hc)
    | cons y rest =>
      intro c hc
      simp only [Join, List.mem_append] at hc
      rcases hc with (hc | hc) | hc
      · exact hx x (List.mem_cons_self _ _) c hc
      · exact hs c hc
      · exact ih (fun s hs' => hx s (List.mem_cons_of_mem _ hs')) c hc

/-- C15: `Classify` is case-insensitive: for lists of ASCII failure texts that differ only in
the case of letters (equal after lower-casing each text), the tag and the suggestion are the
same, whatever `strings.ToLower` does outside ASCII; `timezone UTC mismatch` and
`TIMEZONE utc MISMATCH` both give timezone. -/
theorem classify_case_insensitive (lower : Str → Str)
    (hlower : ∀ s : Str, (∀ c ∈ s, c.toNat < 128) → lower s = ToLowerASCII s)
    (errors errors' : List Str)
    (hascii : ∀ s ∈ errors, ∀ c ∈ s, c.toNat < 128)
    (hascii' : ∀ s ∈ errors', ∀ c ∈ s, c.toNat < 128)
    (hcase : errors.map ToLowerASCII = errors'.map ToLowerASCII) :
    Classify lower errors = Classify lower errors' ∧
    (Classify ToLowerASCII ["timezone UTC mismatch".toList]).1 = "timezone".toList ∧
    (Classify ToLowerASCII ["TIMEZONE utc MISMATCH".toList]).1 = "timezone".toList := by
  refine ⟨?_, by decide, by decide⟩
  have hsp : ∀ c ∈ " ".toList, c.toNat < 128 := by decide
  have h1 : lower (Join errors " ".toList) = lower (Join errors' " ".toList) := by
    rw [hlower _ (ascii_join errors _ hascii hsp), hlower _ (ascii_join errors' _ hascii' hsp),
      toLowerASCII_join, toLowerASCII_join, hcase]
  simp only [Classify, h1]

/-- Witness of C15: `timezone UTC mismatch` against `TIMEZONE utc MISMATCH`. -/
theorem classify_case_insensitive_witness :
    Classify ToLowerASCII ["timezone UTC mismatch".toList] =
      Classify ToLowerASCII ["TIMEZONE utc MISMATCH".toList] :=
  (classify_case_insensitive ToLowerASCII (fun _ _ => rfl)
    ["timezone UTC mismatch".toList] ["TIMEZONE utc MISMATCH".toList]
    (by decide) (by decide) (by decide)).1

/-! ## End to end -/

theorem betaFlaky_two_one : 1 / 2 ≤ BetaFlaky 2 1 := by
  rw [betaFlaky_comm]
  exact betaFlaky_one_two

/-- The report of the three test runs, in the order in which `Aggregate` first met the tests. -/
theorem detect_test_runs :
    (Detect ToLowerASCII (Aggregate [xmlRun1, xmlRun2, xmlRun3]) 0.008 0.5).map
        (fun e => (e.Class, e.Name, e.RootCause)) =
      [ ("auth".toList, "test_token".toList, "timing-dependency".toList),
        ("core".toList, "test_calc".toList, "race-condition".toList) ] := by
  have h1 : ¬ ((0.5 : ℝ) ≤ BetaFlaky 3 0) := by
    rw [betaFlaky_guard 3 0 (Or.inr (Or.inl rfl))]
    norm_num
  have h2 : (0.5 : ℝ) ≤ BetaFlaky 1 2 := by
    have := betaFlaky_one_two
    norm_num at this ⊢
    linarith
  have h3 : (0.5 : ℝ) ≤ BetaFlaky 2 1 := by
    have := betaFlaky_two_one
    norm_num at this ⊢
    linarith
  have c1 : (Classify ToLowerASCII ["timeout waiting connection timed out".toList,
      "deadline exceeded timeout".toList]).1 = "timing-dependency".toList := by decide
  have c2 : (Classify ToLowerASCII ["race detected concurrent map writes".toList]).1 =
      "race-condition".toList := by decide
  rw [detect_eq, aggregate_test_runs]
  simp only [List.filter_cons, List.filter_nil, h1, h2, h3, decide_True, decide_False, if_true,
    if_false, List.map_cons, List.map_nil, mkEntry, c1, c2, Bool.false_eq_true]

/-- C16: end-to-end scenario: for the three runs of the test file `Aggregate` yields 3 records,
and `Detect (Aggregate runs) 0.008 0.5`, in whatever order the map is visited, yields exactly
two entries: `auth::test_token` tagged `timing-dependency` and `core::test_calc` tagged
`race-condition`; `auth::test_login` is excluded. -/
theorem end_to_end_scenario (records : RecMap)
    (hperm : records.Perm (Aggregate [xmlRun1, xmlRun2, xmlRun3])) :
    (Aggregate [xmlRun1, xmlRun2, xmlRun3]).length = 3 ∧
    (Aggregate [xmlRun1, xmlRun2, xmlRun3]).map (fun kr => (kr.2.Class, kr.2.Name)) =
      [ ("auth".toList, "test_login".toList), ("auth".toList, "test_token".toList),
        ("core".toList, "test_calc".toList) ] ∧
    (Detect ToLowerASCII records 0.008 0.5).length = 2 ∧
    ((Detect ToLowerASCII records 0.008 0.5).map (fun e => (e.Class, e.Name, e.RootCause))).Perm
      [ ("auth".toList, "test_token".toList, "timing-dependency".toList),
        ("core".toList, "test_calc".toList, "race-condition".toList) ] := by
  have hp : ((Detect ToLowerASCII records 0.008 0.5).map
      (fun e => (e.Class, e.Name, e.RootCause))).Perm
      [ ("auth".toList, "test_token".toList, "timing-dependency".toList),
        ("core".toList, "test_calc".toList, "race-condition".toList) ] := by
    rw [← detect_test_runs, detect_eq, detect_eq]
    exact ((hperm.filter _).map _).map _
  refine ⟨by rw [aggregate_test_runs]; rfl, by rw [aggregate_test_runs]; rfl, ?_, hp⟩
  have := hp.length_eq
  simpa using this

/-- Witness of C16: the map as `Aggregate` returns it. -/
theorem end_to_end_scenario_witness :
    (Detect ToLowerASCII (Aggregate [xmlRun1, xmlRun2, xmlRun3]) 0.008 0.5).length = 2 :=
  (end_to_end_scenario (Aggregate [xmlRun1, xmlRun2, xmlRun3]) (List.Perm.refl _)).2.2.1

/-! ## Tail of the error function and even splits -/

theorem gauss_hasDerivAt (x t : ℝ) :
    HasDerivAt (fun u : ℝ => -(Real.exp (-(u ^ 2)) / (2 * x)))
      (t / x * Real.exp (-(t ^ 2))) t := by
  have h1 : HasDerivAt (fun u : ℝ => -(u ^ 2)) (-(2 * t)) t := by
    simpa using (hasDerivAt_pow 2 t).neg
  have h2 := ((Real.hasDerivAt_exp (-(t ^ 2))).comp t h1).div_const (2 * x)
  have h3 := h2.neg
  convert h3 using 1
  by_cases hx : x = 0
  · simp [hx]
  · field_simp
    ring

theorem gauss_integral_le {x y : ℝ} (hx : 0 < x) (hxy : x ≤ y) :
    ∫ t in x..y, Real.exp (-(t ^ 2)) ≤ Real.exp (-(x ^ 2)) / (2 * x) := by
  have hcont : Continuous (fun t : ℝ => t / x * Real.exp (-(t ^ 2))) := by continuity
  have h1 : ∫ t in x..y, Real.exp (-(t ^ 2)) ≤ ∫ t in x..y, t / x * Real.exp (-(t ^ 2)) := by
    apply intervalIntegral.integral_mono_on hxy (gauss_intervalIntegrable x y)
      (hcont.intervalIntegrable x y)
    intro t ht
    have h1 : 1 ≤ t / x := by
      rw [le_div_iff₀ hx]
      linarith [ht.1]
    have := Real.exp_pos (-(t ^ 2))
    nlinarith
  have h2 : ∫ t in x..y, t / x * Real.exp (-(t ^ 2)) =
      -(Real.exp (-(y ^ 2)) / (2 * x)) - -(Real.exp (-(x ^ 2)) / (2 * x)) :=
    intervalIntegral.integral_eq_sub_of_hasDerivAt (fun t _ => gauss_hasDerivAt x t)
      (hcont.intervalIntegrable x y)
  have h3 : 0 ≤ Real.exp (-(y ^ 2)) / (2 * x) :=
    div_nonneg (Real.exp_pos _).le (by linarith)
  linarith

theorem erf_tendsto_one : Filter.Tendsto erf Filter.atTop (nhds 1) := by
  have h := MeasureTheory.intervalIntegral_tendsto_integral_Ioi 0 gauss_integrableOn_Ioi
    Filter.tendsto_id
  rw [gauss_integral_Ioi] at h
  have h2 := h.const_mul (2 / Real.sqrt Real.pi)
  have hs : 0 < Real.sqrt Real.pi := Real.sqrt_pos.2 Real.pi_pos
  have e : 2 / Real.sqrt Real.pi * (Real.sqrt Real.pi / 2) = 1 := by field_simp
  rw [e] at h2
  exact h2

/-- The tail of the error function: `1 - erf x ≤ exp(-x²) / (x √π)` for `x > 0`. -/
theorem one_sub_erf_le {x : ℝ} (hx : 0 < x) :
    1 - erf x ≤ Real.exp (-(x ^ 2)) / (x * Real.sqrt Real.pi) := by
  have hs : 0 < Real.sqrt Real.pi := Real.sqrt_pos.2 Real.pi_pos
  have hev : ∀ᶠ y in Filter.atTop,
      erf y ≤ erf x + Real.exp (-(x ^ 2)) / (x * Real.sqrt Real.pi) := by
    filter_upwards [Filter.eventually_ge_atTop x] with y hy
    have h1 := erf_sub x y
    have h2 := gauss_integral_le hx hy
    have h3 : 2 / Real.sqrt Real.pi * ∫ t in x..y, Real.exp (-(t ^ 2)) ≤
        2 / Real.sqrt Real.pi * (Real.exp (-(x ^ 2)) / (2 * x)) :=
      mul_le_mul_of_nonneg_left h2 erf_coeff_pos.le
    have h4 : 2 / Real.sqrt Real.pi * (Real.exp (-(x ^ 2)) / (2 * x)) =
        Real.exp (-(x ^ 2)) / (x * Real.sqrt Real.pi) := by
      field_simp
      ring
    linarith
  have := le_of_tendsto erf_tendsto_one hev
  linarith

theorem erf_seven_fifths : 9 / 10 < erf (7 / 5) := by
  have h := one_sub_erf_le (by norm_num : (0 : ℝ) < 7 / 5)
  have hs3 : (17 / 10 : ℝ) ≤ Real.sqrt Real.pi := by
    apply Real.le_sqrt_of_sq_le
    have := Real.pi_gt_three
    norm_num
    linarith
  have he : (5 : ℝ) ≤ Real.exp ((7 / 5 : ℝ) ^ 2) := by
    have h1 := Real.exp_one_gt_d9
    have h2 := Real.add_one_le_exp (24 / 25 : ℝ)
    have h3 : Real.exp ((7 / 5 : ℝ) ^ 2) = Real.exp 1 * Real.exp (24 / 25) := by
      rw [← Real.exp_add]
      norm_num
    rw [h3]
    nlinarith [Real.exp_pos (1 : ℝ), Real.exp_pos (24 / 25 : ℝ)]
  have hb : Real.exp (-((7 / 5 : ℝ) ^ 2)) / (7 / 5 * Real.sqrt Real.pi) < 1 / 10 := by
    rw [Real.exp_neg, div_lt_iff₀ (by positivity)]
    rw [inv_lt_comm₀ (by positivity) (by positivity)]
    have : (0 : ℝ) < Real.sqrt Real.pi := by linarith
    have h5 : (1 / 10 * (7 / 5 * Real.sqrt Real.pi))⁻¹ = 10 / (7 / 5 * Real.sqrt Real.pi) := by
      field_simp
    rw [h5, div_lt_iff₀ (by positivity)]
    nlinarith
  linarith

theorem betaMean_even (k : Nat) : betaMean k k = 1 / 2 := by
  unfold betaMean
  have h : ((k + 1 : Nat) : ℝ) ≠ 0 := by positivity
  field_simp
  ring

/-- On an even split the estimate is one value of the error function. -/
theorem betaFlaky_even (k : Nat) (hk : 1 ≤ k) (hk2 : k < 4611686018427387904) :
    BetaFlaky k k = erf (0.45 / betaStdDev k k / Real.sqrt 2) ∧
    7 / 5 ≤ 0.45 / betaStdDev k k / Real.sqrt 2 := by
  have ha2 : (2 : ℝ) ≤ ((k + 1 : Nat) : ℝ) := by exact_mod_cast (by omega : 2 ≤ k + 1)
  have hau : ((k + 1 : Nat) : ℝ) ≤ 4611686018427387904 := by
    exact_mod_cast (by omega : k + 1 ≤ 4611686018427387904)
  have hsdpos := betaStdDev_pos k k
  have hw : 2 ≤ wrapInt ((k : Int) + (k : Int)) := by
    rw [wrapInt_eq_self (by omega) (by omega)]
    omega
  have hsd : (1e-10 : ℝ) ≤ betaStdDev k k := by
    unfold betaStdDev
    apply Real.le_sqrt_of_sq_le
    generalize ((k + 1 : Nat) : ℝ) = a at ha2 hau
    rw [le_div_iff₀ (by positivity)]
    have h1 : (1e-10 : ℝ) ^ 2 * (4 * (a + a + 1)) ≤ 1 := by
      norm_num
      linarith
    calc (1e-10 : ℝ) ^ 2 * ((a + a) * (a + a) * (a + a + 1))
        = ((1e-10 : ℝ) ^ 2 * (4 * (a + a + 1))) * (a * a) := by ring
      _ ≤ 1 * (a * a) := mul_le_mul_of_nonneg_right h1 (by positivity)
      _ = a * a := one_mul _
  constructor
  · rw [betaFlaky_eq k k hk hk hw, if_neg (not_lt.2 hsd), betaMean_even]
    have e1 : ((0.95 : ℝ) - 1 / 2) / betaStdDev k k = 0.45 / betaStdDev k k := by norm_num
    have e2 : ((0.05 : ℝ) - 1 / 2) / betaStdDev k k = -(0.45 / betaStdDev k k) := by
      rw [← neg_div]
      norm_num
    rw [e1, e2, phi_neg]
    unfold phi
    ring
  · rw [div_div, le_div_iff₀ (mul_pos hsdpos sqrt_two_pos)]
    have hz : betaStdDev k k * Real.sqrt 2 ≤ 9 / 28 := by
      unfold betaStdDev
      rw [← Real.sqrt_mul (betaStdDev_arg_pos k k).le, Real.sqrt_le_left (by norm_num)]
      generalize ((k + 1 : Nat) : ℝ) = a at ha2 hau
      rw [div_mul_eq_mul_div, div_le_iff₀ (by positivity)]
      have h1 : (2 : ℝ) ≤ (9 / 28) ^ 2 * (4 * (a + a + 1)) := by
        norm_num
        linarith
      calc a * a * 2 = 2 * (a * a) := by ring
        _ ≤ ((9 / 28) ^ 2 * (4 * (a + a + 1))) * (a * a) :=
          mul_le_mul_of_nonneg_right h1 (by positivity)
        _ = (9 / 28) ^ 2 * ((a + a) * (a + a) * (a + a + 1)) := by ring
    norm_num
    linarith

/-- C11, counterexample: for `k = 2^62` the sum `k + k` overflows the 64-bit `int` to a
negative number, the first guard fires and `BetaFlaky k k` is `0`, not above `0.9`. -/
theorem betaFlaky_even_overflow :
    1 ≤ 4611686018427387904 ∧
    BetaFlaky 4611686018427387904 4611686018427387904 = 0 ∧
    ¬ (0.9 < BetaFlaky 4611686018427387904 4611686018427387904) := by
  have h0 : BetaFlaky 4611686018427387904 4611686018427387904 = 0 :=
    betaFlaky_guard _ _ (Or.inl (wrapInt_lt_two_of_ge (by norm_num) (by norm_num)))
  refine ⟨by norm_num, h0, ?_⟩
  rw [h0]
  norm_num

/-- C11, amended: even splits are judged highly flaky as long as `k + k` fits the 64-bit `int`:
for every `k` with `1 ≤ k < 2^62`, `BetaFlaky k k > 0.9`, hence `BetaFlaky k k > BetaFlaky m 0`
for every `m`; in particular `BetaFlaky 5 5 > 0.9` and `BetaFlaky 5 5 > BetaFlaky 10 0`. -/
theorem betaFlaky_even_split (k m : Nat) (hk : 1 ≤ k) (hk2 : k < 4611686018427387904) :
    0.9 < BetaFlaky k k ∧ BetaFlaky m 0 < BetaFlaky k k ∧
    0.9 < BetaFlaky 5 5 ∧ BetaFlaky 10 0 < BetaFlaky 5 5 := by
  have key : ∀ j : Nat, 1 ≤ j → j < 4611686018427387904 → (0.9 : ℝ) < BetaFlaky j j := by
    intro j hj hj2
    obtain ⟨he, hx⟩ := betaFlaky_even j hj hj2
    rw [he]
    have h1 := erf_mono hx
    have h2 := erf_seven_fifths
    norm_num
    linarith
  have h0 : ∀ j : Nat, BetaFlaky j 0 = 0 := fun j => betaFlaky_guard j 0 (Or.inr (Or.inl rfl))
  have hk9 := key k hk hk2
  have h59 := key 5 (by norm_num) (by norm_num)
  refine ⟨hk9, ?_, h59, ?_⟩
  · rw [h0]
    linarith
  · rw [h0]
    linarith

/-- Witness of C11 (amended) at `k = 1`, the smallest even split, against `m = 10`. -/
theorem betaFlaky_even_split_witness :
    1 ≤ 1 ∧ 1 < 4611686018427387904 ∧ 0.9 < BetaFlaky 1 1 ∧ BetaFlaky 10 0 < BetaFlaky 1 1 :=
  ⟨le_refl 1, by norm_num, (betaFlaky_even_split 1 10 (le_refl 1) (by norm_num)).1,
    (betaFlaky_even_split 1 10 (le_refl 1) (by norm_num)).2.1⟩

/-! ## Monotonicity in the split -/

theorem erf_hasDerivAt (x : ℝ) :
    HasDerivAt erf (2 / Real.sqrt Real.pi * Real.exp (-(x ^ 2))) x := by
  have h := (gauss_continuous.integral_hasStrictDerivAt 0 x).hasDerivAt
  exact h.const_mul (2 / Real.sqrt Real.pi)

theorem splitCurve_hasDerivAt (c y : ℝ) (hy : y ≠ 0) :
    HasDerivAt (splitCurve c)
      (2 / Real.sqrt Real.pi * Real.exp (-((c * (0.95 / y - 0.05 * y)) ^ 2)) *
          (c * (0.95 * -(y ^ 2)⁻¹ - 0.05 * 1)) +
        2 / Real.sqrt Real.pi * Real.exp (-((c * (0.95 * y - 0.05 / y)) ^ 2)) *
          (c * (0.95 * 1 - 0.05 * -(y ^ 2)⁻¹))) y := by
  have hinv : HasDerivAt (fun t : ℝ => t⁻¹) (-(y ^ 2)⁻¹) y := hasDerivAt_inv hy
  have hid : HasDerivAt (fun t : ℝ => t) 1 y := hasDerivAt_id' y
  have hA : HasDerivAt (fun t : ℝ => c * (0.95 * t⁻¹ - 0.05 * t))
      (c * (0.95 * -(y ^ 2)⁻¹ - 0.05 * 1)) y :=
    ((hinv.const_mul 0.95).sub (hid.const_mul 0.05)).const_mul c
  have hB : HasDerivAt (fun t : ℝ => c * (0.95 * t - 0.05 * t⁻¹))
      (c * (0.95 * 1 - 0.05 * -(y ^ 2)⁻¹)) y :=
    ((hid.const_mul 0.95).sub (hinv.const_mul 0.05)).const_mul c
  have h1 := (erf_hasDerivAt (c * (0.95 * y⁻¹ - 0.05 * y))).comp y hA
  have h2 := (erf_hasDerivAt (c * (0.95 * y - 0.05 * y⁻¹))).comp y hB
  have h3 := h1.add h2
  have e : splitCurve c = fun t : ℝ => (erf ∘ fun t : ℝ => c * (0.95 * t⁻¹ - 0.05 * t)) t +
      (erf ∘ fun t : ℝ => c * (0.95 * t - 0.05 * t⁻¹)) t := by
    funext t
    simp only [splitCurve, Function.comp, div_eq_mul_inv]
  rw [e]
  convert h3 using 2

/-- The pointwise inequality behind the sign of the derivative. -/
theorem split_key (z zi X : ℝ) (hz : 1 ≤ z) (hzi : z * zi = 1)
    (hX : 2.25 * (z - zi) ≤ X) :
    0.95 + 0.05 * zi ≤ (1 + X) * (0.95 * zi + 0.05) := by
  have hzi0 : 0 < zi := by
    by_contra h
    push_neg at h
    nlinarith
  have hzi1 : zi ≤ 1 := by nlinarith
  have h1 : 2.25 * (z - zi) * (0.95 * zi + 0.05) ≤ X * (0.95 * zi + 0.05) :=
    mul_le_mul_of_nonneg_right hX (by linarith)
  have h2 : (z - zi) * (0.95 * zi + 0.05) = 0.95 + 0.05 * z - 0.95 * zi ^ 2 - 0.05 * zi := by
    have : z * zi = 1 := hzi
    linear_combination 0.95 * this
  have h3 : zi ^ 2 ≤ zi := by nlinarith
  nlinarith

theorem splitCurve_deriv_nonpos (c y : ℝ) (hc : 5 / 2 ≤ c ^ 2) (hc0 : 0 ≤ c) (hy : 1 ≤ y) :
    2 / Real.sqrt Real.pi * Real.exp (-((c * (0.95 / y - 0.05 * y)) ^ 2)) *
          (c * (0.95 * -(y ^ 2)⁻¹ - 0.05 * 1)) +
        2 / Real.sqrt Real.pi * Real.exp (-((c * (0.95 * y - 0.05 / y)) ^ 2)) *
          (c * (0.95 * 1 - 0.05 * -(y ^ 2)⁻¹)) ≤ 0 := by
  have hy0 : 0 < y := by linarith
  have hz : (1 : ℝ) ≤ y ^ 2 := by nlinarith
  have hzi : y ^ 2 * (y ^ 2)⁻¹ = 1 := mul_inv_cancel₀ (by positivity)
  have hX : c ^ 2 * 0.9 * (y ^ 2 - (y ^ 2)⁻¹) =
      (c * (0.95 * y - 0.05 / y)) ^ 2 - (c * (0.95 / y - 0.05 * y)) ^ 2 := by
    field_simp
    ring
  have hzi0 : 0 < (y ^ 2)⁻¹ := by positivity
  have hzi1 : (y ^ 2)⁻¹ ≤ 1 := inv_le_one_of_one_le₀ hz
  have hXge : 2.25 * (y ^ 2 - (y ^ 2)⁻¹) ≤ c ^ 2 * 0.9 * (y ^ 2 - (y ^ 2)⁻¹) := by
    have : 0 ≤ y ^ 2 - (y ^ 2)⁻¹ := by linarith
    nlinarith
  have hkey := split_key (y ^ 2) ((y ^ 2)⁻¹) _ hz hzi hXge
  have hexp := Real.add_one_le_exp (c ^ 2 * 0.9 * (y ^ 2 - (y ^ 2)⁻¹))
  have hA : Real.exp (-((c * (0.95 / y - 0.05 * y)) ^ 2)) =
      Real.exp (-((c * (0.95 * y - 0.05 / y)) ^ 2)) *
        Real.exp (c ^ 2 * 0.9 * (y ^ 2 - (y ^ 2)⁻¹)) := by
    rw [← Real.exp_add, hX]
    congr 1
    ring
  have hEB := Real.exp_pos (-((c * (0.95 * y - 0.05 / y)) ^ 2))
  have hcoef := erf_coeff_pos
  rw [hA]
  generalize Real.exp (-((c * (0.95 * y - 0.05 / y)) ^ 2)) = EB at hEB ⊢
  generalize Real.exp (c ^ 2 * 0.9 * (y ^ 2 - (y ^ 2)⁻¹)) = EX at hexp ⊢
  generalize c ^ 2 * 0.9 * (y ^ 2 - (y ^ 2)⁻¹) = X at hkey hexp
  generalize (y ^ 2)⁻¹ = zi at hkey hzi0 ⊢
  generalize 2 / Real.sqrt Real.pi = k at hcoef ⊢
  have h1 : 0.95 + 0.05 * zi ≤ EX * (0.95 * zi + 0.05) := by
    have : (1 + X) * (0.95 * zi + 0.05) ≤ EX * (0.95 * zi + 0.05) :=
      mul_le_mul_of_nonneg_right (by linarith) (by linarith)
    linarith
  have h2 : 0 ≤ k * EB * c := mul_nonneg (mul_nonneg hcoef.le hEB.le) hc0
  have h3 : k * (EB * EX) * (c * (0.95 * -zi - 0.05 * 1)) + k * EB * (c * (0.95 * 1 - 0.05 * -zi))
      = -(k * EB * c * (EX * (0.95 * zi + 0.05) - (0.95 + 0.05 * zi))) := by ring
  rw [h3]
  exact neg_nonpos.2 (mul_nonneg h2 (by linarith))

/-- For a fixed total of at least two runs the curve decreases away from the even split. -/
theorem splitCurve_antitoneOn (c : ℝ) (hc : 5 / 2 ≤ c ^ 2) (hc0 : 0 ≤ c) :
    AntitoneOn (splitCurve c) (Set.Ici 1) := by
  apply antitoneOn_of_deriv_nonpos (convex_Ici 1)
  · intro y hy
    have hy0 : y ≠ 0 := by
      have : (1 : ℝ) ≤ y := hy
      linarith
    exact (splitCurve_hasDerivAt c y hy0).continuousAt.continuousWithinAt
  · intro y hy
    rw [interior_Ici] at hy
    have hy0 : y ≠ 0 := by
      have : (1 : ℝ) < y := hy
      linarith
    exact (splitCurve_hasDerivAt c y hy0).differentiableAt.differentiableWithinAt
  · intro y hy
    rw [interior_Ici] at hy
    have hy1 : (1 : ℝ) < y := hy
    rw [(splitCurve_hasDerivAt c y (by linarith)).deriv]
    exact splitCurve_deriv_nonpos c y hc hc0 hy1.le

/-- The two arguments of the error function in `BetaFlaky`, in the variables of
`splitCurve`. -/
theorem split_args (A B : ℝ) (hA : 0 < A) (hB : 0 < B) :
    (0.95 - A / (A + B)) / Real.sqrt (A * B / ((A + B) * (A + B) * (A + B + 1))) / Real.sqrt 2 =
      Real.sqrt ((A + B + 1) / 2) * (0.95 / Real.sqrt (A / B) - 0.05 * Real.sqrt (A / B)) ∧
    (0.05 - A / (A + B)) / Real.sqrt (A * B / ((A + B) * (A + B) * (A + B + 1))) / Real.sqrt 2 =
      -(Real.sqrt ((A + B + 1) / 2) *
        (0.95 * Real.sqrt (A / B) - 0.05 / Real.sqrt (A / B))) := by
  obtain ⟨ra, hra, rfl⟩ : ∃ ra : ℝ, 0 < ra ∧ A = ra ^ 2 :=
    ⟨Real.sqrt A, Real.sqrt_pos.2 hA, (Real.sq_sqrt hA.le).symm⟩
  obtain ⟨rb, hrb, rfl⟩ : ∃ rb : ℝ, 0 < rb ∧ B = rb ^ 2 :=
    ⟨Real.sqrt B, Real.sqrt_pos.2 hB, (Real.sq_sqrt hB.le).symm⟩
  have hy : Real.sqrt (ra ^ 2 / rb ^ 2) = ra / rb := by
    rw [Real.sqrt_div (by positivity), Real.sqrt_sq hra.le, Real.sqrt_sq hrb.le]
  have hc : Real.sqrt ((ra ^ 2 + rb ^ 2 + 1) / 2) =
      Real.sqrt (ra ^ 2 + rb ^ 2 + 1) / Real.sqrt 2 :=
    Real.sqrt_div (by positivity) 2
  have hsd : Real.sqrt (ra ^ 2 * rb ^ 2 /
      ((ra ^ 2 + rb ^ 2) * (ra ^ 2 + rb ^ 2) * (ra ^ 2 + rb ^ 2 + 1))) =
      ra * rb / ((ra ^ 2 + rb ^ 2) * Real.sqrt (ra ^ 2 + rb ^ 2 + 1)) := by
    rw [Real.sqrt_div (by positivity), Real.sqrt_mul (by positivity), Real.sqrt_sq hra.le,
      Real.sqrt_sq hrb.le, Real.sqrt_mul (by positivity),
      Real.sqrt_mul_self (by positivity)]
  have hs : 0 < Real.sqrt (ra ^ 2 + rb ^ 2 + 1) := Real.sqrt_pos.2 (by positivity)
  have h2 : 0 < Real.sqrt 2 := sqrt_two_pos
  rw [hy, hc, hsd]
  generalize Real.sqrt (ra ^ 2 + rb ^ 2 + 1) = s at hs
  generalize Real.sqrt 2 = r2 at h2
  have hN : 0 < ra ^ 2 + rb ^ 2 := by positivity
  constructor
  · field_simp
    ring
  · field_simp
    ring

theorem split_product_le (ap bp aq bq : ℝ) (hN : aq + bq = ap + bp) (haa : ap ≤ aq)
    (hab : bp ≤ ap) : aq * bq ≤ ap * bp := by
  have hb : bq = ap + bp - aq := by linarith
  rw [hb]
  nlinarith [mul_nonneg (sub_nonneg.2 haa) (sub_nonneg.2 hab), sq_nonneg (aq - ap)]

/-- Past both guards the estimate is half the split curve at `√(a/b)`. -/
theorem betaFlaky_eq_splitCurve (pass fail : Nat) (hp : 1 ≤ pass) (hf : 1 ≤ fail)
    (hw : 2 ≤ wrapInt ((pass : Int) + (fail : Int)))
    (hsd : ¬ betaStdDev pass fail < 1e-10) :
    BetaFlaky pass fail =
      1 / 2 * splitCurve
        (Real.sqrt ((((pass + 1 : Nat) : ℝ) + ((fail + 1 : Nat) : ℝ) + 1) / 2))
        (Real.sqrt (((pass + 1 : Nat) : ℝ) / ((fail + 1 : Nat) : ℝ))) := by
  rw [betaFlaky_eq pass fail hp hf hw, if_neg hsd]
  obtain ⟨h1, h2⟩ := split_args ((pass + 1 : Nat) : ℝ) ((fail + 1 : Nat) : ℝ)
    (by positivity) (by positivity)
  unfold phi splitCurve betaMean betaStdDev
  rw [h1, h2, erf_neg]
  ring

/-- Of two splits of the same total, the one farther above the even split is judged no more
flaky. -/
theorem betaFlaky_le_of_split (p f q g : Nat) (hf : 1 ≤ f) (hg : 1 ≤ g)
    (hsum : p + f = q + g) (hpq : p ≤ q) (hfp : f ≤ p) :
    BetaFlaky q g ≤ BetaFlaky p f := by
  have hp : 1 ≤ p := le_trans hf hfp
  have hq : 1 ≤ q := le_trans hp hpq
  have hsumZ : (q : Int) + (g : Int) = (p : Int) + (f : Int) := by omega
  by_cases hw : wrapInt ((p : Int) + (f : Int)) < 2
  · rw [betaFlaky_guard q g (Or.inl (by rw [hsumZ]; exact hw))]
    exact betaFlaky_nonneg p f
  · have hw2 : 2 ≤ wrapInt ((p : Int) + (f : Int)) := not_lt.1 hw
    have hap : (1 : ℝ) ≤ ((p + 1 : Nat) : ℝ) := by exact_mod_cast (by omega : 1 ≤ p + 1)
    have hbq : (1 : ℝ) ≤ ((g + 1 : Nat) : ℝ) := by exact_mod_cast (by omega : 1 ≤ g + 1)
    have hab : ((f + 1 : Nat) : ℝ) ≤ ((p + 1 : Nat) : ℝ) := by
      exact_mod_cast (by omega : f + 1 ≤ p + 1)
    have haa : ((p + 1 : Nat) : ℝ) ≤ ((q + 1 : Nat) : ℝ) := by
      exact_mod_cast (by omega : p + 1 ≤ q + 1)
    have hbb : ((g + 1 : Nat) : ℝ) ≤ ((f + 1 : Nat) : ℝ) := by
      exact_mod_cast (by omega : g + 1 ≤ f + 1)
    have hN : ((q + 1 : Nat) : ℝ) + ((g + 1 : Nat) : ℝ) =
        ((p + 1 : Nat) : ℝ) + ((f + 1 : Nat) : ℝ) := by
      exact_mod_cast (by omega : (q + 1) + (g + 1) = (p + 1) + (f + 1))
    by_cases hsdq : betaStdDev q g < 1e-10
    · rw [betaFlaky_eq q g hq hg (by rw [hsumZ]; exact hw2), if_pos hsdq]
      exact betaFlaky_nonneg p f
    · have hsdle : betaStdDev q g ≤ betaStdDev p f := by
        unfold betaStdDev
        apply Real.sqrt_le_sqrt
        rw [hN]
        apply div_le_div_of_nonneg_right _ (by positivity)
        exact split_product_le _ _ _ _ hN haa hab
      have hsdp : ¬ betaStdDev p f < 1e-10 := fun h => hsdq (lt_of_le_of_lt hsdle h)
      rw [betaFlaky_eq_splitCurve q g hq hg (by rw [hsumZ]; exact hw2) hsdq,
        betaFlaky_eq_splitCurve p f hp hf hw2 hsdp, hN]
      have hbq0 : (0 : ℝ) < ((g + 1 : Nat) : ℝ) := by linarith
      have hbp0 : (0 : ℝ) < ((f + 1 : Nat) : ℝ) := by linarith
      have hy1 : (1 : ℝ) ≤ Real.sqrt (((p + 1 : Nat) : ℝ) / ((f + 1 : Nat) : ℝ)) := by
        rw [Real.one_le_sqrt, le_div_iff₀ hbp0]
        linarith
      have hyy : Real.sqrt (((p + 1 : Nat) : ℝ) / ((f + 1 : Nat) : ℝ)) ≤
          Real.sqrt (((q + 1 : Nat) : ℝ) / ((g + 1 : Nat) : ℝ)) := by
        apply Real.sqrt_le_sqrt
        rw [div_le_div_iff₀ hbp0 hbq0]
        exact mul_le_mul haa hbb hbq0.le (by linarith)
      have hc : 5 / 2 ≤ Real.sqrt ((((p + 1 : Nat) : ℝ) + ((f + 1 : Nat) : ℝ) + 1) / 2) ^ 2 := by
        rw [Real.sq_sqrt (by positivity)]
        have : (2 : ℝ) ≤ ((f + 1 : Nat) : ℝ) := by exact_mod_cast (by omega : 2 ≤ f + 1)
        linarith
      have := splitCurve_antitoneOn _ hc (Real.sqrt_nonneg _) (Set.mem_Ici.2 hy1)
        (Set.mem_Ici.2 (le_trans hy1 hyy)) hyy
      linarith

/-- C12: for a fixed total `n = pass + fail ≥ 2`, `BetaFlaky` peaks at the most even split and
decreases toward either extreme: for all `p`, `q` with `n/2 ≤ p ≤ q ≤ n`, and for all `p`, `q`
with `0 ≤ q ≤ p ≤ n/2`, `BetaFlaky q (n - q) ≤ BetaFlaky p (n - p)`. -/
theorem betaFlaky_peaks_at_even_split (n p q : Nat) (hn : 2 ≤ n)
    (h : (n ≤ 2 * p ∧ p ≤ q ∧ q ≤ n) ∨ (q ≤ p ∧ 2 * p ≤ n)) :
    BetaFlaky q (n - q) ≤ BetaFlaky p (n - p) := by
  have _ := hn
  rcases h with ⟨h1, h2, h3⟩ | ⟨h1, h2⟩
  · by_cases hq : q = n
    · rw [betaFlaky_guard q (n - q) (Or.inr (Or.inl (by omega)))]
      exact betaFlaky_nonneg _ _
    · exact betaFlaky_le_of_split p (n - p) q (n - q) (by omega) (by omega) (by omega) h2
        (by omega)
  · by_cases hq : q = 0
    · rw [betaFlaky_guard q (n - q) (Or.inr (Or.inr hq))]
      exact betaFlaky_nonneg _ _
    · rw [betaFlaky_comm q (n - q), betaFlaky_comm p (n - p)]
      exact betaFlaky_le_of_split (n - p) p (n - q) q (by omega) (by omega) (by omega)
        (by omega) (by omega)

/-- Witness of C12: total 4, the even split `(2, 2)` against `(3, 1)`. -/
theorem betaFlaky_peaks_at_even_split_witness :
    2 ≤ 4 ∧ BetaFlaky 3 (4 - 3) ≤ BetaFlaky 2 (4 - 2) :=
  ⟨by decide, betaFlaky_peaks_at_even_split 4 2 3 (by decide)
    (Or.inl ⟨by decide, by decide, by decide⟩)⟩

/-! ## Entries of mixed tests -/

/-- Counters in the `int` range that pass the first guard of `BetaFlaky` have a sum in the
`int` range: the sum did not wrap. -/
theorem wrapInt_sum (P F : ℕ) (hP : P < 2 ^ 63) (hF : F < 2 ^ 63)
    (hw : ¬ wrapInt ((P : Int) + (F : Int)) < 2) :
    wrapInt ((P : Int) + (F : Int)) = (P : Int) + (F : Int) ∧
      (P : Int) + (F : Int) < 2 ^ (63 : ℕ) := by
  unfold wrapInt at hw ⊢
  norm_num at hP hF ⊢
  omega

theorem fdiv_inf_fin (s : Bool) (y : ℝ) :
    fdiv (F64.inf s) (F64.fin y) = F64.inf (xor s (decide (y < 0))) := rfl

theorem fmul_fin_inf (x : ℝ) (t : Bool) (hx : x ≠ 0) :
    fmul (F64.fin x) (F64.inf t) = F64.inf (xor (decide (x < 0)) t) := by
  simp [fmul, hx]

theorem fmul_inf_zero (s : Bool) : fmul (F64.inf s) (F64.fin 0) = F64.nan := by
  simp [fmul]

theorem aggregate_overflowRuns :
    Aggregate overflowRuns =
      [("c::t".toList, ⟨"t".toList, "c".toList, 1, 2, 0 + 2 ^ (1023 : ℕ) + 2 ^ (1023 : ℕ) + 0,
        [" ".toList, " ".toList]⟩)] := by
  rfl

/-- C9, counterexample: a test that fails twice, each time after `2 ^ 1023` seconds, and passes
once has the `float64` total duration `+Inf`; at `costPerMinute = 0` and threshold 0.5 it is
reported with the cost `+Inf * 0`, which is NaN and not `≥ 0`. -/
theorem detect_cost_nan :
    (∀ run ∈ overflowRuns, ∀ tc ∈ run, 0 ≤ tc.Time) ∧
    ∃ e ∈ Detect ToLowerASCII (Aggregate overflowRuns) 0 0.5,
      e.CICostUSD = F64.nan ∧ ¬ e.CICostUSD.nonneg := by
  refine ⟨?_, ?_⟩
  · intro run hrun tc htc
    simp only [overflowRuns, List.mem_cons, List.mem_singleton, List.not_mem_nil, or_false] at hrun
    rcases hrun with rfl | rfl | rfl <;>
    · simp only [List.mem_singleton] at htc
      subst htc
      simp
  have hcost : (mkEntry ToLowerASCII ⟨"t".toList, "c".toList, 1, 2,
      0 + 2 ^ (1023 : ℕ) + 2 ^ (1023 : ℕ) + 0, [" ".toList, " ".toList]⟩ 0
      (BetaFlaky 1 2)).CICostUSD = F64.nan := by
    have hT : rnd64 (0 + 2 ^ (1023 : ℕ) + 2 ^ (1023 : ℕ) + 0) = F64.inf false :=
      rnd64_overflow _ (by rw [pow_succ]; linarith)
    have hw : wrapInt (((1 : ℕ) : Int) + ((2 : ℕ) : Int)) = 3 := by decide
    obtain ⟨d, hd, hd1, _⟩ := ofInt_pos 3 (by norm_num) (by norm_num)
    obtain ⟨f, hf, hf1, _⟩ := ofInt_pos ((2 : ℕ) : Int) (by norm_num) (by norm_num)
    show decRound 100 (fmul (fdiv (fmul (ofInt ((2 : ℕ) : Int))
      (fdiv (rnd64 (0 + 2 ^ (1023 : ℕ) + 2 ^ (1023 : ℕ) + 0))
        (ofInt (wrapInt (((1 : ℕ) : Int) + ((2 : ℕ) : Int)))))) (F64.fin 60)) (rnd64 0)) = F64.nan
    rw [hw, hT, hd, hf, rnd64_zero, fdiv_inf_fin, fmul_fin_inf f _ (by linarith), fdiv_inf_fin,
      fmul_inf_zero]
    rfl
  refine ⟨mkEntry ToLowerASCII ⟨"t".toList, "c".toList, 1, 2,
      0 + 2 ^ (1023 : ℕ) + 2 ^ (1023 : ℕ) + 0, [" ".toList, " ".toList]⟩ 0 (BetaFlaky 1 2),
    (mem_detect _ _ _ _ _).2 ⟨("c::t".toList, ⟨"t".toList, "c".toList, 1, 2,
      0 + 2 ^ (1023 : ℕ) + 2 ^ (1023 : ℕ) + 0, [" ".toList, " ".toList]⟩), ?_, ?_, rfl⟩,
    hcost, ?_⟩
  · rw [aggregate_overflowRuns]
    exact List.mem_singleton_self _
  · have := betaFlaky_one_two
    show (0.5 : ℝ) ≤ BetaFlaky 1 2
    norm_num
    linarith
  · rw [hcost]
    exact fun h => h

/-- C9, amended: every entry `Detect` reports at a threshold `≥ 0.5` is a genuinely mixed test.
For records with counters in the `int` range and non-negative cumulative durations and a
`costPerMinute ≥ 0`: the reported `PassRate` is a finite number strictly between 0 and 1; the
entry is that of a record that both passed and failed at least once; `CICostUSD` is never
negative, it is `≥ 0` (`+Inf` included) or NaN; and it is `≥ 0` whenever `costPerMinute` is a
positive finite `float64`, and whenever no cumulative duration exceeds `2 ^ 1000` and
`costPerMinute ≤ 2 ^ 1023`. -/
theorem detect_reports_mixed (lower : Str → Str) (records : RecMap) (costPerMin threshold : ℝ)
    (e : FlakyTest) (hint : ∀ kr ∈ records, kr.2.Pass < 2 ^ 63 ∧ kr.2.Fail < 2 ^ 63)
    (hcost : 0 ≤ costPerMin) (hthr : 0.5 ≤ threshold)
    (htime : ∀ kr ∈ records, 0 ≤ kr.2.TotalTime)
    (he : e ∈ Detect lower records costPerMin threshold) :
    (∃ p, e.PassRate = F64.fin p ∧ 0 < p ∧ p < 1) ∧
    (e.CICostUSD = F64.nan ∨ e.CICostUSD.nonneg) ∧
    ((∃ c, rnd64 costPerMin = F64.fin c ∧ 0 < c) → e.CICostUSD.nonneg) ∧
    ((∀ kr ∈ records, kr.2.TotalTime ≤ 2 ^ (1000 : ℕ)) → costPerMin ≤ 2 ^ (1023 : ℕ) →
      e.CICostUSD.nonneg) ∧
    ∃ kr ∈ records, e.Name = kr.2.Name ∧ e.Class = kr.2.Class ∧
      0 < kr.2.Pass ∧ 0 < kr.2.Fail := by
  obtain ⟨kr, hkr, hge, rfl⟩ := (mem_detect lower records costPerMin threshold e).1 he
  have hhalf : 1 / 2 ≤ BetaFlaky kr.2.Pass kr.2.Fail := by
    norm_num at hthr
    linarith
  obtain ⟨hp, hf, h1, h2⟩ := betaFlaky_ge_half _ _ hhalf
  have hguard : ¬ wrapInt ((kr.2.Pass : Int) + (kr.2.Fail : Int)) < 2 := by
    intro hg
    rw [betaFlaky_guard _ _ (Or.inl hg)] at hhalf
    norm_num at hhalf
  obtain ⟨hw, hn⟩ := wrapInt_sum _ _ (hint kr hkr).1 (hint kr hkr).2 hguard
  have hsign := cost_sign kr.2.TotalTime costPerMin (kr.2.Fail : Int)
    ((kr.2.Pass : Int) + (kr.2.Fail : Int)) (htime kr hkr) hcost (by omega) (by omega) hn
  refine ⟨?_, ?_, ?_, ?_, kr, hkr, rfl, rfl, hp, hf⟩
  · show ∃ p, decRound 1000 (fdiv (ofInt (kr.2.Pass : Int))
      (ofInt (wrapInt ((kr.2.Pass : Int) + (kr.2.Fail : Int))))) = F64.fin p ∧ 0 < p ∧ p < 1
    rw [hw]
    exact passRate_mixed _ _ hp hf hn h1 h2
  · show decRound 100 (fmul (fdiv (fmul (ofInt (kr.2.Fail : Int)) (fdiv (rnd64 kr.2.TotalTime)
      (ofInt (wrapInt ((kr.2.Pass : Int) + (kr.2.Fail : Int)))))) (F64.fin 60))
      (rnd64 costPerMin)) = F64.nan ∨ (decRound 100 (fmul (fdiv (fmul (ofInt (kr.2.Fail : Int))
      (fdiv (rnd64 kr.2.TotalTime) (ofInt (wrapInt ((kr.2.Pass : Int) + (kr.2.Fail : Int))))))
      (F64.fin 60)) (rnd64 costPerMin))).nonneg
    rw [hw]
    exact hsign.2.1
  · show (∃ c, rnd64 costPerMin = F64.fin c ∧ 0 < c) →
      (decRound 100 (fmul (fdiv (fmul (ofInt (kr.2.Fail : Int))
      (fdiv (rnd64 kr.2.TotalTime) (ofInt (wrapInt ((kr.2.Pass : Int) + (kr.2.Fail : Int))))))
      (F64.fin 60)) (rnd64 costPerMin))).nonneg
    rw [hw]
    exact hsign.2.2
  · intro hT hc
    show (decRound 100 (fmul (fdiv (fmul (ofInt (kr.2.Fail : Int))
      (fdiv (rnd64 kr.2.TotalTime) (ofInt (wrapInt ((kr.2.Pass : Int) + (kr.2.Fail : Int))))))
      (F64.fin 60)) (rnd64 costPerMin))).nonneg
    rw [hw]
    obtain ⟨x, hx0, hx⟩ := cost_finite kr.2.TotalTime (kr.2.Fail : Int)
      ((kr.2.Pass : Int) + (kr.2.Fail : Int)) (htime kr hkr) (hT kr hkr) (by omega) (by omega) hn
    obtain ⟨c, hcf, _⟩ := rnd64_abs costPerMin (by rw [abs_of_nonneg hcost]; exact hc)
    rw [hx, hcf]
    exact decRound_nonneg 100 _ (by norm_num)
      (rnd64_nonneg _ (mul_nonneg hx0 (fin_nonneg_of_rnd64 _ c hcost hcf)))

/-- Witness of C9: the record of `auth::test_token` (one pass, two failures) at the cost per
minute and the threshold of the test file. -/
theorem detect_reports_mixed_witness :
    (∃ p, (mkEntry ToLowerASCII tokenRecord 0.008 (BetaFlaky 1 2)).PassRate = F64.fin p ∧
      0 < p ∧ p < 1) ∧
    (mkEntry ToLowerASCII tokenRecord 0.008 (BetaFlaky 1 2)).CICostUSD.nonneg :=
  have h := detect_reports_mixed ToLowerASCII [("auth::test_token".toList, tokenRecord)] 0.008 0.5
    (mkEntry ToLowerASCII tokenRecord 0.008 (BetaFlaky 1 2))
    (by
      intro kr hkr
      rw [List.mem_singleton] at hkr
      subst hkr
      exact ⟨by decide, by decide⟩)
    (by norm_num) (le_refl _)
    (by
      intro kr hkr
      rw [List.mem_singleton] at hkr
      subst hkr
      simp [tokenRecord])
    ((mem_detect _ _ _ _ _).2 ⟨("auth::test_token".toList, tokenRecord),
      List.mem_singleton_self _, by
        have := betaFlaky_one_two
        show (0.5 : ℝ) ≤ BetaFlaky 1 2
        norm_num
        linarith, rfl⟩)
  ⟨h.1, h.2.2.2.1
    (by
      intro kr hkr
      rw [List.mem_singleton] at hkr
      subst hkr
      exact le_trans (by norm_num [tokenRecord] : tokenRecord.TotalTime ≤ (2 : ℝ) ^ (2 : ℕ))
        (pow_le_pow_right₀ (by norm_num) (by norm_num)))
    (le_trans (by norm_num : (0.008 : ℝ) ≤ (2 : ℝ) ^ (0 : ℕ))
      (pow_le_pow_right₀ (by norm_num) (by norm_num)))⟩

/-! ## The reported values -/

theorem goRound_intCast (z : ℤ) : goRound (z : ℝ) = z := by
  unfold goRound
  split_ifs with h
  · have : ⌊(z : ℝ) + 1 / 2⌋ = z := Int.floor_eq_iff.2 ⟨by linarith, by linarith⟩
    rw [this]
  · have : ⌈(z : ℝ) - 1 / 2⌉ = z := Int.ceil_eq_iff.2 ⟨by linarith, by linarith⟩
    rw [this]

/-- Evaluation of the rounding at a positive normal number, free of absolute values. -/
theorem rnd64_eval_pos (x r : ℝ) (e k : ℤ) (he : -1022 ≤ e) (h1 : (2 : ℝ) ^ e ≤ x)
    (h2 : x < (2 : ℝ) ^ (e + 1)) (hk1 : (k : ℝ) - 1 / 2 < x / (2 : ℝ) ^ (e - 52))
    (hk2 : x / (2 : ℝ) ^ (e - 52) < (k : ℝ) + 1 / 2)
    (hr : (k : ℝ) * (2 : ℝ) ^ (e - 52) = r) (hf : r < (2 : ℝ) ^ (1024 : ℕ)) :
    rnd64 x = F64.fin r := by
  have hx : 0 < x := lt_of_lt_of_le (by positivity) h1
  have hp : (0 : ℝ) < (2 : ℝ) ^ (e - 52) := by positivity
  have hk0 : (0 : ℝ) ≤ (k : ℝ) := by
    have h3 : (0 : ℝ) < x / (2 : ℝ) ^ (e - 52) := div_pos hx hp
    have h4 : (-1 : ℝ) < (k : ℝ) := by linarith
    have h5 : (-1 : ℤ) < k := by exact_mod_cast h4
    have h6 : (0 : ℤ) ≤ k := by omega
    exact_mod_cast h6
  have hr0 : 0 ≤ r := by rw [← hr]; exact mul_nonneg hk0 hp.le
  rw [← hr]
  refine rnd64_eval x e k he (by rw [abs_of_pos hx]; exact h1) (by rw [abs_of_pos hx]; exact h2)
    (by rw [abs_lt]; constructor <;> linarith) ?_
  rw [hr, abs_of_nonneg hr0]
  exact hf

theorem rnd64_one : rnd64 (1) = F64.fin (1) :=
  rnd64_eval_pos (1) (1) (0) (4503599627370496) (by norm_num) (by norm_num) (by norm_num)
    (by norm_num) (by norm_num) (by norm_num)
    (lt_of_lt_of_le (by norm_num : ((1) : ℝ) < (2 : ℝ) ^ (80 : ℕ))
      (pow_le_pow_right₀ (by norm_num) (by norm_num)))

theorem rnd64_three : rnd64 (3) = F64.fin (3) :=
  rnd64_eval_pos (3) (3) (1) (6755399441055744) (by norm_num) (by norm_num) (by norm_num)
    (by norm_num) (by norm_num) (by norm_num)
    (lt_of_lt_of_le (by norm_num : ((3) : ℝ) < (2 : ℝ) ^ (80 : ℕ))
      (pow_le_pow_right₀ (by norm_num) (by norm_num)))

theorem rnd64_eight : rnd64 (8) = F64.fin (8) :=
  rnd64_eval_pos (8) (8) (3) (4503599627370496) (by norm_num) (by norm_num) (by norm_num)
    (by norm_num) (by norm_num) (by norm_num)
    (lt_of_lt_of_le (by norm_num : ((8) : ℝ) < (2 : ℝ) ^ (80 : ℕ))
      (pow_le_pow_right₀ (by norm_num) (by norm_num)))

theorem rnd64_eighth : rnd64 (1 / 8) = F64.fin (1 / 8) :=
  rnd64_eval_pos (1 / 8) (1 / 8) (-3) (4503599627370496) (by norm_num) (by norm_num) (by norm_num)
    (by norm_num) (by norm_num) (by norm_num)
    (lt_of_lt_of_le (by norm_num : ((1 / 8) : ℝ) < (2 : ℝ) ^ (80 : ℕ))
      (pow_le_pow_right₀ (by norm_num) (by norm_num)))

theorem rnd64_twelve_half : rnd64 (1 / 8 * 100) = F64.fin (25 / 2) :=
  rnd64_eval_pos (1 / 8 * 100) (25 / 2) (3) (7036874417766400) (by norm_num) (by norm_num) (by norm_num)
    (by norm_num) (by norm_num) (by norm_num)
    (lt_of_lt_of_le (by norm_num : ((25 / 2) : ℝ) < (2 : ℝ) ^ (80 : ℕ))
      (pow_le_pow_right₀ (by norm_num) (by norm_num)))

theorem rnd64_thirteen_hundredths : rnd64 (13 / 100) = F64.fin (4683743612465316 / 36028797018963968) :=
  rnd64_eval_pos (13 / 100) (4683743612465316 / 36028797018963968) (-3) (4683743612465316) (by norm_num) (by norm_num) (by norm_num)
    (by norm_num) (by norm_num) (by norm_num)
    (lt_of_lt_of_le (by norm_num : ((4683743612465316 / 36028797018963968) : ℝ) < (2 : ℝ) ^ (80 : ℕ))
      (pow_le_pow_right₀ (by norm_num) (by norm_num)))

theorem rnd64_two_pow_sixty : rnd64 (1152921504606846976) = F64.fin (1152921504606846976) :=
  rnd64_eval_pos (1152921504606846976) (1152921504606846976) (60) (4503599627370496) (by norm_num) (by norm_num) (by norm_num)
    (by norm_num) (by norm_num) (by norm_num)
    (lt_of_lt_of_le (by norm_num : ((1152921504606846976) : ℝ) < (2 : ℝ) ^ (80 : ℕ))
      (pow_le_pow_right₀ (by norm_num) (by norm_num)))

theorem rnd64_long_avg : rnd64 (1152921504606846976 / 3) = F64.fin (384307168202282304) :=
  rnd64_eval_pos (1152921504606846976 / 3) (384307168202282304) (58) (6004799503160661) (by norm_num) (by norm_num) (by norm_num)
    (by norm_num) (by norm_num) (by norm_num)
    (lt_of_lt_of_le (by norm_num : ((384307168202282304) : ℝ) < (2 : ℝ) ^ (80 : ℕ))
      (pow_le_pow_right₀ (by norm_num) (by norm_num)))

theorem rnd64_long_scaled : rnd64 (384307168202282304 * 100) = F64.fin (38430716820228227072) :=
  rnd64_eval_pos (384307168202282304 * 100) (38430716820228227072) (65) (4691249611844266) (by norm_num) (by norm_num) (by norm_num)
    (by norm_num) (by norm_num) (by norm_num)
    (lt_of_lt_of_le (by norm_num : ((38430716820228227072) : ℝ) < (2 : ℝ) ^ (80 : ℕ))
      (pow_le_pow_right₀ (by norm_num) (by norm_num)))

theorem rnd64_long_result : rnd64 (38430716820228227072 / 100) = F64.fin (384307168202282240) :=
  rnd64_eval_pos (38430716820228227072 / 100) (384307168202282240) (58) (6004799503160660) (by norm_num) (by norm_num) (by norm_num)
    (by norm_num) (by norm_num) (by norm_num)
    (lt_of_lt_of_le (by norm_num : ((384307168202282240) : ℝ) < (2 : ℝ) ^ (80 : ℕ))
      (pow_le_pow_right₀ (by norm_num) (by norm_num)))

theorem aggregate_eighthRuns :
    Aggregate eighthRuns =
      [("c::t".toList, ⟨"t".toList, "c".toList, 4, 4,
        0 + 1 / 8 + 1 / 8 + 1 / 8 + 1 / 8 + 1 / 8 + 1 / 8 + 1 / 8 + 1 / 8,
        [" ".toList, " ".toList, " ".toList, " ".toList]⟩)] := by
  rfl

theorem aggregate_longRuns :
    Aggregate longRuns =
      [("c::t".toList, ⟨"t".toList, "c".toList, 2, 1, 0 + 2 ^ (60 : ℕ) + 0 + 0,
        [" ".toList]⟩)] := by
  rfl

theorem betaFlaky_four_four : 1 / 2 ≤ BetaFlaky 4 4 := by
  obtain ⟨he, hx⟩ := betaFlaky_even 4 (by norm_num) (by norm_num)
  rw [he]
  have h1 := erf_seven_fifths
  have h2 := erf_mono hx
  linarith

theorem goRound_twelve_half : goRound (25 / 2) = 13 := by
  unfold goRound
  rw [if_pos (by norm_num)]
  have : ⌊(25 / 2 : ℝ) + 1 / 2⌋ = 13 := Int.floor_eq_iff.2 ⟨by norm_num, by norm_num⟩
  rw [this]
  norm_num

/-- The average of eight runs of an eighth of a second, as `Detect` reports it: the `float64`
nearest to 0.13. -/
theorem avgTime_eighth :
    decRound 100 (fdiv (rnd64 (0 + 1 / 8 + 1 / 8 + 1 / 8 + 1 / 8 + 1 / 8 + 1 / 8 + 1 / 8 + 1 / 8))
      (ofInt (wrapInt (((4 : ℕ) : Int) + ((4 : ℕ) : Int))))) =
      F64.fin (4683743612465316 / 36028797018963968) := by
  have hT : (0 + 1 / 8 + 1 / 8 + 1 / 8 + 1 / 8 + 1 / 8 + 1 / 8 + 1 / 8 + 1 / 8 : ℝ) = 1 := by
    norm_num
  have hw : wrapInt (((4 : ℕ) : Int) + ((4 : ℕ) : Int)) = 8 := by decide
  have h8 : ofInt 8 = F64.fin 8 := by
    unfold ofInt
    rw [show ((8 : Int) : ℝ) = 8 by norm_num, rnd64_eight]
  rw [hT, hw, h8, rnd64_one]
  simp only [decRound, fdiv, fmul, fround, if_neg (by norm_num : (8 : ℝ) ≠ 0),
    if_neg (by norm_num : (100 : ℝ) ≠ 0), rnd64_eighth, rnd64_twelve_half, goRound_twelve_half,
    rnd64_thirteen_hundredths]

/-- The average of the three runs of `longRuns`, as `Detect` reports it. -/
theorem avgTime_long :
    decRound 100 (fdiv (rnd64 (0 + 2 ^ (60 : ℕ) + 0 + 0))
      (ofInt (wrapInt (((2 : ℕ) : Int) + ((1 : ℕ) : Int))))) =
      F64.fin 384307168202282240 := by
  have hT : (0 + 2 ^ (60 : ℕ) + 0 + 0 : ℝ) = 1152921504606846976 := by norm_num
  have hw : wrapInt (((2 : ℕ) : Int) + ((1 : ℕ) : Int)) = 3 := by decide
  have h3 : ofInt 3 = F64.fin 3 := by
    unfold ofInt
    rw [show ((3 : Int) : ℝ) = 3 by norm_num, rnd64_three]
  have hg : goRound (38430716820228227072 : ℝ) = 38430716820228227072 := by
    have := goRound_intCast 38430716820228227072
    norm_num at this
    exact this
  rw [hT, hw, h3, rnd64_two_pow_sixty]
  simp only [decRound, fdiv, fmul, fround, if_neg (by norm_num : (3 : ℝ) ≠ 0),
    if_neg (by norm_num : (100 : ℝ) ≠ 0), rnd64_long_avg, rnd64_long_scaled, hg,
    rnd64_long_result]

/-- C10, counterexample: two tests whose reported average duration is not the exact average
rounded to a multiple of 0.01. Eight runs of an eighth of a second (four failures, four passes):
the exact average is 0.125 and the reported value is the `float64` nearest to 0.13, which is
above 0.13: times 100 it is not an integer, and it is more than 0.005 away from 0.125. One
failure after `2 ^ 60` seconds and two immediate passes: the reported value is more than 85
away from the exact average `2 ^ 60 / 3`. Both at the cost per minute 0.008 and threshold
0.5. -/
theorem detect_avgTime_not_exact :
    (∃ kr ∈ Aggregate eighthRuns, kr.2.Pass + kr.2.Fail = 8 ∧ kr.2.TotalTime = 1 ∧
      ∃ e ∈ Detect ToLowerASCII (Aggregate eighthRuns) 0.008 0.5, ∃ v : ℝ,
        e.Name = kr.2.Name ∧ e.Class = kr.2.Class ∧ e.Runs = 8 ∧ e.AvgTime = F64.fin v ∧
        (∀ k : ℤ, v * 100 ≠ k) ∧ 0.005 < |v - kr.2.TotalTime / 8|) ∧
    (∃ kr ∈ Aggregate longRuns, kr.2.Pass + kr.2.Fail = 3 ∧ kr.2.TotalTime = 2 ^ (60 : ℕ) ∧
      ∃ e ∈ Detect ToLowerASCII (Aggregate longRuns) 0.008 0.5, ∃ v : ℝ,
        e.Name = kr.2.Name ∧ e.Class = kr.2.Class ∧ e.Runs = 3 ∧ e.AvgTime = F64.fin v ∧
        85 < |v - kr.2.TotalTime / 3|) := by
  constructor
  · refine ⟨("c::t".toList, ⟨"t".toList, "c".toList, 4, 4,
        0 + 1 / 8 + 1 / 8 + 1 / 8 + 1 / 8 + 1 / 8 + 1 / 8 + 1 / 8 + 1 / 8,
        [" ".toList, " ".toList, " ".toList, " ".toList]⟩), ?_, rfl, by norm_num, ?_⟩
    · rw [aggregate_eighthRuns]
      exact List.mem_singleton_self _
    refine ⟨mkEntry ToLowerASCII ⟨"t".toList, "c".toList, 4, 4,
        0 + 1 / 8 + 1 / 8 + 1 / 8 + 1 / 8 + 1 / 8 + 1 / 8 + 1 / 8 + 1 / 8,
        [" ".toList, " ".toList, " ".toList, " ".toList]⟩ 0.008 (BetaFlaky 4 4),
      (mem_detect _ _ _ _ _).2 ⟨("c::t".toList, ⟨"t".toList, "c".toList, 4, 4,
        0 + 1 / 8 + 1 / 8 + 1 / 8 + 1 / 8 + 1 / 8 + 1 / 8 + 1 / 8 + 1 / 8,
        [" ".toList, " ".toList, " ".toList, " ".toList]⟩), ?_, ?_, rfl⟩,
      4683743612465316 / 36028797018963968, rfl, rfl, by decide, avgTime_eighth, ?_, ?_⟩
    · rw [aggregate_eighthRuns]
      exact List.mem_singleton_self _
    · have := betaFlaky_four_four
      show (0.5 : ℝ) ≤ BetaFlaky 4 4
      norm_num
      linarith
    · intro k hk
      have h1 : ((468374361246531600 : ℤ) : ℝ) = ((k * 36028797018963968 : ℤ) : ℝ) := by
        push_cast
        rw [← hk]
        norm_num
      have h2 : (468374361246531600 : ℤ) = k * 36028797018963968 := by exact_mod_cast h1
      omega
    · show (0.005 : ℝ) < |(4683743612465316 / 36028797018963968 : ℝ) -
        (0 + 1 / 8 + 1 / 8 + 1 / 8 + 1 / 8 + 1 / 8 + 1 / 8 + 1 / 8 + 1 / 8) / 8|
      rw [abs_of_pos (by norm_num)]
      norm_num
  · refine ⟨("c::t".toList, ⟨"t".toList, "c".toList, 2, 1, 0 + 2 ^ (60 : ℕ) + 0 + 0,
        [" ".toList]⟩), ?_, rfl, by norm_num, ?_⟩
    · rw [aggregate_longRuns]
      exact List.mem_singleton_self _
    refine ⟨mkEntry ToLowerASCII ⟨"t".toList, "c".toList, 2, 1, 0 + 2 ^ (60 : ℕ) + 0 + 0,
        [" ".toList]⟩ 0.008 (BetaFlaky 2 1),
      (mem_detect _ _ _ _ _).2 ⟨("c::t".toList, ⟨"t".toList, "c".toList, 2, 1,
        0 + 2 ^ (60 : ℕ) + 0 + 0, [" ".toList]⟩), ?_, ?_, rfl⟩,
      384307168202282240, rfl, rfl, by decide, avgTime_long, ?_⟩
    · rw [aggregate_longRuns]
      exact List.mem_singleton_self _
    · have := betaFlaky_two_one
      show (0.5 : ℝ) ≤ BetaFlaky 2 1
      norm_num
      linarith
    · show (85 : ℝ) < |(384307168202282240 : ℝ) - (0 + 2 ^ (60 : ℕ) + 0 + 0) / 3|
      rw [abs_of_neg (by norm_num)]
      norm_num

/-- Error of a quotient of two rounded numbers, the divisor being at least 1. -/
theorem quot_err_aux (T n t d δ : ℝ) (hδ0 : 0 ≤ δ) (hδ : δ ≤ 1 / 1000) (hn : 1 ≤ n)
    (ht : |t - T| ≤ (|T| + 1) * δ) (hd : |d - n| ≤ (n + 1) * δ) :
    |t / d - T / n| ≤ 4 * δ * (|T / n| + 1) := by
  have hnpos : 0 < n := by linarith
  have ha : 0 ≤ |T| := abs_nonneg T
  have e1 : (n + 1) * δ ≤ (n + 1) * (1 / 1000) := mul_le_mul_of_nonneg_left hδ (by linarith)
  rw [abs_le] at hd
  have hdlo : 998 / 1000 * n ≤ d := by linarith
  have hdpos : 0 < d := by linarith
  have key : t / d - T / n = ((t - T) * n + T * (n - d)) / (d * n) := by
    field_simp
    ring
  have hnum : |(t - T) * n + T * (n - d)| ≤ (|T| + 1) * δ * n + |T| * ((n + 1) * δ) := by
    have h1 := abs_add ((t - T) * n) (T * (n - d))
    have h2 : |(t - T) * n| ≤ (|T| + 1) * δ * n := by
      rw [abs_mul, abs_of_pos hnpos]
      exact mul_le_mul_of_nonneg_right ht hnpos.le
    have h3 : |T * (n - d)| ≤ |T| * ((n + 1) * δ) := by
      rw [abs_mul]
      refine mul_le_mul_of_nonneg_left ?_ ha
      rw [abs_le]
      constructor <;> linarith
    linarith
  have hAn : |T / n| = |T| / n := by rw [abs_div, abs_of_pos hnpos]
  rw [key, abs_div, abs_of_pos (mul_pos hdpos hnpos), div_le_iff₀ (mul_pos hdpos hnpos), hAn]
  have e2 : 4 * δ * (|T| / n + 1) * (d * n) = δ * (4 * (|T| + n) * d) := by
    field_simp
    ring
  rw [e2]
  have e3 : (|T| + 1) * δ * n + |T| * ((n + 1) * δ) = δ * ((|T| + 1) * n + |T| * (n + 1)) := by
    ring
  rw [e3] at hnum
  refine le_trans hnum (mul_le_mul_of_nonneg_left ?_ hδ0)
  have p1 : 0 ≤ |T| * (n - 1) := mul_nonneg ha (by linarith)
  have p2 : 0 ≤ n * (n - 1) := mul_nonneg hnpos.le (by linarith)
  have p3 : (|T| + n) * (998 / 1000 * n) ≤ (|T| + n) * d :=
    mul_le_mul_of_nonneg_left hdlo (by linarith)
  have p4 : 0 ≤ |T| * n := mul_nonneg ha hnpos.le
  nlinarith

/-- Error of the rounded quotient. -/
theorem avg_err_aux (A a0 a δ : ℝ) (hδ0 : 0 ≤ δ) (hδ : δ ≤ 1 / 1000)
    (h0 : |a0 - A| ≤ 4 * δ * (|A| + 1)) (ha : |a - a0| ≤ (|a0| + 1) * δ) :
    |a - A| ≤ 6 * δ * (|A| + 1) ∧ |a0| ≤ 2 * (|A| + 1) := by
  have hA : 0 ≤ |A| := abs_nonneg A
  have h1 := abs_sub_abs_le_abs_sub a0 A
  have h2 := abs_sub_le a a0 A
  have p1 : δ * (|A| + 1) ≤ 1 / 1000 * (|A| + 1) := mul_le_mul_of_nonneg_right hδ (by linarith)
  have p0 : 0 ≤ δ * (|A| + 1) := mul_nonneg hδ0 (by linarith)
  have h3 : |a0| ≤ |A| + 4 * δ * (|A| + 1) := by linarith
  have h4 : (|a0| + 1) * δ ≤ (|A| + 4 * δ * (|A| + 1) + 1) * δ :=
    mul_le_mul_of_nonneg_right (by linarith) hδ0
  have p2 : δ * (|A| + 1) * δ ≤ δ * (|A| + 1) * (1 / 1000) := mul_le_mul_of_nonneg_left hδ p0
  constructor
  · nlinarith
  · nlinarith

/-- Error of `math.Round(a * q) / q` against the exact value `A`, when `a` carries the error of
the operations before. -/
theorem round_err_aux (q A a v δ K : ℝ) (hδ0 : 0 ≤ δ) (hδ : δ ≤ 1 / 1000)
    (hK : K ≤ 11) (ha : |a - A| ≤ K * δ * (|A| + 1))
    (hv : |v - a| ≤ 1 / (2 * q) + 4 * δ * (|a| + 1)) :
    |v - A| ≤ 1 / (2 * q) + 16 * δ * (|A| + 1) := by
  have hA : 0 ≤ |A| := abs_nonneg A
  have h1 := abs_sub_abs_le_abs_sub a A
  have h2 := abs_sub_le v a A
  have p0 : 0 ≤ δ * (|A| + 1) := mul_nonneg hδ0 (by linarith)
  have p1 : K * (δ * (|A| + 1)) ≤ 11 * (δ * (|A| + 1)) := mul_le_mul_of_nonneg_right hK p0
  have p2 : δ * (δ * (|A| + 1)) ≤ 1 / 1000 * (δ * (|A| + 1)) := mul_le_mul_of_nonneg_right hδ p0
  have h3 : |a| ≤ |A| + 11 * (δ * (|A| + 1)) := by nlinarith
  nlinarith

/-- The quotient `T / float64(n)` for a total of moderate size and a positive `int` `n`: finite,
and within `6 (|T / n| + 1) / 2 ^ 53` of the exact quotient. -/
theorem quot_value (T : ℝ) (n : Int) (hn1 : 1 ≤ n) (hn2 : n < 2 ^ (63 : ℕ))
    (hT : |T| ≤ (2 : ℝ) ^ (1000 : ℕ)) :
    ∃ a, fdiv (rnd64 T) (ofInt n) = F64.fin a ∧
      |a - T / (n : ℝ)| ≤ 6 * (1 / 2 ^ (53 : ℕ)) * (|T / (n : ℝ)| + 1) ∧
      |a| ≤ (2 : ℝ) ^ (1010 : ℕ) := by
  have hB1 : (1 : ℝ) ≤ (2 : ℝ) ^ (1000 : ℕ) := one_le_pow₀ (by norm_num)
  have hB : (2 : ℝ) ^ (1023 : ℕ) = 2 ^ (23 : ℕ) * (2 : ℝ) ^ (1000 : ℕ) := by
    rw [← pow_add]
  have hB' : (2 : ℝ) ^ (1010 : ℕ) = 2 ^ (10 : ℕ) * (2 : ℝ) ^ (1000 : ℕ) := by
    rw [← pow_add]
  have h23 : (2 : ℝ) ^ (23 : ℕ) = 8388608 := by norm_num
  have h10 : (2 : ℝ) ^ (10 : ℕ) = 1024 := by norm_num
  have h53 : (2 : ℝ) ^ (53 : ℕ) = 9007199254740992 := by norm_num
  rw [h23] at hB
  rw [h10] at hB'
  have hδ0 : (0 : ℝ) ≤ 1 / 2 ^ (53 : ℕ) := by positivity
  have hδ : (1 : ℝ) / 2 ^ (53 : ℕ) ≤ 1 / 1000 := by rw [h53]; norm_num
  obtain ⟨d, hd, hd1, hderr⟩ := ofInt_pos n hn1 hn2
  have hnR : (1 : ℝ) ≤ (n : ℝ) := by exact_mod_cast hn1
  rw [hB']
  generalize (2 : ℝ) ^ (1000 : ℕ) = B at hT hB1 hB
  obtain ⟨t, ht, hterr⟩ := rnd64_abs T (by rw [hB]; linarith)
  have hterr' : |t - T| ≤ (|T| + 1) * (1 / 2 ^ (53 : ℕ)) := by rw [mul_one_div]; exact hterr
  have hderr' : |d - (n : ℝ)| ≤ ((n : ℝ) + 1) * (1 / 2 ^ (53 : ℕ)) := by
    rw [mul_one_div]; exact hderr
  have hd0 : (0 : ℝ) < d := by linarith
  have hq := quot_err_aux T (n : ℝ) t d (1 / 2 ^ (53 : ℕ)) hδ0 hδ hnR hterr' hderr'
  have htabs : |t| ≤ 2 * |T| + 1 := by
    have h1 := abs_sub_abs_le_abs_sub t T
    have h2 : (|T| + 1) / 2 ^ (53 : ℕ) ≤ |T| + 1 := by
      rw [h53]
      exact div_le_self (by positivity) (by norm_num)
    linarith
  have ha0abs : |t / d| ≤ 2 * |T| + 1 := by
    rw [abs_div, abs_of_pos hd0]
    exact le_trans (div_le_self (abs_nonneg _) hd1) htabs
  have hTabs : 0 ≤ |T| := abs_nonneg T
  obtain ⟨a, ha, haerr⟩ := rnd64_abs (t / d) (by rw [hB]; linarith)
  have haerr' : |a - t / d| ≤ (|t / d| + 1) * (1 / 2 ^ (53 : ℕ)) := by
    rw [mul_one_div]; exact haerr
  have hav := avg_err_aux (T / (n : ℝ)) (t / d) a (1 / 2 ^ (53 : ℕ)) hδ0 hδ hq haerr'
  refine ⟨a, ?_, hav.1, ?_⟩
  · simp only [ht, hd, fdiv, if_neg hd0.ne', ha]
  · have h1 := abs_sub_abs_le_abs_sub a (t / d)
    have h2 : (|t / d| + 1) / 2 ^ (53 : ℕ) ≤ |t / d| + 1 := by
      rw [h53]
      exact div_le_self (by positivity) (by norm_num)
    linarith

/-- Reading of `math.Round(a * q) / q` against an exact value `A` that the `float64` `a`
approximates: the result is the `float64` nearest to `k / q` for an integer `k`, within
`1 / (2 q) + (|A| + 1) / 2 ^ 49` of `A`. -/
theorem decRound_value (q A a K : ℝ) (hq1 : 1 ≤ q) (hq2 : q ≤ 1000) (hK : K ≤ 11)
    (ha : |a - A| ≤ K * (1 / 2 ^ (53 : ℕ)) * (|A| + 1)) (habs : |a| ≤ (2 : ℝ) ^ (1010 : ℕ)) :
    ∃ (k : ℤ) (v : ℝ), decRound q (F64.fin a) = F64.fin v ∧ rnd64 ((k : ℝ) / q) = F64.fin v ∧
      |v - A| ≤ 1 / (2 * q) + (|A| + 1) / 2 ^ (49 : ℕ) := by
  have h53 : (2 : ℝ) ^ (53 : ℕ) = 9007199254740992 := by norm_num
  have h51 : (2 : ℝ) ^ (51 : ℕ) = 2251799813685248 := by norm_num
  have h49 : (2 : ℝ) ^ (49 : ℕ) = 562949953421312 := by norm_num
  obtain ⟨k, v, hd, hv, _, herr⟩ := decRound_err q a hq1 hq2 habs
  refine ⟨k, v, hd, hv, ?_⟩
  have e1 : (|a| + 1) / 2 ^ (51 : ℕ) = 4 * (1 / 2 ^ (53 : ℕ)) * (|a| + 1) := by
    rw [h53, h51]
    ring
  rw [e1] at herr
  have := round_err_aux q A a v (1 / 2 ^ (53 : ℕ)) K (by positivity) (by rw [h53]; norm_num)
    hK ha herr
  have e2 : 16 * (1 / 2 ^ (53 : ℕ)) * (|A| + 1) = (|A| + 1) / 2 ^ (49 : ℕ) := by
    rw [h53, h49]
    ring
  rw [e2] at this
  exact this

/-- Error of the product `float64(Fail) * avg`. -/
theorem cost_step1 (F A f a δ M : ℝ) (hδ0 : 0 ≤ δ) (hδ : δ ≤ 1 / 1000) (hF : 0 ≤ F)
    (hM : M = (F + 1) * (|A| + 1)) (hf : |f - F| ≤ (F + 1) * δ)
    (ha : |a - A| ≤ 6 * δ * (|A| + 1)) :
    |f * a - F * A| ≤ 8 * (M * δ) ∧ |f * a| ≤ 2 * M ∧ |F * A| ≤ M ∧ 1 ≤ M := by
  have hA : 0 ≤ |A| := abs_nonneg A
  have hM1 : 1 ≤ M := by
    rw [hM]
    nlinarith [mul_nonneg hF hA]
  have hp0 : 0 ≤ M * δ := mul_nonneg (by linarith) hδ0
  have hp1 : M * δ ≤ M * (1 / 1000) := mul_le_mul_of_nonneg_left hδ (by linarith)
  have hq0 : 0 ≤ δ * (|A| + 1) := mul_nonneg hδ0 (by linarith)
  have hq1 : δ * (|A| + 1) ≤ 1 / 1000 * (|A| + 1) :=
    mul_le_mul_of_nonneg_right hδ (by linarith)
  have haabs : |a| ≤ 1006 / 1000 * (|A| + 1) := by
    have := abs_sub_abs_le_abs_sub a A
    linarith
  have e : f * a - F * A = (f - F) * a + F * (a - A) := by ring
  have h1 : |(f - F) * a| ≤ 1006 / 1000 * (M * δ) := by
    rw [abs_mul]
    calc |f - F| * |a| ≤ (F + 1) * δ * (1006 / 1000 * (|A| + 1)) :=
          mul_le_mul hf haabs (abs_nonneg a) (mul_nonneg (by linarith) hδ0)
      _ = 1006 / 1000 * (M * δ) := by rw [hM]; ring
  have h2 : |F * (a - A)| ≤ 6 * (M * δ) := by
    rw [abs_mul, abs_of_nonneg hF]
    calc F * |a - A| ≤ (F + 1) * (6 * δ * (|A| + 1)) :=
          mul_le_mul (by linarith) ha (abs_nonneg _) (by linarith)
      _ = 6 * (M * δ) := by rw [hM]; ring
  have h3 : |f * a - F * A| ≤ 8 * (M * δ) := by
    rw [e]
    have := abs_add ((f - F) * a) (F * (a - A))
    linarith
  have h4 : |F * A| ≤ M := by
    rw [abs_mul, abs_of_nonneg hF, hM]
    nlinarith [mul_nonneg hF hA]
  refine ⟨h3, ?_, h4, hM1⟩
  have := abs_sub_abs_le_abs_sub (f * a) (F * A)
  linarith

/-- Error after rounding the product, dividing by 60 and rounding again. -/
theorem cost_step2 (X b0 b1 δ M : ℝ) (hδ0 : 0 ≤ δ) (hδ : δ ≤ 1 / 1000) (hM1 : 1 ≤ M)
    (h0 : |b0 - X| ≤ 8 * (M * δ)) (hb0 : |b0| ≤ 2 * M) (hX : |X| ≤ M)
    (hb : |b1 - b0| ≤ (|b0| + 1) * δ) :
    |b1 / 60| ≤ M ∧ ∀ c1 : ℝ, |c1 - b1 / 60| ≤ (|b1 / 60| + 1) * δ →
      |c1 - X / 60| ≤ 3 * (M * δ) ∧ |c1| ≤ M / 40 := by
  have hp0 : 0 ≤ M * δ := mul_nonneg (by linarith) hδ0
  have hp1 : M * δ ≤ M * (1 / 1000) := mul_le_mul_of_nonneg_left hδ (by linarith)
  have h1 : (|b0| + 1) * δ ≤ (2 * M + 1) * δ := mul_le_mul_of_nonneg_right (by linarith) hδ0
  have h2 : |b1 - X| ≤ 11 * (M * δ) := by
    have := abs_sub_le b1 b0 X
    nlinarith
  have h3 : |b1| ≤ 1011 / 1000 * M := by
    have := abs_sub_abs_le_abs_sub b1 X
    linarith
  have h4 : |b1 / 60| = |b1| / 60 := by rw [abs_div, abs_of_pos (by norm_num : (0 : ℝ) < 60)]
  refine ⟨by rw [h4]; linarith, ?_⟩
  intro c1 hc
  have h5 : (|b1 / 60| + 1) * δ ≤ (2 * M) * δ :=
    mul_le_mul_of_nonneg_right (by rw [h4]; linarith) hδ0
  have h6 : |b1 / 60 - X / 60| ≤ 11 / 60 * (M * δ) := by
    have e : b1 / 60 - X / 60 = (b1 - X) / 60 := by ring
    rw [e, abs_div, abs_of_pos (by norm_num : (0 : ℝ) < 60)]
    linarith
  have h7 : |c1 - X / 60| ≤ 3 * (M * δ) := by
    have := abs_sub_le c1 (b1 / 60) (X / 60)
    nlinarith
  refine ⟨h7, ?_⟩
  have h8 : |X / 60| = |X| / 60 := by rw [abs_div, abs_of_pos (by norm_num : (0 : ℝ) < 60)]
  have := abs_sub_abs_le_abs_sub c1 (X / 60)
  rw [h8] at this
  linarith

/-- Error after the multiplication by the cost per minute and its rounding. -/
theorem cost_step3 (x c c1 c2 δ M N : ℝ) (hδ0 : 0 ≤ δ) (hδ : δ ≤ 1 / 1000) (hM1 : 1 ≤ M)
    (hN : N = M * (|c| + 1)) (hx : |x| ≤ M / 60) (h1 : |c1 - x| ≤ 3 * (M * δ))
    (h2 : |c2 - c| ≤ (|c| + 1) * δ) :
    1 ≤ N ∧ |c1 * c2| ≤ N / 40 ∧ ∀ d : ℝ, |d - c1 * c2| ≤ (|c1 * c2| + 1) * δ →
      |d - x * c| ≤ 6 * (N * δ) ∧ |d| ≤ N / 40 := by
  have hc : 0 ≤ |c| := abs_nonneg c
  have hN1 : 1 ≤ N := by
    rw [hN]
    nlinarith [mul_nonneg (by linarith : (0 : ℝ) ≤ M) hc]
  have hp0 : 0 ≤ N * δ := mul_nonneg (by linarith) hδ0
  have hp1 : N * δ ≤ N * (1 / 1000) := mul_le_mul_of_nonneg_left hδ (by linarith)
  have hq1 : (|c| + 1) * δ ≤ (|c| + 1) * (1 / 1000) :=
    mul_le_mul_of_nonneg_left hδ (by linarith)
  have hc2 : |c2| ≤ 1001 / 1000 * (|c| + 1) := by
    have := abs_sub_abs_le_abs_sub c2 c
    linarith
  have e : c1 * c2 - x * c = (c1 - x) * c2 + x * (c2 - c) := by ring
  have g1 : |(c1 - x) * c2| ≤ 3003 / 1000 * (N * δ) := by
    rw [abs_mul]
    calc |c1 - x| * |c2| ≤ 3 * (M * δ) * (1001 / 1000 * (|c| + 1)) :=
          mul_le_mul h1 hc2 (abs_nonneg _) (by nlinarith [mul_nonneg (by linarith : (0:ℝ) ≤ M) hδ0])
      _ = 3003 / 1000 * (N * δ) := by rw [hN]; ring
  have g2 : |x * (c2 - c)| ≤ 1 / 60 * (N * δ) := by
    rw [abs_mul]
    calc |x| * |c2 - c| ≤ M / 60 * ((|c| + 1) * δ) :=
          mul_le_mul hx h2 (abs_nonneg _) (by linarith)
      _ = 1 / 60 * (N * δ) := by rw [hN]; ring
  have g3 : |c1 * c2 - x * c| ≤ 4 * (N * δ) := by
    rw [e]
    have := abs_add ((c1 - x) * c2) (x * (c2 - c))
    linarith
  have g4 : |x * c| ≤ N / 60 := by
    rw [abs_mul, hN]
    calc |x| * |c| ≤ M / 60 * (|c| + 1) := mul_le_mul hx (by linarith) hc (by linarith)
      _ = M * (|c| + 1) / 60 := by ring
  have g5 : |c1 * c2| ≤ N / 40 := by
    have := abs_sub_abs_le_abs_sub (c1 * c2) (x * c)
    linarith
  refine ⟨hN1, g5, ?_⟩
  intro d hd
  have g6 : (|c1 * c2| + 1) * δ ≤ (2 * N) * δ :=
    mul_le_mul_of_nonneg_right (by linarith) hδ0
  have g7 : |d - x * c| ≤ 6 * (N * δ) := by
    have := abs_sub_le d (c1 * c2) (x * c)
    nlinarith
  refine ⟨g7, ?_⟩
  have := abs_sub_abs_le_abs_sub d (x * c)
  linarith

/-- Error of `math.Round(d * q) / q` against the exact cost. -/
theorem cost_round_aux (q C d v δ N : ℝ) (hδ0 : 0 ≤ δ) (hN1 : 1 ≤ N)
    (hd : |d - C| ≤ 6 * (N * δ)) (hdabs : |d| ≤ N / 40)
    (hv : |v - d| ≤ 1 / (2 * q) + 4 * δ * (|d| + 1)) :
    |v - C| ≤ 1 / (2 * q) + 16 * (N * δ) := by
  have hp0 : 0 ≤ N * δ := mul_nonneg (by linarith) hδ0
  have h1 : δ * (|d| + 1) ≤ δ * (2 * N) := mul_le_mul_of_nonneg_left (by linarith) hδ0
  have := abs_sub_le v d C
  nlinarith

/-- The cost of a record with a total duration and a cost per minute of moderate size: every
operation is finite, and the reported value is the `float64` nearest to `k / 100` for an integer
`k`, within `0.005 + (F + 1) (|T / n| + 1) (|c| + 1) / 2 ^ 49` of the exact cost. -/
theorem cost_value (T c : ℝ) (F n : Int) (hF : 0 ≤ F) (hFn : F ≤ n) (hn1 : 1 ≤ n)
    (hn2 : n < 2 ^ (63 : ℕ)) (hT : |T| ≤ (2 : ℝ) ^ (400 : ℕ)) (hc : |c| ≤ (2 : ℝ) ^ (400 : ℕ)) :
    ∃ (k : ℤ) (v : ℝ),
      decRound 100 (fmul (fdiv (fmul (ofInt F) (fdiv (rnd64 T) (ofInt n))) (F64.fin 60))
        (rnd64 c)) = F64.fin v ∧
      rnd64 ((k : ℝ) / 100) = F64.fin v ∧
      |v - (F : ℝ) * (T / (n : ℝ)) / 60 * c| ≤
        1 / 200 + ((F : ℝ) + 1) * (|T / (n : ℝ)| + 1) * (|c| + 1) / 2 ^ (49 : ℕ) := by
  have h53 : (2 : ℝ) ^ (53 : ℕ) = 9007199254740992 := by norm_num
  have h49 : (2 : ℝ) ^ (49 : ℕ) = 562949953421312 := by norm_num
  have h51 : (2 : ℝ) ^ (51 : ℕ) = 2251799813685248 := by norm_num
  have hδ0 : (0 : ℝ) ≤ 1 / 2 ^ (53 : ℕ) := by positivity
  have hδ : (1 : ℝ) / 2 ^ (53 : ℕ) ≤ 1 / 1000 := by rw [h53]; norm_num
  have hFR : (0 : ℝ) ≤ (F : ℝ) := by exact_mod_cast hF
  have hnR : (1 : ℝ) ≤ (n : ℝ) := by exact_mod_cast hn1
  have hFnR : (F : ℝ) ≤ (n : ℝ) := by exact_mod_cast hFn
  have hn2R : (n : ℝ) < (2 : ℝ) ^ (63 : ℕ) := by exact_mod_cast hn2
  have h400 : (1 : ℝ) ≤ (2 : ℝ) ^ (400 : ℕ) := one_le_pow₀ (by norm_num)
  -- the size of the exact quantities
  have hAabs : |T / (n : ℝ)| ≤ (2 : ℝ) ^ (400 : ℕ) := by
    rw [abs_div, abs_of_pos (by linarith : (0 : ℝ) < (n : ℝ))]
    exact le_trans (div_le_self (abs_nonneg _) hnR) hT
  have hMle : ((F : ℝ) + 1) * (|T / (n : ℝ)| + 1) ≤ (2 : ℝ) ^ (465 : ℕ) := by
    have e : (2 : ℝ) ^ (465 : ℕ) = 2 ^ (64 : ℕ) * 2 ^ (401 : ℕ) := by rw [← pow_add]
    have e2 : (2 : ℝ) ^ (401 : ℕ) = 2 * 2 ^ (400 : ℕ) := by rw [pow_succ]; ring
    rw [e]
    refine mul_le_mul ?_ ?_ (by positivity) (by positivity)
    · have : (2 : ℝ) ^ (64 : ℕ) = 2 * 2 ^ (63 : ℕ) := by rw [pow_succ]; ring
      have h63 : (1 : ℝ) ≤ (2 : ℝ) ^ (63 : ℕ) := one_le_pow₀ (by norm_num)
      linarith
    · rw [e2]
      linarith
  have hNle : ((F : ℝ) + 1) * (|T / (n : ℝ)| + 1) * (|c| + 1) ≤ (2 : ℝ) ^ (866 : ℕ) := by
    have e : (2 : ℝ) ^ (866 : ℕ) = 2 ^ (465 : ℕ) * 2 ^ (401 : ℕ) := by rw [← pow_add]
    have e2 : (2 : ℝ) ^ (401 : ℕ) = 2 * 2 ^ (400 : ℕ) := by rw [pow_succ]; ring
    rw [e]
    refine mul_le_mul hMle ?_ (by positivity) (by positivity)
    rw [e2]
    linarith
  have hTB : |T| ≤ (2 : ℝ) ^ (1000 : ℕ) :=
    le_trans hT (pow_le_pow_right₀ (by norm_num) (by norm_num))
  have hcB : |c| ≤ (2 : ℝ) ^ (1023 : ℕ) :=
    le_trans hc (pow_le_pow_right₀ (by norm_num) (by norm_num))
  have hFB : |(F : ℝ)| ≤ (2 : ℝ) ^ (1023 : ℕ) := by
    rw [abs_of_nonneg hFR]
    exact le_trans (le_trans hFnR hn2R.le) (pow_le_pow_right₀ (by norm_num) (by norm_num))
  have hM1023 : 2 * (2 : ℝ) ^ (465 : ℕ) ≤ (2 : ℝ) ^ (1023 : ℕ) := by
    have : 2 * (2 : ℝ) ^ (465 : ℕ) = 2 ^ (466 : ℕ) := by rw [pow_succ]; ring
    rw [this]
    exact pow_le_pow_right₀ (by norm_num) (by norm_num)
  have hN1023 : (2 : ℝ) ^ (866 : ℕ) ≤ (2 : ℝ) ^ (1023 : ℕ) :=
    pow_le_pow_right₀ (by norm_num) (by norm_num)
  have hN1010 : (2 : ℝ) ^ (866 : ℕ) ≤ (2 : ℝ) ^ (1010 : ℕ) :=
    pow_le_pow_right₀ (by norm_num) (by norm_num)
  have h465 : (0 : ℝ) < (2 : ℝ) ^ (465 : ℕ) := by positivity
  have h866 : (0 : ℝ) < (2 : ℝ) ^ (866 : ℕ) := by positivity
  -- the operations
  obtain ⟨a, ha, haerr, _⟩ := quot_value T n hn1 hn2 hTB
  obtain ⟨f, hf, hferr⟩ := rnd64_abs (F : ℝ) hFB
  rw [abs_of_nonneg hFR] at hferr
  have hferr' : |f - (F : ℝ)| ≤ ((F : ℝ) + 1) * (1 / 2 ^ (53 : ℕ)) := by
    rw [mul_one_div]; exact hferr
  obtain ⟨s1, s2, s3, hM1⟩ := cost_step1 (F : ℝ) (T / (n : ℝ)) f a (1 / 2 ^ (53 : ℕ))
    (((F : ℝ) + 1) * (|T / (n : ℝ)| + 1)) hδ0 hδ hFR rfl hferr' haerr
  obtain ⟨b1, hb1, hb1err⟩ := rnd64_abs (f * a) (by linarith)
  have hb1err' : |b1 - f * a| ≤ (|f * a| + 1) * (1 / 2 ^ (53 : ℕ)) := by
    rw [mul_one_div]; exact hb1err
  obtain ⟨t1, t2⟩ := cost_step2 ((F : ℝ) * (T / (n : ℝ))) (f * a) b1 (1 / 2 ^ (53 : ℕ))
    (((F : ℝ) + 1) * (|T / (n : ℝ)| + 1)) hδ0 hδ hM1 s1 s2 s3 hb1err'
  obtain ⟨c1, hc1, hc1err⟩ := rnd64_abs (b1 / 60) (by linarith)
  have hc1err' : |c1 - b1 / 60| ≤ (|b1 / 60| + 1) * (1 / 2 ^ (53 : ℕ)) := by
    rw [mul_one_div]; exact hc1err
  obtain ⟨t3, t4⟩ := t2 c1 hc1err'
  obtain ⟨c2, hc2, hc2err⟩ := rnd64_abs c hcB
  have hc2err' : |c2 - c| ≤ (|c| + 1) * (1 / 2 ^ (53 : ℕ)) := by
    rw [mul_one_div]; exact hc2err
  have hx : |(F : ℝ) * (T / (n : ℝ)) / 60| ≤ ((F : ℝ) + 1) * (|T / (n : ℝ)| + 1) / 60 := by
    rw [abs_div, abs_of_pos (by norm_num : (0 : ℝ) < 60)]
    exact div_le_div_of_nonneg_right s3 (by norm_num)
  obtain ⟨hN1, u1, u2⟩ := cost_step3 ((F : ℝ) * (T / (n : ℝ)) / 60) c c1 c2 (1 / 2 ^ (53 : ℕ))
    (((F : ℝ) + 1) * (|T / (n : ℝ)| + 1)) (((F : ℝ) + 1) * (|T / (n : ℝ)| + 1) * (|c| + 1))
    hδ0 hδ hM1 rfl hx t3 hc2err'
  obtain ⟨d, hd, hderr⟩ := rnd64_abs (c1 * c2) (by linarith)
  have hderr' : |d - c1 * c2| ≤ (|c1 * c2| + 1) * (1 / 2 ^ (53 : ℕ)) := by
    rw [mul_one_div]; exact hderr
  obtain ⟨u3, u4⟩ := u2 d hderr'
  obtain ⟨k, v, hv1, hv2, _, hverr⟩ := decRound_err 100 d (by norm_num) (by norm_num)
    (by linarith)
  refine ⟨k, v, ?_, hv2, ?_⟩
  · rw [ha, show ofInt F = F64.fin f from hf]
    simp only [fmul, hb1, fdiv, if_neg (by norm_num : (60 : ℝ) ≠ 0), hc1, hc2, hd]
    exact hv1
  · have e1 : (|d| + 1) / 2 ^ (51 : ℕ) = 4 * (1 / 2 ^ (53 : ℕ)) * (|d| + 1) := by
      rw [h53, h51]
      ring
    rw [e1] at hverr
    have := cost_round_aux 100 ((F : ℝ) * (T / (n : ℝ)) / 60 * c) d v (1 / 2 ^ (53 : ℕ))
      (((F : ℝ) + 1) * (|T / (n : ℝ)| + 1) * (|c| + 1)) hδ0 hN1 u3 u4 hverr
    have e2 : 16 * (((F : ℝ) + 1) * (|T / (n : ℝ)| + 1) * (|c| + 1) * (1 / 2 ^ (53 : ℕ))) =
        ((F : ℝ) + 1) * (|T / (n : ℝ)| + 1) * (|c| + 1) / 2 ^ (49 : ℕ) := by
      rw [h53, h49]
      ring
    rw [e2] at this
    norm_num at this ⊢
    exact this

theorem ofInt_natCast (P : ℕ) : ofInt (P : Int) = rnd64 (P : ℝ) := by
  unfold ofInt
  rw [Int.cast_natCast]

/-- The reported flakiness probability: the `float64` nearest to `k / 1000` for an integer `k`,
within `0.0005 + 2 ^ (-48)` of a probability `prob` between 0 and 1. -/
theorem flakyProb_value (prob : ℝ) (h0 : 0 ≤ prob) (h1 : prob ≤ 1) :
    ∃ (k : ℤ) (v : ℝ), decRound 1000 (rnd64 prob) = F64.fin v ∧
      rnd64 ((k : ℝ) / 1000) = F64.fin v ∧ |v - prob| ≤ 1 / 2000 + 1 / 2 ^ (48 : ℕ) := by
  have h53 : (2 : ℝ) ^ (53 : ℕ) = 9007199254740992 := by norm_num
  have h49 : (2 : ℝ) ^ (49 : ℕ) = 562949953421312 := by norm_num
  have h48 : (2 : ℝ) ^ (48 : ℕ) = 281474976710656 := by norm_num
  have habs : |prob| = prob := abs_of_nonneg h0
  have hB : (1 : ℝ) ≤ (2 : ℝ) ^ (1023 : ℕ) := one_le_pow₀ (by norm_num)
  have hB' : (2 : ℝ) ≤ (2 : ℝ) ^ (1010 : ℕ) := by
    calc (2 : ℝ) = 2 ^ (1 : ℕ) := by norm_num
      _ ≤ (2 : ℝ) ^ (1010 : ℕ) := pow_le_pow_right₀ (by norm_num) (by norm_num)
  obtain ⟨y, hy, hyerr⟩ := rnd64_abs prob (by rw [habs]; linarith)
  have hyabs : |y| ≤ 2 := by
    have := abs_sub_abs_le_abs_sub y prob
    have h2 : (|prob| + 1) / 2 ^ (53 : ℕ) ≤ 1 := by
      rw [h53, habs, div_le_one (by norm_num)]
      linarith
    linarith
  obtain ⟨k, v, hv1, hv2, hverr⟩ := decRound_value 1000 prob y 1 (by norm_num) (le_refl _)
    (by norm_num) (by rw [one_mul, one_div_mul_eq_div]; exact hyerr) (by linarith)
  refine ⟨k, v, by rw [hy]; exact hv1, hv2, ?_⟩
  have h3 : (|prob| + 1) / 2 ^ (49 : ℕ) ≤ 1 / 2 ^ (48 : ℕ) := by
    rw [h49, h48, habs, div_le_div_iff₀ (by norm_num) (by norm_num)]
    linarith
  norm_num at hverr h3 ⊢
  linarith

/-- The reported pass rate of a record with at least one run and counters whose sum is in the
`int` range: the `float64` nearest to `k / 1000` for an integer `k`, within
`0.0005 + 2 ^ (-48)` of `Pass / n`. -/
theorem passRate_value (P F : ℕ) (hn1 : 1 ≤ P + F) (hn2 : P + F < 2 ^ 63) :
    ∃ (k : ℤ) (v : ℝ),
      decRound 1000 (fdiv (ofInt (P : Int)) (ofInt ((P : Int) + (F : Int)))) = F64.fin v ∧
      rnd64 ((k : ℝ) / 1000) = F64.fin v ∧
      |v - (P : ℝ) / ((P : ℝ) + (F : ℝ))| ≤ 1 / 2000 + 1 / 2 ^ (48 : ℕ) := by
  have h49 : (2 : ℝ) ^ (49 : ℕ) = 562949953421312 := by norm_num
  have h48 : (2 : ℝ) ^ (48 : ℕ) = 281474976710656 := by norm_num
  have hPR : (0 : ℝ) ≤ (P : ℝ) := Nat.cast_nonneg P
  have hFR : (0 : ℝ) ≤ (F : ℝ) := Nat.cast_nonneg F
  have hnR : (1 : ℝ) ≤ (P : ℝ) + (F : ℝ) := by exact_mod_cast hn1
  have hn2R : (P : ℝ) + (F : ℝ) < (2 : ℝ) ^ (63 : ℕ) := by exact_mod_cast hn2
  have hPabs : |(P : ℝ)| ≤ (2 : ℝ) ^ (1000 : ℕ) := by
    rw [abs_of_nonneg hPR]
    exact le_trans (by linarith) (pow_le_pow_right₀ (by norm_num : (1 : ℝ) ≤ 2)
      (by norm_num : 63 ≤ 1000))
  obtain ⟨a, ha, haerr, haabs⟩ := quot_value (P : ℝ) ((P : Int) + (F : Int)) (by omega)
    (by norm_num at hn2 ⊢; omega) hPabs
  push_cast at haerr
  obtain ⟨k, v, hv1, hv2, hverr⟩ := decRound_value 1000 ((P : ℝ) / ((P : ℝ) + (F : ℝ))) a 6
    (by norm_num) (le_refl _) (by norm_num) haerr haabs
  refine ⟨k, v, by rw [ofInt_natCast, ha]; exact hv1, hv2, ?_⟩
  have hq : |(P : ℝ) / ((P : ℝ) + (F : ℝ))| ≤ 1 := by
    rw [abs_div, abs_of_nonneg hPR, abs_of_pos (by linarith), div_le_one (by linarith)]
    linarith
  have h3 : (|(P : ℝ) / ((P : ℝ) + (F : ℝ))| + 1) / 2 ^ (49 : ℕ) ≤ 1 / 2 ^ (48 : ℕ) := by
    rw [h49, h48, div_le_div_iff₀ (by norm_num) (by norm_num)]
    linarith
  norm_num at hverr h3 ⊢
  linarith

/-- The reported average duration of a record with at least one run, counters whose sum is in
the `int` range and a total duration of moderate size: the `float64` nearest to `k / 100` for an
integer `k`, within `0.005 + (|T / n| + 1) / 2 ^ 49` of `T / n`. -/
theorem avgTime_value (T : ℝ) (n : Int) (hn1 : 1 ≤ n) (hn2 : n < 2 ^ (63 : ℕ))
    (hT : |T| ≤ (2 : ℝ) ^ (1000 : ℕ)) :
    ∃ (k : ℤ) (v : ℝ), decRound 100 (fdiv (rnd64 T) (ofInt n)) = F64.fin v ∧
      rnd64 ((k : ℝ) / 100) = F64.fin v ∧
      |v - T / (n : ℝ)| ≤ 1 / 200 + (|T / (n : ℝ)| + 1) / 2 ^ (49 : ℕ) := by
  obtain ⟨a, ha, haerr, haabs⟩ := quot_value T n hn1 hn2 hT
  obtain ⟨k, v, hv1, hv2, hverr⟩ := decRound_value 100 (T / (n : ℝ)) a 6
    (by norm_num) (by norm_num) (by norm_num) haerr haabs
  refine ⟨k, v, by rw [ha]; exact hv1, hv2, ?_⟩
  norm_num at hverr ⊢
  exact hverr

/-- C10, amended: every entry `Detect` reports is the entry of a record `r` at or above the
threshold, its `Runs` is the `int` sum `r.Pass + r.Fail` (wrapped to 64 bits), and its
`FlakyProb` is the `float64` nearest to `k / 1000` for an integer `k`, within
`0.0005 + 2 ^ (-48)` of `BetaFlaky r.Pass r.Fail`. When `n = r.Pass + r.Fail` is at least 1 and
in the `int` range: `Runs = n`; `PassRate` is the `float64` nearest to `k / 1000` for an integer
`k`, within `0.0005 + 2 ^ (-48)` of `r.Pass / n`; for `|r.TotalTime| ≤ 2 ^ 1000`, `AvgTime` is
the `float64` nearest to `k / 100` for an integer `k`, within `0.005 + (|t| + 1) / 2 ^ 49` of
`t = r.TotalTime / n`; and for `|r.TotalTime| ≤ 2 ^ 400` and `|costPerMinute| ≤ 2 ^ 400`,
`CICostUSD` is the `float64` nearest to `k / 100` for an integer `k`, within
`0.005 + (r.Fail + 1) (|t| + 1) (|costPerMinute| + 1) / 2 ^ 49` of
`r.Fail * t / 60 * costPerMinute`, the cost computed from the unrounded average. -/
theorem detect_entry_values (lower : Str → Str) (records : RecMap) (costPerMin threshold : ℝ)
    (e : FlakyTest) (he : e ∈ Detect lower records costPerMin threshold) :
    ∃ kr ∈ records, threshold ≤ BetaFlaky kr.2.Pass kr.2.Fail ∧
      e.Name = kr.2.Name ∧ e.Class = kr.2.Class ∧
      e.Runs = wrapInt ((kr.2.Pass : Int) + (kr.2.Fail : Int)) ∧
      (∃ (k : ℤ) (v : ℝ), e.FlakyProb = F64.fin v ∧ rnd64 ((k : ℝ) / 1000) = F64.fin v ∧
        |v - BetaFlaky kr.2.Pass kr.2.Fail| ≤ 1 / 2000 + 1 / 2 ^ (48 : ℕ)) ∧
      (1 ≤ kr.2.Pass + kr.2.Fail → kr.2.Pass + kr.2.Fail < 2 ^ 63 →
        e.Runs = (kr.2.Pass : Int) + (kr.2.Fail : Int) ∧
        (∃ (k : ℤ) (v : ℝ), e.PassRate = F64.fin v ∧ rnd64 ((k : ℝ) / 1000) = F64.fin v ∧
          |v - (kr.2.Pass : ℝ) / ((kr.2.Pass : ℝ) + (kr.2.Fail : ℝ))| ≤
            1 / 2000 + 1 / 2 ^ (48 : ℕ)) ∧
        (|kr.2.TotalTime| ≤ 2 ^ (1000 : ℕ) →
          ∃ (k : ℤ) (v : ℝ), e.AvgTime = F64.fin v ∧ rnd64 ((k : ℝ) / 100) = F64.fin v ∧
            |v - kr.2.TotalTime / ((kr.2.Pass : ℝ) + (kr.2.Fail : ℝ))| ≤
              1 / 200 + (|kr.2.TotalTime / ((kr.2.Pass : ℝ) + (kr.2.Fail : ℝ))| + 1) /
                2 ^ (49 : ℕ)) ∧
        (|kr.2.TotalTime| ≤ 2 ^ (400 : ℕ) → |costPerMin| ≤ 2 ^ (400 : ℕ) →
          ∃ (k : ℤ) (v : ℝ), e.CICostUSD = F64.fin v ∧ rnd64 ((k : ℝ) / 100) = F64.fin v ∧
            |v - (kr.2.Fail : ℝ) * (kr.2.TotalTime / ((kr.2.Pass : ℝ) + (kr.2.Fail : ℝ))) / 60 *
                costPerMin| ≤
              1 / 200 + ((kr.2.Fail : ℝ) + 1) *
                (|kr.2.TotalTime / ((kr.2.Pass : ℝ) + (kr.2.Fail : ℝ))| + 1) *
                (|costPerMin| + 1) / 2 ^ (49 : ℕ))) := by
  obtain ⟨kr, hkr, hge, rfl⟩ := (mem_detect lower records costPerMin threshold e).1 he
  refine ⟨kr, hkr, hge, rfl, rfl, rfl, ?_, ?_⟩
  · exact flakyProb_value _ (betaFlaky_nonneg _ _) (betaFlaky_le_one _ _)
  · intro hn1 hn2
    have hn1' : (1 : Int) ≤ (kr.2.Pass : Int) + (kr.2.Fail : Int) := by omega
    have hn2' : (kr.2.Pass : Int) + (kr.2.Fail : Int) < 2 ^ (63 : ℕ) := by
      norm_num at hn2 ⊢
      omega
    have hw : wrapInt ((kr.2.Pass : Int) + (kr.2.Fail : Int)) =
        (kr.2.Pass : Int) + (kr.2.Fail : Int) :=
      wrapInt_eq_self (by omega) (by norm_num at hn2' ⊢; omega)
    have hcast : (((kr.2.Pass : Int) + (kr.2.Fail : Int) : Int) : ℝ) =
        (kr.2.Pass : ℝ) + (kr.2.Fail : ℝ) := by push_cast; rfl
    refine ⟨hw, ?_, ?_, ?_⟩
    · show ∃ (k : ℤ) (v : ℝ), decRound 1000 (fdiv (ofInt (kr.2.Pass : Int))
        (ofInt (wrapInt ((kr.2.Pass : Int) + (kr.2.Fail : Int))))) = F64.fin v ∧ _
      rw [hw]
      exact passRate_value _ _ hn1 hn2
    · intro hT
      show ∃ (k : ℤ) (v : ℝ), decRound 100 (fdiv (rnd64 kr.2.TotalTime)
        (ofInt (wrapInt ((kr.2.Pass : Int) + (kr.2.Fail : Int))))) = F64.fin v ∧ _
      rw [hw, ← hcast]
      exact avgTime_value _ _ hn1' hn2' hT
    · intro hT hc
      show ∃ (k : ℤ) (v : ℝ), decRound 100 (fmul (fdiv (fmul (ofInt (kr.2.Fail : Int))
        (fdiv (rnd64 kr.2.TotalTime) (ofInt (wrapInt ((kr.2.Pass : Int) + (kr.2.Fail : Int))))))
        (F64.fin 60)) (rnd64 costPerMin)) = F64.fin v ∧ _
      rw [hw, ← hcast]
      have := cost_value kr.2.TotalTime costPerMin (kr.2.Fail : Int)
        ((kr.2.Pass : Int) + (kr.2.Fail : Int)) (by omega) (by omega) hn1' hn2' hT hc
      rw [Int.cast_natCast] at this
      exact this

/-- Witness of C10 (amended): the report holding the entry of `auth::test_token` (one pass,
two failures, total duration 3) at the cost per minute and the threshold of the test file. -/
theorem detect_entry_values_witness :
    ∃ kr ∈ [("auth::test_token".toList, tokenRecord)],
      (0.5 : ℝ) ≤ BetaFlaky kr.2.Pass kr.2.Fail ∧
      (mkEntry ToLowerASCII tokenRecord 0.008 (BetaFlaky 1 2)).Name = kr.2.Name ∧
      (mkEntry ToLowerASCII tokenRecord 0.008 (BetaFlaky 1 2)).Class = kr.2.Class ∧
      (mkEntry ToLowerASCII tokenRecord 0.008 (BetaFlaky 1 2)).Runs =
        wrapInt ((kr.2.Pass : Int) + (kr.2.Fail : Int)) ∧
      (∃ (k : ℤ) (v : ℝ),
        (mkEntry ToLowerASCII tokenRecord 0.008 (BetaFlaky 1 2)).FlakyProb = F64.fin v ∧
        rnd64 ((k : ℝ) / 1000) = F64.fin v ∧
        |v - BetaFlaky kr.2.Pass kr.2.Fail| ≤ 1 / 2000 + 1 / 2 ^ (48 : ℕ)) ∧
      (1 ≤ kr.2.Pass + kr.2.Fail → kr.2.Pass + kr.2.Fail < 2 ^ 63 →
        (mkEntry ToLowerASCII tokenRecord 0.008 (BetaFlaky 1 2)).Runs =
          (kr.2.Pass : Int) + (kr.2.Fail : Int) ∧
        (∃ (k : ℤ) (v : ℝ),
          (mkEntry ToLowerASCII tokenRecord 0.008 (BetaFlaky 1 2)).PassRate = F64.fin v ∧
          rnd64 ((k : ℝ) / 1000) = F64.fin v ∧
          |v - (kr.2.Pass : ℝ) / ((kr.2.Pass : ℝ) + (kr.2.Fail : ℝ))| ≤
            1 / 2000 + 1 / 2 ^ (48 : ℕ)) ∧
        (|kr.2.TotalTime| ≤ 2 ^ (1000 : ℕ) →
          ∃ (k : ℤ) (v : ℝ),
            (mkEntry ToLowerASCII tokenRecord 0.008 (BetaFlaky 1 2)).AvgTime = F64.fin v ∧
            rnd64 ((k : ℝ) / 100) = F64.fin v ∧
            |v - kr.2.TotalTime / ((kr.2.Pass : ℝ) + (kr.2.Fail : ℝ))| ≤
              1 / 200 + (|kr.2.TotalTime / ((kr.2.Pass : ℝ) + (kr.2.Fail : ℝ))| + 1) /
                2 ^ (49 : ℕ)) ∧
        (|kr.2.TotalTime| ≤ 2 ^ (400 : ℕ) → |(0.008 : ℝ)| ≤ 2 ^ (400 : ℕ) →
          ∃ (k : ℤ) (v : ℝ),
            (mkEntry ToLowerASCII tokenRecord 0.008 (BetaFlaky 1 2)).CICostUSD = F64.fin v ∧
            rnd64 ((k : ℝ) / 100) = F64.fin v ∧
            |v - (kr.2.Fail : ℝ) * (kr.2.TotalTime / ((kr.2.Pass : ℝ) + (kr.2.Fail : ℝ))) / 60 *
                0.008| ≤
              1 / 200 + ((kr.2.Fail : ℝ) + 1) *
                (|kr.2.TotalTime / ((kr.2.Pass : ℝ) + (kr.2.Fail : ℝ))| + 1) *
                (|(0.008 : ℝ)| + 1) / 2 ^ (49 : ℕ))) :=
  detect_entry_values ToLowerASCII [("auth::test_token".toList, tokenRecord)] 0.008 0.5
    (mkEntry ToLowerASCII tokenRecord 0.008 (BetaFlaky 1 2))
    ((mem_detect _ _ _ _ _).2 ⟨("auth::test_token".toList, tokenRecord),
      List.mem_singleton_self _, by
        have := betaFlaky_one_two
        show (0.5 : ℝ) ≤ BetaFlaky 1 2
        norm_num
        linarith, rfl⟩)

/-! ## The divisor of the pipeline -/

/-- The runs of a record are among the outcomes that `Aggregate` has read. -/
theorem aggregate_observed_le (runs : List (List TestCase)) (kr : Str × TestRecord)
    (h : kr ∈ Aggregate runs) : kr.2.Pass + kr.2.Fail ≤ runs.flatten.length := by
  have hg := mapGet_aggregate_of_mem runs kr h
  have hc := observed_aggregate runs kr.1
  rw [hg] at hc
  simp only [observed] at hc
  rw [hc]
  exact List.length_filter_le _ _

/-- C18: every record produced by `Aggregate` has `Pass ≥ 0`, `Fail ≥ 0` and
`Pass + Fail ≥ 1`, and every entry of `Detect (Aggregate runs)`, for every `costPerMinute` and
every threshold (thresholds `≤ 0` included), is the entry of such a record, whose `Runs` is
the `int` sum of the two counters, at most the number of outcomes read. So for runs with less
than `2 ^ 63` outcomes in all (the length of a Go slice is an `int`) each entry has `Runs ≥ 1`
and the divisor `float64(n)` of its quotients is a finite number `≥ 1`: no division by zero.
The pass rate is then a finite number; the average duration is a finite number when no total
duration exceeds `2 ^ 1000` in absolute value, and so is the cost when neither a total
duration nor `costPerMinute` exceeds `2 ^ 400` in absolute value. -/
theorem detect_aggregate_no_zero_division (lower : Str → Str) (runs : List (List TestCase))
    (costPerMin threshold : ℝ) (e : FlakyTest)
    (he : e ∈ Detect lower (Aggregate runs) costPerMin threshold) :
    (∀ kr ∈ Aggregate runs, 0 ≤ kr.2.Pass ∧ 0 ≤ kr.2.Fail ∧ 1 ≤ kr.2.Pass + kr.2.Fail) ∧
    (∃ kr ∈ Aggregate runs, 1 ≤ kr.2.Pass + kr.2.Fail ∧
      kr.2.Pass + kr.2.Fail ≤ runs.flatten.length ∧
      e.Runs = wrapInt ((kr.2.Pass : Int) + (kr.2.Fail : Int))) ∧
    (runs.flatten.length < 2 ^ 63 →
      1 ≤ e.Runs ∧
      (∃ d, ofInt e.Runs = F64.fin d ∧ 1 ≤ d) ∧
      (∃ v, e.PassRate = F64.fin v) ∧
      ((∀ kr ∈ Aggregate runs, |kr.2.TotalTime| ≤ 2 ^ (1000 : ℕ)) →
        ∃ v, e.AvgTime = F64.fin v) ∧
      ((∀ kr ∈ Aggregate runs, |kr.2.TotalTime| ≤ 2 ^ (400 : ℕ)) →
        |costPerMin| ≤ 2 ^ (400 : ℕ) → ∃ v, e.CICostUSD = F64.fin v)) := by
  refine ⟨fun kr hkr => ⟨Nat.zero_le _, Nat.zero_le _, aggregate_observed_pos runs kr hkr⟩, ?_⟩
  obtain ⟨kr, hkr, _, rfl⟩ := (mem_detect lower _ costPerMin threshold e).1 he
  have hn := aggregate_observed_pos runs kr hkr
  have hle := aggregate_observed_le runs kr hkr
  refine ⟨⟨kr, hkr, hn, hle, rfl⟩, ?_⟩
  intro hlen
  have hn2 : kr.2.Pass + kr.2.Fail < 2 ^ 63 := lt_of_le_of_lt hle hlen
  have hn1' : (1 : Int) ≤ (kr.2.Pass : Int) + (kr.2.Fail : Int) := by omega
  have hn2' : (kr.2.Pass : Int) + (kr.2.Fail : Int) < 2 ^ (63 : ℕ) := by
    norm_num at hn2 ⊢
    omega
  have hw : wrapInt ((kr.2.Pass : Int) + (kr.2.Fail : Int)) =
      (kr.2.Pass : Int) + (kr.2.Fail : Int) :=
    wrapInt_eq_self (by omega) (by norm_num at hn2' ⊢; omega)
  obtain ⟨d, hd, hd1, _⟩ := ofInt_pos _ hn1' hn2'
  have hruns : (mkEntry lower kr.2 costPerMin (BetaFlaky kr.2.Pass kr.2.Fail)).Runs =
      (kr.2.Pass : Int) + (kr.2.Fail : Int) := hw
  refine ⟨by rw [hruns]; exact hn1', ⟨d, by rw [hruns]; exact hd, hd1⟩, ?_, ?_, ?_⟩
  · obtain ⟨k, v, hv, _, _⟩ := passRate_value kr.2.Pass kr.2.Fail hn hn2
    refine ⟨v, ?_⟩
    show decRound 1000 (fdiv (ofInt (kr.2.Pass : Int))
      (ofInt (wrapInt ((kr.2.Pass : Int) + (kr.2.Fail : Int))))) = F64.fin v
    rw [hw]
    exact hv
  · intro hT
    obtain ⟨k, v, hv, _, _⟩ := avgTime_value kr.2.TotalTime _ hn1' hn2' (hT kr hkr)
    refine ⟨v, ?_⟩
    show decRound 100 (fdiv (rnd64 kr.2.TotalTime)
      (ofInt (wrapInt ((kr.2.Pass : Int) + (kr.2.Fail : Int))))) = F64.fin v
    rw [hw]
    exact hv
  · intro hT hc
    obtain ⟨k, v, hv, _, _⟩ := cost_value kr.2.TotalTime costPerMin (kr.2.Fail : Int)
      ((kr.2.Pass : Int) + (kr.2.Fail : Int)) (by omega) (by omega) hn1' hn2' (hT kr hkr) hc
    refine ⟨v, ?_⟩
    show decRound 100 (fmul (fdiv (fmul (ofInt (kr.2.Fail : Int))
      (fdiv (rnd64 kr.2.TotalTime) (ofInt (wrapInt ((kr.2.Pass : Int) + (kr.2.Fail : Int))))))
      (F64.fin 60)) (rnd64 costPerMin)) = F64.fin v
    rw [hw]
    exact hv

/-- Witness of C18: the entry of `auth::test_login` (three passes) in the report of the three
runs of the test file at threshold `-1`. -/
theorem detect_aggregate_no_zero_division_witness :
    1 ≤ (mkEntry ToLowerASCII ⟨"test_login".toList, "auth".toList, 3, 0, 0 + 0.5 + 0.4 + 0.5, []⟩
      0.008 (BetaFlaky 3 0)).Runs ∧
    (∃ d, ofInt (mkEntry ToLowerASCII
      ⟨"test_login".toList, "auth".toList, 3, 0, 0 + 0.5 + 0.4 + 0.5, []⟩
      0.008 (BetaFlaky 3 0)).Runs = F64.fin d ∧ 1 ≤ d) ∧
    (∃ v, (mkEntry ToLowerASCII ⟨"test_login".toList, "auth".toList, 3, 0, 0 + 0.5 + 0.4 + 0.5, []⟩
      0.008 (BetaFlaky 3 0)).PassRate = F64.fin v) :=
  have h := (detect_aggregate_no_zero_division ToLowerASCII [xmlRun1, xmlRun2, xmlRun3] 0.008 (-1)
      (mkEntry ToLowerASCII ⟨"test_login".toList, "auth".toList, 3, 0, 0 + 0.5 + 0.4 + 0.5, []⟩
        0.008 (BetaFlaky 3 0))
      ((mem_detect _ _ _ _ _).2
        ⟨("auth::test_login".toList,
            ⟨"test_login".toList, "auth".toList, 3, 0, 0 + 0.5 + 0.4 + 0.5, []⟩),
          by rw [aggregate_test_runs]; simp,
          by have := betaFlaky_nonneg 3 0; linarith, rfl⟩)).2.2
      (by simp [xmlRun1, xmlRun2, xmlRun3])
  ⟨h.1, h.2.1, h.2.2.1⟩

end FlakeGuard
